import Mathlib

/-!
Verification of the Rf-Duplicator certificate-duplicate engine.

The repository has two Python strategies that scan a newline-delimited
record log, group records sharing a certificate fingerprint, and emit one
aggregated JSON line per fingerprint occurring at least twice:

* `cert_duplicate_identifier_runtime_optimized.py` (memory-resident):
  `process_data` builds a map fingerprint -> list of (start, length) byte
  ranges, `write` renders all duplicate groups in one pass.
* `cert_duplicate_identifier_memory_scalable.py` (disk-resident):
  `process_data` keeps one `MapValue` per fingerprint and incrementally
  builds one temp file per duplicated fingerprint (`append`), and
  `merge_and_create_output` concatenates the temp files.

Modelling conventions of this shallow embedding:

* A file's content is a `List Char`, one `Char` per byte.  Byte offsets are
  list indices.  Python reads the input both in binary mode (scan) and in
  text mode (look-back reads); the embedding identifies the two, which is
  exact for single-byte (ASCII) data.
* `splitLines` models repeated `readline` on a binary handle: each chunk
  ends with the newline that terminated it; the last chunk may be
  unterminated; the chunks concatenate back to the file.
* Fingerprint extraction
  (`list(ijson.items(io.BytesIO(line), 'data.leaf_cert'))[0]['fingerprint']`)
  is modelled by `extractFp`: a full JSON parse of the line (ijson raises on
  any malformed byte while the generator is forced), taking the first
  `leaf_cert` value under a `data` key in document order (ijson prefix
  semantics), then a Python-dict lookup of `'fingerprint'` (last duplicate
  key wins).  Values that are JSON arrays or objects are unhashable in
  Python (`dict` key / `TypeError`), hence extraction errors; scalar values
  (strings, numbers, booleans, null) are accepted and stringified by `%s`
  like Python `str`.  `\uXXXX` string escapes are not modelled (the model's
  input space is correspondingly smaller); numeric tokens are kept verbatim
  rather than normalised the way `Decimal.__str__` would.
* The disk-resident temp directory is a `List (Nat × List Char)` keyed by
  the counter used in the temp file name; `merge_and_create_output`'s
  `glob` enumeration is modelled as creation order (the model fixes one
  deterministic enumeration; claims about group sets/multisets are
  insensitive to it).
-/

/-! ## Basic byte/line utilities -/

/-- JSON whitespace (space, tab, line feed, carriage return). -/
def isWs (c : Char) : Bool :=
  c = ' ' || c = '\t' || c = '\n' || c = '\r'

/-- Python `str.rstrip()` whitespace set (ASCII part): JSON whitespace plus
vertical tab and form feed. -/
def isPyWs (c : Char) : Bool :=
  isWs c || c = Char.ofNat 11 || c = Char.ofNat 12

/-- Python `s.rstrip()`: drop trailing whitespace. -/
def rstrip (s : List Char) : List Char :=
  (s.reverse.dropWhile isPyWs).reverse

/-- Python `s.rstrip(',')`: drop trailing commas. -/
def rstripComma (s : List Char) : List Char :=
  (s.reverse.dropWhile (fun c => c = ',')).reverse

/-- `f.seek(start); f.read(length)`: the byte range `[start, start+length)`
of a file content. -/
def readAt (input : List Char) (start length : Nat) : List Char :=
  (input.drop start).take length

/-- Sum of the lengths of a list of lines. -/
def lenSum (ls : List (List Char)) : Nat :=
  (ls.map List.length).sum

/-- Successive results of `readline` on a binary handle over `s`: each
chunk ends with `'\n'` except possibly the last, and the chunks concatenate
back to `s`. -/
def splitLines (s : List Char) : List (List Char) :=
  s.foldr
    (fun c acc =>
      if c = '\n' then ['\n'] :: acc
      else
        match acc with
        | [] => [[c]]
        | a :: as => (c :: a) :: as)
    []

/-! ## JSON values -/

/-- JSON values as materialised by the (modelled) ijson library.  Numeric
literals keep their source token. -/
inductive JVal where
  | null : JVal
  | bool : Bool → JVal
  | num : List Char → JVal
  | str : List Char → JVal
  | arr : List JVal → JVal
  | obj : List (List Char × JVal) → JVal

mutual

def jvalBeq : JVal → JVal → Bool
  | JVal.null, JVal.null => true
  | JVal.bool a, JVal.bool b => a == b
  | JVal.num a, JVal.num b => a == b
  | JVal.str a, JVal.str b => a == b
  | JVal.arr a, JVal.arr b => jvalListBeq a b
  | JVal.obj a, JVal.obj b => jvalFieldsBeq a b
  | _, _ => false

def jvalListBeq : List JVal → List JVal → Bool
  | [], [] => true
  | a :: as, b :: bs => jvalBeq a b && jvalListBeq as bs
  | _, _ => false

def jvalFieldsBeq : List (List Char × JVal) → List (List Char × JVal) → Bool
  | [], [] => true
  | (k, v) :: as, (k2, v2) :: bs => k == k2 && jvalBeq v v2 && jvalFieldsBeq as bs
  | _, _ => false

end

mutual

theorem jvalBeq_iff : ∀ a b : JVal, jvalBeq a b = true ↔ a = b
  | JVal.null, b => by
    cases b <;> simp [jvalBeq]
  | JVal.bool x, b => by
    cases b <;> simp [jvalBeq]
  | JVal.num x, b => by
    cases b <;> simp [jvalBeq]
  | JVal.str x, b => by
    cases b <;> simp [jvalBeq]
  | JVal.arr xs, b => by
    cases b <;> simp [jvalBeq]
    exact jvalListBeq_iff xs _
  | JVal.obj xs, b => by
    cases b <;> simp [jvalBeq]
    exact jvalFieldsBeq_iff xs _

theorem jvalListBeq_iff : ∀ a b : List JVal, jvalListBeq a b = true ↔ a = b
  | [], b => by cases b <;> simp [jvalListBeq]
  | x :: xs, b => by
    cases b with
    | nil => simp [jvalListBeq]
    | cons y ys =>
      simp [jvalListBeq, Bool.and_eq_true, jvalBeq_iff x y, jvalListBeq_iff xs ys]

theorem jvalFieldsBeq_iff :
    ∀ a b : List (List Char × JVal), jvalFieldsBeq a b = true ↔ a = b
  | [], b => by cases b <;> simp [jvalFieldsBeq]
  | (k, v) :: xs, b => by
    cases b with
    | nil => simp [jvalFieldsBeq]
    | cons y ys =>
      obtain ⟨k2, v2⟩ := y
      simp [jvalFieldsBeq, Bool.and_eq_true, jvalBeq_iff v v2, jvalFieldsBeq_iff xs ys,
        and_assoc]

end

instance : DecidableEq JVal := fun a b =>
  decidable_of_iff (jvalBeq a b = true) (jvalBeq_iff a b)

/-! ## JSON parsing (model of the ijson library's strict parse) -/

/-- Two-character string escapes (`\uXXXX` escapes are outside the model). -/
def escChar : Char → Option Char
  | 'n' => some '\n'
  | 't' => some '\t'
  | 'r' => some '\r'
  | 'b' => some (Char.ofNat 8)
  | 'f' => some (Char.ofNat 12)
  | '"' => some '"'
  | '\\' => some '\\'
  | '/' => some '/'
  | _ => none

/-- Parse the body of a JSON string literal (after the opening quote),
returning the unescaped content and the input after the closing quote. -/
def parseStringBody : List Char → Option (List Char × List Char)
  | [] => none
  | c :: rest =>
    if c = '"' then some ([], rest)
    else if c = '\\' then
      match rest with
      | [] => none
      | e :: rest2 =>
        match escChar e with
        | none => none
        | some c2 =>
          match parseStringBody rest2 with
          | none => none
          | some (s, rem) => some (c2 :: s, rem)
    else if c.toNat < 32 then none
    else
      match parseStringBody rest with
      | none => none
      | some (s, rem) => some (c :: s, rem)

/-- Match a literal character sequence, returning the rest of the input. -/
def expectToken : List Char → List Char → Option (List Char)
  | [], s => some s
  | c :: cs, s =>
    match s with
    | [] => none
    | d :: ds => if c = d then expectToken cs ds else none

/-- Characters a numeric token may contain. -/
def isNumChar (c : Char) : Bool :=
  c.isDigit || c = '-' || c = '+' || c = '.' || c = 'e' || c = 'E'

/-- Parser request: a value, array elements, or object fields. -/
inductive PReq where
  | value : PReq
  | elems : PReq
  | fields : PReq

/-- Parser result corresponding to a `PReq`. -/
inductive POut where
  | value : JVal → POut
  | elems : List JVal → POut
  | fields : List (List Char × JVal) → POut

/-- Recursive-descent JSON parser.  `PReq.value` parses one value (leading
whitespace allowed); `PReq.elems` parses the elements of a non-empty array
after `[`, including `]`; `PReq.fields` parses the fields of a non-empty
object after the opening brace, including the closing brace.  Structurally
recursive on `fuel` so that it evaluates by kernel reduction. -/
def parseStep : Nat → PReq → List Char → Option (POut × List Char)
  | 0, _, _ => none
  | fuel + 1, PReq.value, s =>
    match s.dropWhile isWs with
    | [] => none
    | c :: rest =>
      if c = '"' then
        match parseStringBody rest with
        | none => none
        | some (str, rem) => some (POut.value (JVal.str str), rem)
      else if c = '\x7b' then
        match rest.dropWhile isWs with
        | '\x7d' :: rem2 => some (POut.value (JVal.obj []), rem2)
        | _ =>
          match parseStep fuel PReq.fields rest with
          | some (POut.fields fs, rem) => some (POut.value (JVal.obj fs), rem)
          | _ => none
      else if c = '[' then
        match rest.dropWhile isWs with
        | ']' :: rem2 => some (POut.value (JVal.arr []), rem2)
        | _ =>
          match parseStep fuel PReq.elems rest with
          | some (POut.elems es, rem) => some (POut.value (JVal.arr es), rem)
          | _ => none
      else if c = 't' then
        match expectToken ['r', 'u', 'e'] rest with
        | none => none
        | some rem => some (POut.value (JVal.bool true), rem)
      else if c = 'f' then
        match expectToken ['a', 'l', 's', 'e'] rest with
        | none => none
        | some rem => some (POut.value (JVal.bool false), rem)
      else if c = 'n' then
        match expectToken ['u', 'l', 'l'] rest with
        | none => none
        | some rem => some (POut.value JVal.null, rem)
      else if c.isDigit || c = '-' then
        some (POut.value (JVal.num ((c :: rest).takeWhile isNumChar)),
          (c :: rest).dropWhile isNumChar)
      else none
  | fuel + 1, PReq.elems, s =>
    match parseStep fuel PReq.value s with
    | some (POut.value j, rem) =>
      match rem.dropWhile isWs with
      | ',' :: rest =>
        match parseStep fuel PReq.elems rest with
        | some (POut.elems js, rem2) => some (POut.elems (j :: js), rem2)
        | _ => none
      | ']' :: rest => some (POut.elems [j], rest)
      | _ => none
    | _ => none
  | fuel + 1, PReq.fields, s =>
    match s.dropWhile isWs with
    | '"' :: rest =>
      match parseStringBody rest with
      | none => none
      | some (key, rem) =>
        match rem.dropWhile isWs with
        | ':' :: rest2 =>
          match parseStep fuel PReq.value rest2 with
          | some (POut.value v, rem2) =>
            match rem2.dropWhile isWs with
            | ',' :: rest3 =>
              match parseStep fuel PReq.fields rest3 with
              | some (POut.fields fs, rem3) => some (POut.fields ((key, v) :: fs), rem3)
              | _ => none
            | '\x7d' :: rest3 => some (POut.fields [(key, v)], rest3)
            | _ => none
          | _ => none
        | _ => none
    | _ => none

/-- Fuel that is always sufficient for `parseStep` on input `s`. -/
def szFuel (s : List Char) : Nat := 2 * s.length + 2

/-- Parse one JSON value, returning it and the unconsumed input. -/
def parseValue (fuel : Nat) (s : List Char) : Option (JVal × List Char) :=
  match parseStep fuel PReq.value s with
  | some (POut.value j, rem) => some (j, rem)
  | _ => none

/-- Parse a complete JSON document: one value followed only by whitespace.
Models forcing `list(ijson.items(...))`, which raises on any trailing
non-whitespace garbage or malformed content. -/
def parseTop (s : List Char) : Option JVal :=
  match parseValue (szFuel s) s with
  | none => none
  | some (j, rem) => if rem.all isWs then some j else none

/-- All values stored under key `k` in an object's field list, in document
order. -/
def atKey (fs : List (List Char × JVal)) (k : List Char) : List JVal :=
  (fs.filter (fun p => p.1 == k)).map (fun p => p.2)

/-- All values at ijson prefix `data.leaf_cert`, in document order. -/
def leafCerts : JVal → List JVal
  | JVal.obj fs =>
    ((atKey fs "data".toList).map
      (fun d =>
        match d with
        | JVal.obj fs2 => atKey fs2 "leaf_cert".toList
        | _ => [])).flatten
  | _ => []

/-- Python-dict lookup on raw JSON fields: the last duplicate key wins. -/
def lookupLast (fs : List (List Char × JVal)) (k : List Char) : Option JVal :=
  ((fs.filter (fun p => p.1 == k)).map (fun p => p.2)).getLast?

/-- Whether a materialised JSON value is hashable in Python (usable as a
dict key): lists and dicts are not. -/
def hashable : JVal → Bool
  | JVal.arr _ => false
  | JVal.obj _ => false
  | _ => true

/-- `finger_print_str = list(ijson.items(io.BytesIO(line), 'data.leaf_cert'))[0]['fingerprint']`.
`none` models the exceptions that abort the run: malformed JSON anywhere in
the line, no `data.leaf_cert` match (`IndexError`), a non-dict at the
prefix or a missing `'fingerprint'` key (`TypeError`/`KeyError`), or an
unhashable (array/object) fingerprint value, which would raise when used as
a dict key.  Scalar values of any type are accepted. -/
def extractFp (line : List Char) : Option JVal :=
  match parseTop line with
  | none => none
  | some j =>
    match (leafCerts j).head? with
    | some (JVal.obj fs) =>
      match lookupLast fs "fingerprint".toList with
      | some v => if hashable v then some v else none
      | none => none
    | _ => none

/-- Python `'%s' % v` for the scalar fingerprint values that get through
`extractFp` (`str` of a Python value). -/
def pyStr : JVal → List Char
  | JVal.str s => s
  | JVal.num t => t
  | JVal.bool true => "True".toList
  | JVal.bool false => "False".toList
  | JVal.null => "None".toList
  | _ => []

/-- `'\x7b"fingerprint": "%s", "certificates": [' % finger_print`
(`runtime_optimized:146`, `memory_scalable:117`). -/
def header (fps : List Char) : List Char :=
  "\x7b\"fingerprint\": \"".toList ++ fps ++ "\", \"certificates\": [".toList

/-- The fixed 3-byte closing sentinel `']' '\x7d' '\n'` that ends every
per-fingerprint file. -/
def sentinel : List Char := "]\x7d\n".toList

/-! ## Memory-resident strategy (`cert_duplicate_identifier_runtime_optimized.py`) -/

/-- `map_value.position_array.append((start, length))` on an existing key,
or insertion of `MapValue([(start, length)])` for a fresh key
(`runtime_optimized:102-109`).  The association list preserves Python dict
insertion order. -/
def mrUpdate (m : List (JVal × List (Nat × Nat))) (k : JVal) (p : Nat × Nat) :
    List (JVal × List (Nat × Nat)) :=
  match m with
  | [] => [(k, [p])]
  | (k2, ps) :: rest =>
    if k2 = k then (k2, ps ++ [p]) :: rest else (k2, ps) :: mrUpdate rest k p

/-- The scan loop of `runtime_optimized.process_data` (lines 87-113), from
line index `i` at byte offset `pos`: `start = tell()`, `line = readline()`,
`end = tell()`, `length = end - start`, fingerprint extraction (whose
failure aborts the run with the failing line's index), map update. -/
def mrScanFrom :
    List (List Char) → Nat → Nat → List (JVal × List (Nat × Nat)) →
      Except Nat (List (JVal × List (Nat × Nat)))
  | [], _, _, m => Except.ok m
  | l :: ls, i, pos, m =>
    match extractFp l with
    | none => Except.error i
    | some k => mrScanFrom ls (i + 1) (pos + l.length) (mrUpdate m k (pos, l.length))

/-- One output line of `runtime_optimized.write` (lines 146-154) for a
fingerprint rendered as `fps` with occurrence ranges `ps`: the header, each
re-read record `rstrip`ed and followed by `','`, then `text.rstrip(',')`,
`']' '\x7d'` and a newline. -/
def mrGroupText (input : List Char) (fps : List Char) (ps : List (Nat × Nat)) :
    List Char :=
  rstripComma
      (ps.foldl (fun acc p => acc ++ rstrip (readAt input p.1 p.2) ++ [',']) (header fps))
    ++ sentinel

/-- `runtime_optimized.write` (lines 141-155): iterate the map in insertion
order and emit one line per fingerprint whose `position_array` has more
than one element. -/
def mrWrite (input : List Char) (m : List (JVal × List (Nat × Nat))) : List Char :=
  m.foldl
    (fun acc e => if 1 < e.2.length then acc ++ mrGroupText input (pyStr e.1) e.2 else acc)
    []

/-- Full memory-resident run on a file content: `process_data` then
`write`; `Except.error i` models the uncaught extraction exception at line
`i`, in which case `write` never runs. -/
def mrRun (file : List Char) : Except Nat (List Char) :=
  (mrScanFrom (splitLines file) 0 0 []).map (fun m => mrWrite file m)

/-! ## Disk-resident strategy (`cert_duplicate_identifier_memory_scalable.py`) -/

/-- `TAG_NEW` / `TAG_EXISTING`. -/
inductive Tag where
  | NW : Tag
  | EX : Tag
deriving DecidableEq

/-- `MapValue` (`memory_scalable:54-76`): first-occurrence byte range, tag,
temp-file path (the counter naming it) and the file's end offset.  `path`
and `end_offset` start as the placeholder `""`, modelled by `none`. -/
structure MapValue where
  start : Nat
  length : Nat
  tag : Tag
  path : Option Nat
  end_offset : Option Nat
deriving DecidableEq

/-- The temp directory: contents of `temp/<n>.jsonline` keyed by `n`, in
creation order. -/
def FileSys : Type := List (Nat × List Char)

/-- Read a temp file's content (`open(finger_print_filename, ...)`); the
scan invariant guarantees the path exists whenever it is opened. -/
def fsRead (fs : List (Nat × List Char)) (p : Nat) : List Char :=
  match fs with
  | [] => []
  | (q, c) :: rest => if q = p then c else fsRead rest p

/-- Create or overwrite a temp file: replace in place if the path exists
(`'w'` truncates), append a new entry otherwise. -/
def fsWrite (fs : List (Nat × List Char)) (p : Nat) (content : List Char) :
    List (Nat × List Char) :=
  match fs with
  | [] => [(p, content)]
  | (q, c) :: rest =>
    if q = p then (q, content) :: rest else (q, c) :: fsWrite rest p content

/-- `f.seek(pos); f.write(w)` on a file opened `'r+'` with content `c`:
bytes before `pos` are kept, `w` overwrites from `pos`, and any old bytes
past `pos + w.length` survive. -/
def writeAt (c : List Char) (pos : Nat) (w : List Char) : List Char :=
  c.take pos ++ w ++ c.drop (pos + w.length)

/-- `memory_scalable.append` (lines 92-130).  `TAG_NEW`: re-read the first
occurrence from the input, write header, both `rstrip`ed records separated
by `','`, and the closing sentinel to a fresh file, returning `tell()`.
Otherwise: open the existing file, `seek(end_offset - 3)`, overwrite with
`',' + current.rstrip() + ']\x7d' + '\n'`, returning `tell()`.  Result:
(new end offset, updated temp directory). -/
def dsAppend (input : List Char) (fps : List Char) (mv : MapValue)
    (cur : List Char) (fs : List (Nat × List Char)) : Nat × List (Nat × List Char) :=
  let p := mv.path.getD 0
  if mv.tag = Tag.NW then
    let firstObj := readAt input mv.start mv.length
    let tempStr := header fps ++ rstrip firstObj ++ ',' :: rstrip cur ++ sentinel
    (tempStr.length, fsWrite fs p tempStr)
  else
    let e := mv.end_offset.getD 0
    let old := fsRead fs p
    let w := ',' :: rstrip cur ++ sentinel
    (e - 3 + w.length, fsWrite fs p (writeAt old (e - 3) w))

/-- State of the disk-resident scan: the fingerprint map (insertion
order), the unique-duplicated-fingerprint counter `count`, and the temp
directory. -/
structure DsSt where
  fmap : List (JVal × MapValue)
  count : Nat
  files : List (Nat × List Char)

/-- First-match association-list lookup (Python dict keys are unique). -/
def lookupA {α : Type} (m : List (JVal × α)) (k : JVal) : Option α :=
  match m with
  | [] => none
  | (k2, v) :: rest => if k2 = k then some v else lookupA rest k

/-- `self.finger_print_map[finger_print_str] = map_value`: replace in place
if present (keeping dict insertion order), append otherwise. -/
def setA (m : List (JVal × MapValue)) (k : JVal) (v : MapValue) :
    List (JVal × MapValue) :=
  match m with
  | [] => [(k, v)]
  | (k2, v2) :: rest =>
    if k2 = k then (k2, v) :: rest else (k2, v2) :: setA rest k v

/-- One iteration of `memory_scalable.process_data`'s loop body (lines
180-201) for a line with extracted fingerprint `k` starting at offset
`pos`.  Fresh fingerprint: insert `MapValue(start, length, TAG_NEW, "", "")`.
Second occurrence (`tag == TAG_NEW`): `count += 1`, assign the path,
`append`, record `end_offset`, set `TAG_EXISTING`.  Later occurrences:
`append` and update `end_offset`. -/
def dsStep (input : List Char) (st : DsSt) (pos : Nat) (line : List Char) (k : JVal) :
    DsSt :=
  match lookupA st.fmap k with
  | some mv =>
    if mv.tag = Tag.NW then
      let cnt := st.count + 1
      let mv1 : MapValue := { mv with path := some cnt }
      let r := dsAppend input (pyStr k) mv1 line st.files
      { fmap := setA st.fmap k { mv1 with end_offset := some r.1, tag := Tag.EX },
        count := cnt, files := r.2 }
    else
      let r := dsAppend input (pyStr k) mv line st.files
      { fmap := setA st.fmap k { mv with end_offset := some r.1 },
        count := st.count, files := r.2 }
  | none =>
    { st with fmap := setA st.fmap k ⟨pos, line.length, Tag.NW, none, none⟩ }

/-- The scan loop of `memory_scalable.process_data` (lines 164-205), from
line index `i` at byte offset `pos`; extraction failure aborts the run. -/
def dsScanFrom (input : List Char) :
    List (List Char) → Nat → Nat → DsSt → Except Nat DsSt
  | [], _, _, st => Except.ok st
  | l :: ls, i, pos, st =>
    match extractFp l with
    | none => Except.error i
    | some k => dsScanFrom input ls (i + 1) (pos + l.length) (dsStep input st pos l k)

/-- `merge_and_create_output` (lines 219-223): byte-level concatenation of
every temp file, in the modelled (creation-order) `glob` enumeration. -/
def dsMerge (fs : List (Nat × List Char)) : List Char :=
  (fs.map (fun e => e.2)).flatten

/-- Full disk-resident run on a file content: `process_data` then
`merge_and_create_output`; `Except.error i` models the uncaught extraction
exception at line `i`, in which case no merge happens. -/
def dsRun (file : List Char) : Except Nat (List Char) :=
  (dsScanFrom file (splitLines file) 0 0 ⟨[], 0, []⟩).map (fun st => dsMerge st.files)

/-! ## Reference descriptions used by the specifications -/

/-- The `(start, length)` ranges, in input order, of the lines of `ls`
(starting at byte offset `pos`) whose extracted fingerprint is `k`. -/
def occAux (k : JVal) : List (List Char) → Nat → List (Nat × Nat)
  | [], _ => []
  | l :: ls, pos =>
    (if extractFp l = some k then [(pos, l.length)] else [])
      ++ occAux k ls (pos + l.length)

/-- The number of lines of `ls` whose extracted fingerprint is `k`. -/
def countK (ls : List (List Char)) (k : JVal) : Nat :=
  ls.countP (fun l => decide (extractFp l = some k))

/-- Folding the scan over `ls`: `seen` accumulates every fingerprint in
first-occurrence order, `dups` every fingerprint with at least two
occurrences in second-occurrence order.  Lines whose extraction fails stop
the fold (the scan aborts there). -/
def seenDup : List (List Char) → List JVal × List JVal → List JVal × List JVal
  | [], sd => sd
  | l :: ls, (seen, dups) =>
    match extractFp l with
    | none => (seen, dups)
    | some k =>
      if k ∈ dups then seenDup ls (seen, dups)
      else if k ∈ seen then seenDup ls (seen, dups ++ [k])
      else seenDup ls (seen ++ [k], dups)

/-- `r1 ++ "," ++ r2 ++ "," ++ ... ++ rn`. -/
def interComma : List (List Char) → List Char
  | [] => []
  | [r] => r
  | r :: rs => r ++ ',' :: interComma rs

/-- The canonical rendered duplicate group for a fingerprint rendered as
`fps` with (already `rstrip`ed) records `recs`: this is the exact content
of a disk-resident per-fingerprint temp file. -/
def dsRender (fps : List Char) (recs : List (List Char)) : List Char :=
  header fps ++ interComma recs ++ sentinel

/-- The `rstrip`ed records of fingerprint `k` re-read from `input`, in
input order. -/
def recsOf (input : List Char) (lines : List (List Char)) (k : JVal) :
    List (List Char) :=
  (occAux k lines 0).map (fun p => rstrip (readAt input p.1 p.2))

/-- The duplicate groups (fingerprint, records) in the final map of the
memory-resident scan, in map order. -/
def mrDupGroups (input : List Char) (m : List (JVal × List (Nat × Nat))) :
    List (JVal × List (List Char)) :=
  m.filterMap
    (fun e =>
      if 1 < e.2.length then
        some (e.1, e.2.map (fun p => rstrip (readAt input p.1 p.2)))
      else none)

/-- A run of the whole input is consumed without extraction failure. -/
def allOk (ls : List (List Char)) : Prop :=
  ∀ l ∈ ls, extractFp l ≠ none

/-! ## Helper lemmas: lists, `rstrip`, `splitLines`, `readAt` -/

/-- Index of the first occurrence of `k` in a list. -/
def idxJ (k : JVal) : List JVal → Nat
  | [] => 0
  | x :: xs => if x = k then 0 else idxJ k xs + 1

/-- The temp directory expected after a scan: one file per duplicated
fingerprint `k`, in second-occurrence order, named `base + position + 1`,
with content `f k`. -/
def filesFrom (f : JVal → List Char) (base : Nat) : List JVal → List (Nat × List Char)
  | [] => []
  | k :: ks => (base + 1, f k) :: filesFrom f (base + 1) ks

/-- Invariant of `mrScanFrom` after processing prefix `P`: the map's keys
are the seen fingerprints in first-occurrence order, and each key holds
exactly its occurrence ranges, in input order. -/
def mrInv (P : List (List Char)) (m : List (JVal × List (Nat × Nat))) : Prop :=
  m.map Prod.fst = (seenDup P ([], [])).1 ∧
  ∀ k : JVal,
    (match lookupA m k with
     | none => occAux k P 0 = []
     | some ps => ps = occAux k P 0 ∧ ps ≠ [])

/-- Expected content of the temp file of a duplicated fingerprint `k`
after scanning `P`. -/
def dsFileContent (input : List Char) (P : List (List Char)) (k : JVal) : List Char :=
  dsRender (pyStr k) (recsOf input P k)

/-- Invariant of one `finger_print_map` entry of the disk-resident scan
after processing prefix `P`, where `dups` is the duplicated-fingerprint
sequence: a missing entry means no occurrence; a `TAG_NEW` entry carries
the sole occurrence's range and placeholder path/offset; a `TAG_EXISTING`
entry carries the first occurrence's range, the temp path named by its
1-based position in `dups`, and the temp file's end offset. -/
def entryInv (input : List Char) (P : List (List Char)) (dups : List JVal)
    (k : JVal) : Option MapValue → Prop
  | none => occAux k P 0 = []
  | some mv =>
    ∃ s0 n0 rest, occAux k P 0 = (s0, n0) :: rest ∧ mv.start = s0 ∧ mv.length = n0 ∧
      ((rest = [] ∧ mv.tag = Tag.NW ∧ mv.path = none ∧ mv.end_offset = none ∧ k ∉ dups)
        ∨ (rest ≠ [] ∧ mv.tag = Tag.EX ∧ k ∈ dups ∧ mv.path = some (idxJ k dups + 1)
            ∧ mv.end_offset = some (dsFileContent input P k).length))

/-- Invariant of the disk-resident scan state after processing prefix `P`. -/
def dsInv (input : List Char) (P : List (List Char)) (st : DsSt) : Prop :=
  st.count = (seenDup P ([], [])).2.length ∧
  st.files = filesFrom (dsFileContent input P) 0 (seenDup P ([], [])).2 ∧
  st.fmap.map Prod.fst = (seenDup P ([], [])).1 ∧
  ∀ k : JVal, entryInv input P (seenDup P ([], [])).2 k (lookupA st.fmap k)

mutual

def szJ : JVal → Nat
  | JVal.null => 1
  | JVal.bool _ => 1
  | JVal.num _ => 1
  | JVal.str _ => 1
  | JVal.arr es => 1 + szL es
  | JVal.obj fs => 1 + szF fs

def szL : List JVal → Nat
  | [] => 0
  | e :: es => szJ e + 1 + szL es

def szF : List (List Char × JVal) → Nat
  | [] => 0
  | f :: fs => szJ f.2 + 1 + szF fs

end

/-- Characters that may appear raw (unescaped) in a JSON string literal. -/
def strOkChar (c : Char) : Bool :=
  decide (c ≠ '"') && decide (c ≠ '\\') && decide (32 ≤ c.toNat)

/-- A string whose verbatim interpolation into a JSON template stays
valid: no quote, no backslash, no control character. -/
def strSafe (s : List Char) : Bool := s.all strOkChar

/-- Characters that can start a JSON value. -/
def valueStart (c : Char) : Bool :=
  c = '"' || c = '\x7b' || c = '[' || c = 't' || c = 'f' || c = 'n'
    || c.isDigit || c = '-'

/-- Boundary condition on the continuation `t` after a parsed value: only
numeric tokens can be extended, so `t` must not begin with a numeric
character in that case. -/
def BndOk : JVal → List Char → Prop
  | JVal.num _, t => ∀ c, t.head? = some c → isNumChar c = false
  | _, _ => True

/-- The consumed text `pre` re-parses as the value `j` before any
boundary-compatible continuation, is nonempty, starts (after whitespace)
with a value-start character, ends with a non-whitespace non-comma
character, and bounds the value's recursion measure. -/
def ValExt (pre : List Char) (j : JVal) : Prop :=
  pre ≠ []
    ∧ (∃ c x, pre.dropWhile isWs = c :: x ∧ valueStart c = true)
    ∧ (∃ c, pre.getLast? = some c ∧ isPyWs c = false ∧ c ≠ ',')
    ∧ szJ j ≤ 2 * pre.length
    ∧ ∀ f t, szJ j ≤ f → BndOk j t →
        parseStep f PReq.value (pre ++ t) = some (POut.value j, t)

/-- The consumed element text (up to and including the closing `]`)
re-parses as the array elements before any continuation. -/
def ElemsExt (pre : List Char) (es : List JVal) : Prop :=
  es ≠ []
    ∧ (∃ c x, pre.dropWhile isWs = c :: x ∧ valueStart c = true)
    ∧ pre.getLast? = some ']'
    ∧ szL es ≤ 2 * pre.length
    ∧ ∀ f t, szL es ≤ f →
        parseStep f PReq.elems (pre ++ t) = some (POut.elems es, t)

/-- The consumed field text (up to and including the closing brace)
re-parses as the object fields before any continuation. -/
def FieldsExt (pre : List Char) (fs : List (List Char × JVal)) : Prop :=
  fs ≠ []
    ∧ (∃ x, pre.dropWhile isWs = '"' :: x)
    ∧ pre.getLast? = some '\x7d'
    ∧ szF fs ≤ 2 * pre.length
    ∧ ∀ f t, szF fs ≤ f →
        parseStep f PReq.fields (pre ++ t) = some (POut.fields fs, t)

/-- The final output, split into lines with their terminating newline
removed, as a line-oriented consumer (one JSON document per line) reads
it. -/
def outLines (s : List Char) : List (List Char) :=
  (splitLines s).map (fun l => if l.getLast? = some '\n' then l.dropLast else l)

/-- Every fingerprint extracted from `file` interpolates safely into the
output template: no quote, backslash or control character (`'%s' %
finger_print` performs no JSON escaping). -/
def fpsSafe (file : List Char) : Bool :=
  (splitLines file).all (fun l =>
    match extractFp l with
    | some k => strSafe (pyStr k)
    | none => true)

/-- One well-formed input line with string fingerprint `AB` (47 bytes). -/
def wLineAB : List Char :=
  "\x7b\"data\": \x7b\"leaf_cert\": \x7b\"fingerprint\": \"AB\"\x7d\x7d\x7d\n".toList

/-- Two copies of that line: fingerprint `AB` occurs twice. -/
def wfileAB : List Char := wLineAB ++ wLineAB

/-- The duplicate group emitted for `wfileAB`. -/
def wGroupAB : List Char :=
  "\x7b\"fingerprint\": \"AB\", \"certificates\": [\x7b\"data\": \x7b\"leaf_cert\": \x7b\"fingerprint\": \"AB\"\x7d\x7d\x7d,\x7b\"data\": \x7b\"leaf_cert\": \x7b\"fingerprint\": \"AB\"\x7d\x7d\x7d]\x7d\n".toList

/-- The memory-resident scan result on `wfileAB`. -/
def wMAB : List (JVal × List (Nat × Nat)) :=
  [(JVal.str "AB".toList, [(0, 47), (47, 47)])]

/-- The disk-resident scan state on `wfileAB`. -/
def wStAB : DsSt :=
  ⟨[(JVal.str "AB".toList, ⟨0, 47, Tag.EX, some 1, some 135⟩)], 1, [(1, wGroupAB)]⟩

/-! ## Theorem development -/

example :
    parseTop "\x7b\"a\": [1, true]\x7d".toList
      = some (JVal.obj [("a".toList, JVal.arr [JVal.num ['1'], JVal.bool true])]) := by
  rfl

/-! ## Fingerprint extraction
(`list(ijson.items(io.BytesIO(line), 'data.leaf_cert'))[0]['fingerprint']`,
`src/*:175` and `src/*:96`) -/

example :
    extractFp "\x7b\"data\": \x7b\"leaf_cert\": \x7b\"fingerprint\": \"AB\"\x7d\x7d\x7d\n".toList
      = some (JVal.str "AB".toList) := by
  rfl

example :
    extractFp "\x7b\"data\": \x7b\"leaf_cert\": \x7b\"fingerprint\": 5\x7d\x7d\x7d\n".toList
      = some (JVal.num ['5']) := by
  rfl

example :
    extractFp "\x7b\"data\": \x7b\"leaf_cert\": \x7b\"print\": \"AB\"\x7d\x7d\x7d\n".toList
      = none := by
  rfl

/-! ## Shared output syntax -/

theorem dropWhile_append_all {p : Char → Bool} :
    ∀ (a b : List Char), (∀ c ∈ a, p c = true) →
      (a ++ b).dropWhile p = b.dropWhile p
  | [], b, _ => rfl
  | c :: a, b, h => by
    simp only [List.cons_append, List.dropWhile_cons, h c (by simp)]
    exact dropWhile_append_all a b (fun x hx => h x (by simp [hx]))

theorem dropWhile_head_false {p : Char → Bool} (l : List Char)
    (h : ∀ c, l.head? = some c → p c = false) : l.dropWhile p = l := by
  cases l with
  | nil => rfl
  | cons c rest => simp [List.dropWhile_cons, h c rfl]

theorem mem_takeWhile_sat {p : Char → Bool} :
    ∀ (l : List Char) (c : Char), c ∈ l.takeWhile p → p c = true
  | [], _, h => by simp at h
  | x :: xs, c, h => by
    by_cases hp : p x = true
    · rw [List.takeWhile_cons, if_pos hp] at h
      rcases List.mem_cons.mp h with h | h
      · rwa [h]
      · exact mem_takeWhile_sat xs c h
    · rw [List.takeWhile_cons, if_neg hp] at h
      simp at h

theorem rstrip_decomp (s : List Char) :
    s = rstrip s ++ (s.reverse.takeWhile isPyWs).reverse := by
  have h : s.reverse.takeWhile isPyWs ++ s.reverse.dropWhile isPyWs = s.reverse :=
    List.takeWhile_append_dropWhile isPyWs s.reverse
  calc s = s.reverse.reverse := (List.reverse_reverse s).symm
    _ = (s.reverse.takeWhile isPyWs ++ s.reverse.dropWhile isPyWs).reverse := by rw [h]
    _ = rstrip s ++ (s.reverse.takeWhile isPyWs).reverse := by
        rw [List.reverse_append]; rfl

theorem rstrip_suffix_ws (s : List Char) :
    ∀ c ∈ (s.reverse.takeWhile isPyWs).reverse, isPyWs c = true := fun c hc =>
  mem_takeWhile_sat _ c (List.mem_reverse.mp hc)

theorem rstrip_append_ws (s w : List Char) (hw : ∀ c ∈ w, isPyWs c = true) :
    rstrip (s ++ w) = rstrip s := by
  unfold rstrip
  rw [List.reverse_append]
  rw [dropWhile_append_all _ _ (fun c hc => hw c (List.mem_reverse.mp hc))]

theorem rstrip_eq_self (s : List Char)
    (h : ∀ c, s.getLast? = some c → isPyWs c = false) : rstrip s = s := by
  unfold rstrip
  rw [dropWhile_head_false]
  · exact s.reverse_reverse
  · intro c hc
    exact h c (by rwa [← List.head?_reverse])

theorem rstrip_length (s : List Char) :
    (rstrip s).length + (s.reverse.takeWhile isPyWs).length = s.length := by
  conv_rhs => rw [rstrip_decomp s]
  simp

theorem lenSum_append (a b : List (List Char)) :
    lenSum (a ++ b) = lenSum a + lenSum b := by
  simp [lenSum]

theorem lenSum_flatten (ls : List (List Char)) : ls.flatten.length = lenSum ls := by
  induction ls with
  | nil => rfl
  | cons l ls ih =>
    simp only [lenSum, List.flatten_cons, List.length_append, List.map_cons, List.sum_cons]
    simp only [lenSum] at ih
    omega

theorem splitLines_cons (c : Char) (s : List Char) :
    splitLines (c :: s) =
      if c = '\n' then ['\n'] :: splitLines s
      else
        match splitLines s with
        | [] => [[c]]
        | a :: as => (c :: a) :: as := rfl

theorem splitLines_flatten (s : List Char) : (splitLines s).flatten = s := by
  induction s with
  | nil => rfl
  | cons c s ih =>
    rw [splitLines_cons]
    by_cases hc : c = '\n'
    · subst hc; simp [ih]
    · rw [if_neg hc]
      cases h : splitLines s with
      | nil => rw [h] at ih; simpa using ih.symm
      | cons a as => rw [h] at ih; simp_all

theorem splitLines_ne_nil (s : List Char) :
    ∀ l ∈ splitLines s, l ≠ [] := by
  induction s with
  | nil => simp [splitLines]
  | cons c s ih =>
    rw [splitLines_cons]
    by_cases hc : c = '\n'
    · simp only [if_pos hc]
      intro l hl
      rcases List.mem_cons.mp hl with h | h
      · simp [h]
      · exact ih l h
    · rw [if_neg hc]
      cases h : splitLines s with
      | nil => simp
      | cons a as =>
        intro l hl
        rcases List.mem_cons.mp hl with h2 | h2
        · simp [h2]
        · exact ih l (by rw [h]; exact List.mem_cons_of_mem a h2)

theorem splitLines_no_inner_nl (s : List Char) :
    ∀ l ∈ splitLines s, '\n' ∉ l.dropLast := by
  induction s with
  | nil => simp [splitLines]
  | cons c s ih =>
    rw [splitLines_cons]
    by_cases hc : c = '\n'
    · simp only [if_pos hc]
      intro l hl
      rcases List.mem_cons.mp hl with h | h
      · simp [h]
      · exact ih l h
    · rw [if_neg hc]
      cases h : splitLines s with
      | nil => simp
      | cons a as =>
        intro l hl
        rcases List.mem_cons.mp hl with h2 | h2
        · subst h2
          have hane : a ≠ [] := splitLines_ne_nil s a (by rw [h]; simp)
          rw [List.dropLast_cons_of_ne_nil hane]
          intro hmem
          rcases List.mem_cons.mp hmem with h3 | h3
          · exact hc h3.symm
          · exact ih a (by rw [h]; simp) h3
        · exact ih l (by rw [h]; exact List.mem_cons_of_mem a h2)

/-! ## Lemmas about `occAux`, `countK`, `readAt` -/

theorem occAux_append (k : JVal) :
    ∀ (a b : List (List Char)) (pos : Nat),
      occAux k (a ++ b) pos = occAux k a pos ++ occAux k b (pos + lenSum a)
  | [], b, pos => by simp [occAux, lenSum]
  | l :: a, b, pos => by
    have harith : pos + l.length + lenSum a = pos + lenSum (l :: a) := by
      simp only [lenSum, List.map_cons, List.sum_cons]
      omega
    show (if extractFp l = some k then [(pos, l.length)] else [])
        ++ occAux k (a ++ b) (pos + l.length)
      = (if extractFp l = some k then [(pos, l.length)] else [])
        ++ occAux k a (pos + l.length) ++ occAux k b (pos + lenSum (l :: a))
    rw [occAux_append k a b (pos + l.length), harith, List.append_assoc]

theorem occAux_snoc (k : JVal) (a : List (List Char)) (l : List Char) (pos : Nat) :
    occAux k (a ++ [l]) pos =
      occAux k a pos ++
        (if extractFp l = some k then [(pos + lenSum a, l.length)] else []) := by
  rw [occAux_append]
  simp [occAux]

theorem occAux_length (k : JVal) :
    ∀ (ls : List (List Char)) (pos : Nat), (occAux k ls pos).length = countK ls k
  | [], _ => rfl
  | l :: ls, pos => by
    have ih := occAux_length k ls (pos + l.length)
    by_cases h : extractFp l = some k
    · have h1 : occAux k (l :: ls) pos = (pos, l.length) :: occAux k ls (pos + l.length) := by
        simp [occAux, h]
      have h2 : countK (l :: ls) k = countK ls k + 1 := by
        simp [countK, List.countP_cons, h]
      rw [h1, List.length_cons, ih, h2]
    · have h1 : occAux k (l :: ls) pos = occAux k ls (pos + l.length) := by
        simp [occAux, h]
      have h2 : countK (l :: ls) k = countK ls k := by
        simp [countK, List.countP_cons, h]
      rw [h1, ih, h2]

theorem occAux_nil_iff (k : JVal) (ls : List (List Char)) (pos : Nat) :
    occAux k ls pos = [] ↔ countK ls k = 0 := by
  rw [← occAux_length k ls pos, List.length_eq_zero]

theorem occAux_readAt (k : JVal) :
    ∀ (P : List (List Char)) (A B : List Char) (p : Nat × Nat),
      p ∈ occAux k P A.length →
      ∃ l, l ∈ P ∧ extractFp l = some k ∧ p.2 = l.length ∧
        readAt (A ++ P.flatten ++ B) p.1 p.2 = l
  | [], _, _, p => by simp [occAux]
  | l :: P, A, B, p => by
    intro hp
    simp only [occAux] at hp
    rcases List.mem_append.mp hp with h | h
    · by_cases hx : extractFp l = some k
      · rw [if_pos hx] at h
        simp only [List.mem_singleton] at h
        subst h
        refine ⟨l, by simp, hx, rfl, ?_⟩
        unfold readAt
        rw [List.flatten_cons, show A ++ (l ++ P.flatten) ++ B = A ++ (l ++ (P.flatten ++ B)) by simp,
          List.drop_left, List.take_left]
      · rw [if_neg hx] at h; simp at h
    · have : p ∈ occAux k P (A ++ l).length := by
        simpa [List.length_append] using h
      obtain ⟨l2, h0, h1, h2, h3⟩ := occAux_readAt k P (A ++ l) B p this
      refine ⟨l2, by simp [h0], h1, h2, ?_⟩
      rw [← h3, List.flatten_cons]
      congr 1
      simp

/-! ## Lemmas about `interComma` and `dsRender` -/

theorem interComma_snoc :
    ∀ (rs : List (List Char)) (r : List Char), rs ≠ [] →
      interComma (rs ++ [r]) = interComma rs ++ ',' :: r
  | [], _, h => absurd rfl h
  | [a], r, _ => by simp [interComma]
  | a :: b :: rs, r, _ => by
    have ih := interComma_snoc (b :: rs) r (by simp)
    show a ++ ',' :: interComma ((b :: rs) ++ [r])
      = (a ++ ',' :: interComma (b :: rs)) ++ ',' :: r
    rw [ih]
    simp

theorem sentinel_length : sentinel.length = 3 := rfl

theorem dsRender_take (fps : List Char) (recs : List (List Char)) :
    (dsRender fps recs).take ((dsRender fps recs).length - 3) =
      header fps ++ interComma recs := by
  unfold dsRender
  rw [show header fps ++ interComma recs ++ sentinel
      = (header fps ++ interComma recs) ++ sentinel by simp]
  rw [List.length_append, sentinel_length, Nat.add_sub_cancel, List.take_left]

theorem dsRender_snoc (fps : List Char) (recs : List (List Char)) (r : List Char)
    (h : recs ≠ []) :
    dsRender fps (recs ++ [r]) =
      (header fps ++ interComma recs) ++ ',' :: r ++ sentinel := by
  unfold dsRender
  rw [interComma_snoc recs r h]
  simp

theorem dsRender_length_ge (fps : List Char) (recs : List (List Char)) :
    3 ≤ (dsRender fps recs).length := by
  unfold dsRender
  simp only [List.length_append, sentinel_length]
  omega

/-! ## Association-list lemmas -/

theorem lookupA_setA_self (m : List (JVal × MapValue)) (k : JVal) (v : MapValue) :
    lookupA (setA m k v) k = some v := by
  induction m with
  | nil => simp [setA, lookupA]
  | cons e rest ih =>
    obtain ⟨k2, v2⟩ := e
    by_cases h : k2 = k
    · simp [setA, lookupA, h]
    · simp [setA, lookupA, h, ih]

theorem lookupA_setA_other (m : List (JVal × MapValue)) (k k2 : JVal) (v : MapValue)
    (h : k2 ≠ k) : lookupA (setA m k v) k2 = lookupA m k2 := by
  induction m with
  | nil => simp [setA, lookupA, Ne.symm h]
  | cons e rest ih =>
    obtain ⟨k3, v3⟩ := e
    by_cases h3 : k3 = k
    · subst h3
      simp [setA, lookupA, Ne.symm h]
    · by_cases h4 : k3 = k2 <;> simp [setA, lookupA, h3, h4, h, ih]

theorem lookupA_none_iff {α : Type} (m : List (JVal × α)) (k : JVal) :
    lookupA m k = none ↔ k ∉ m.map Prod.fst := by
  induction m with
  | nil => simp [lookupA]
  | cons e rest ih =>
    obtain ⟨k2, v2⟩ := e
    by_cases h : k2 = k
    · simp [lookupA, h]
    · simp [lookupA, h, ih, Ne.symm h]

theorem setA_keys_mem (m : List (JVal × MapValue)) (k : JVal) (v : MapValue)
    (h : k ∈ m.map Prod.fst) :
    (setA m k v).map Prod.fst = m.map Prod.fst := by
  induction m with
  | nil => simp at h
  | cons e rest ih =>
    obtain ⟨k2, v2⟩ := e
    by_cases h2 : k2 = k
    · simp [setA, h2]
    · simp only [List.map_cons, List.mem_cons] at h
      rcases h with h | h
      · exact absurd h.symm h2
      · simp [setA, h2, ih h]

theorem setA_keys_new (m : List (JVal × MapValue)) (k : JVal) (v : MapValue)
    (h : k ∉ m.map Prod.fst) :
    (setA m k v).map Prod.fst = m.map Prod.fst ++ [k] := by
  induction m with
  | nil => simp [setA]
  | cons e rest ih =>
    obtain ⟨k2, v2⟩ := e
    simp only [List.map_cons, List.mem_cons] at h
    push_neg at h
    by_cases h2 : k2 = k
    · exact absurd h2.symm h.1
    · simp [setA, h2, ih h.2]

theorem lookupA_mrUpdate_self (m : List (JVal × List (Nat × Nat))) (k : JVal)
    (p : Nat × Nat) :
    lookupA (mrUpdate m k p) k = some ((lookupA m k).getD [] ++ [p]) := by
  induction m with
  | nil => simp [mrUpdate, lookupA]
  | cons e rest ih =>
    obtain ⟨k2, ps⟩ := e
    by_cases h : k2 = k
    · simp [mrUpdate, lookupA, h]
    · simp [mrUpdate, lookupA, h, ih]

theorem lookupA_mrUpdate_other (m : List (JVal × List (Nat × Nat))) (k k2 : JVal)
    (p : Nat × Nat) (h : k2 ≠ k) :
    lookupA (mrUpdate m k p) k2 = lookupA m k2 := by
  induction m with
  | nil => simp [mrUpdate, lookupA, Ne.symm h]
  | cons e rest ih =>
    obtain ⟨k3, ps⟩ := e
    by_cases h3 : k3 = k
    · subst h3
      simp [mrUpdate, lookupA, Ne.symm h]
    · by_cases h4 : k3 = k2 <;> simp [mrUpdate, lookupA, h3, h4, h, ih]

theorem mrUpdate_keys_mem (m : List (JVal × List (Nat × Nat))) (k : JVal)
    (p : Nat × Nat) (h : k ∈ m.map Prod.fst) :
    (mrUpdate m k p).map Prod.fst = m.map Prod.fst := by
  induction m with
  | nil => simp at h
  | cons e rest ih =>
    obtain ⟨k2, ps⟩ := e
    by_cases h2 : k2 = k
    · simp [mrUpdate, h2]
    · simp only [List.map_cons, List.mem_cons] at h
      rcases h with h | h
      · exact absurd h.symm h2
      · simp [mrUpdate, h2, ih h]

theorem mrUpdate_keys_new (m : List (JVal × List (Nat × Nat))) (k : JVal)
    (p : Nat × Nat) (h : k ∉ m.map Prod.fst) :
    (mrUpdate m k p).map Prod.fst = m.map Prod.fst ++ [k] := by
  induction m with
  | nil => simp [mrUpdate]
  | cons e rest ih =>
    obtain ⟨k2, ps⟩ := e
    simp only [List.map_cons, List.mem_cons] at h
    push_neg at h
    by_cases h2 : k2 = k
    · exact absurd h2.symm h.1
    · simp [mrUpdate, h2, ih h.2]

/-! ## Index of a fingerprint in the duplicate sequence, temp-file layout -/

theorem idxJ_lt_length (k : JVal) :
    ∀ (l : List JVal), k ∈ l → idxJ k l < l.length
  | [], h => by simp at h
  | x :: xs, h => by
    by_cases hx : x = k
    · simp [idxJ, hx]
    · rcases List.mem_cons.mp h with h2 | h2
      · exact absurd h2.symm hx
      · simp only [idxJ, if_neg hx, List.length_cons]
        exact Nat.succ_lt_succ (idxJ_lt_length k xs h2)

theorem idxJ_append_of_mem (k : JVal) :
    ∀ (a b : List JVal), k ∈ a → idxJ k (a ++ b) = idxJ k a
  | [], _, h => by simp at h
  | x :: xs, b, h => by
    by_cases hx : x = k
    · simp [idxJ, hx]
    · rcases List.mem_cons.mp h with h2 | h2
      · exact absurd h2.symm hx
      · simp only [List.cons_append, idxJ, if_neg hx, List.append_eq,
          idxJ_append_of_mem k xs b h2]

theorem filesFrom_snoc (f : JVal → List Char) :
    ∀ (ks : List JVal) (base : Nat) (k : JVal),
      filesFrom f base (ks ++ [k])
        = filesFrom f base ks ++ [(base + ks.length + 1, f k)]
  | [], base, k => by simp [filesFrom]
  | k2 :: ks, base, k => by
    simp only [List.cons_append, filesFrom, List.append_eq,
      filesFrom_snoc f ks (base + 1) k, List.length_cons]
    rw [show base + 1 + ks.length = base + (ks.length + 1) by omega]

theorem filesFrom_congr (f g : JVal → List Char) :
    ∀ (ks : List JVal) (base : Nat), (∀ k ∈ ks, f k = g k) →
      filesFrom f base ks = filesFrom g base ks
  | [], _, _ => rfl
  | k :: ks, base, h => by
    simp only [filesFrom, h k (by simp)]
    rw [filesFrom_congr f g ks (base + 1) (fun x hx => h x (by simp [hx]))]

theorem filesFrom_keys_le (f : JVal → List Char) :
    ∀ (ks : List JVal) (base : Nat) (p : Nat) (c : List Char),
      (p, c) ∈ filesFrom f base ks → base < p ∧ p ≤ base + ks.length
  | [], _, _, _, h => by simp [filesFrom] at h
  | k :: ks, base, p, c, h => by
    simp only [filesFrom, List.mem_cons] at h
    rcases h with h | h
    · obtain ⟨h1, -⟩ := Prod.mk.injEq .. ▸ h
      simp only [List.length_cons]
      omega
    · have := filesFrom_keys_le f ks (base + 1) p c h
      simp only [List.length_cons]
      omega

theorem fsRead_filesFrom_idx (f : JVal → List Char) (k : JVal) :
    ∀ (ks : List JVal) (base : Nat), k ∈ ks →
      fsRead (filesFrom f base ks) (base + idxJ k ks + 1) = f k
  | [], _, h => by simp at h
  | k2 :: ks, base, h => by
    by_cases hk : k2 = k
    · subst hk
      simp [filesFrom, idxJ, fsRead]
    · rcases List.mem_cons.mp h with h2 | h2
      · exact absurd h2.symm hk
      · have ih := fsRead_filesFrom_idx f k ks (base + 1) h2
        simp only [filesFrom, idxJ, if_neg hk, fsRead]
        rw [if_neg (by omega)]
        rw [show base + (idxJ k ks + 1) + 1 = base + 1 + idxJ k ks + 1 by omega]
        exact ih

theorem fsWrite_filesFrom_idx (f g : JVal → List Char) (k : JVal) :
    ∀ (ks : List JVal) (base : Nat), k ∈ ks → ks.Nodup →
      (∀ k2 ∈ ks, k2 ≠ k → f k2 = g k2) →
      fsWrite (filesFrom f base ks) (base + idxJ k ks + 1) (g k)
        = filesFrom g base ks
  | [], _, h, _, _ => by simp at h
  | k2 :: ks, base, h, hnd, hfg => by
    by_cases hk : k2 = k
    · subst hk
      have h0 : idxJ k2 (k2 :: ks) = 0 := by simp [idxJ]
      rw [h0, Nat.add_zero]
      show fsWrite ((base + 1, f k2) :: filesFrom f (base + 1) ks) (base + 1) (g k2)
        = (base + 1, g k2) :: filesFrom g (base + 1) ks
      simp only [fsWrite, if_pos rfl]
      have hnotmem : k2 ∉ ks := (List.nodup_cons.mp hnd).1
      rw [filesFrom_congr f g ks (base + 1)
        (fun x hx => hfg x (by simp [hx]) (fun he => hnotmem (he ▸ hx)))]
      exact if_pos trivial
    · rcases List.mem_cons.mp h with h2 | h2
      · exact absurd h2.symm hk
      · have ih := fsWrite_filesFrom_idx f g k ks (base + 1) h2
          (List.nodup_cons.mp hnd).2 (fun x hx => hfg x (by simp [hx]))
        simp only [filesFrom, idxJ, if_neg hk, fsWrite]
        rw [if_neg (by omega)]
        rw [hfg k2 (by simp) hk]
        rw [show base + (idxJ k ks + 1) + 1 = base + 1 + idxJ k ks + 1 by omega]
        rw [ih]

theorem fsWrite_fresh :
    ∀ (fs : List (Nat × List Char)) (p : Nat) (c : List Char),
      (∀ q cc, (q, cc) ∈ fs → q ≠ p) → fsWrite fs p c = fs ++ [(p, c)]
  | [], _, _, _ => rfl
  | (q, cc) :: fs, p, c, h => by
    simp only [fsWrite, if_neg (h q cc (by simp))]
    rw [fsWrite_fresh fs p c (fun q2 c2 h2 => h q2 c2 (by simp [h2]))]
    simp

/-! ## Lemmas about `seenDup` -/

theorem seenDup_append :
    ∀ (A B : List (List Char)) (sd : List JVal × List JVal), allOk A →
      seenDup (A ++ B) sd = seenDup B (seenDup A sd)
  | [], _, _, _ => rfl
  | l :: A, B, sd, hok => by
    obtain ⟨seen, dups⟩ := sd
    have hokA : allOk A := fun x hxx => hok x (by simp [hxx])
    have hx0 : extractFp l ≠ none := hok l (by simp)
    obtain ⟨k, hx⟩ := Option.ne_none_iff_exists'.mp hx0
    show seenDup (l :: (A ++ B)) (seen, dups) = _
    by_cases h1 : k ∈ dups
    · simp only [seenDup, hx, if_pos h1]
      exact seenDup_append A B (seen, dups) hokA
    · by_cases h2 : k ∈ seen
      · simp only [seenDup, hx, if_neg h1, if_pos h2]
        exact seenDup_append A B (seen, dups ++ [k]) hokA
      · simp only [seenDup, hx, if_neg h1, if_neg h2]
        exact seenDup_append A B (seen ++ [k], dups) hokA

theorem seenDup_props :
    ∀ (P : List (List Char)) (seen dups : List JVal),
      dups ⊆ seen → seen.Nodup → dups.Nodup →
      (seenDup P (seen, dups)).2 ⊆ (seenDup P (seen, dups)).1
        ∧ (seenDup P (seen, dups)).1.Nodup ∧ (seenDup P (seen, dups)).2.Nodup
        ∧ (∃ e1, (seenDup P (seen, dups)).1 = seen ++ e1)
        ∧ (∃ e2, (seenDup P (seen, dups)).2 = dups ++ e2)
  | [], seen, dups, hsub, hns, hnd =>
    ⟨hsub, hns, hnd, ⟨[], by simp [seenDup]⟩, ⟨[], by simp [seenDup]⟩⟩
  | l :: P, seen, dups, hsub, hns, hnd => by
    cases hx : extractFp l with
    | none =>
      show _ ∧ _ ∧ _ ∧ _ ∧ _
      simp only [seenDup, hx]
      exact ⟨hsub, hns, hnd, ⟨[], by simp⟩, ⟨[], by simp⟩⟩
    | some k =>
      by_cases h1 : k ∈ dups
      · have := seenDup_props P seen dups hsub hns hnd
        simpa only [seenDup, hx, if_pos h1] using this
      · by_cases h2 : k ∈ seen
        · have hsub2 : dups ++ [k] ⊆ seen := by
            intro x hx2
            rcases List.mem_append.mp hx2 with h | h
            · exact hsub h
            · simp only [List.mem_singleton] at h
              exact h ▸ h2
          have hnd2 : (dups ++ [k]).Nodup := by
            rw [List.nodup_append]
            exact ⟨hnd, List.nodup_singleton k, by
              intro x hxd hxk
              simp only [List.mem_singleton] at hxk
              exact h1 (hxk ▸ hxd)⟩
          have ih := seenDup_props P seen (dups ++ [k]) hsub2 hns hnd2
          obtain ⟨i1, i2, i3, i4, ⟨e2, he2⟩⟩ := ih
          refine ?_
          simp only [seenDup, hx, if_neg h1, if_pos h2]
          exact ⟨i1, i2, i3, i4, ⟨[k] ++ e2, by rw [he2]; simp⟩⟩
        · have hsub2 : dups ⊆ seen ++ [k] := fun x hxx => by
            simp [hsub hxx]
          have hns2 : (seen ++ [k]).Nodup := by
            rw [List.nodup_append]
            exact ⟨hns, List.nodup_singleton k, by
              intro x hxs hxk
              simp only [List.mem_singleton] at hxk
              exact h2 (hxk ▸ hxs)⟩
          have ih := seenDup_props P (seen ++ [k]) dups hsub2 hns2 hnd
          obtain ⟨i1, i2, i3, ⟨e1, he1⟩, i5⟩ := ih
          refine ?_
          simp only [seenDup, hx, if_neg h1, if_neg h2]
          exact ⟨i1, i2, i3, ⟨[k] ++ e1, by rw [he1]; simp⟩, i5⟩

theorem seenDup_mem (k : JVal) :
    ∀ (P : List (List Char)) (seen dups : List JVal),
      allOk P → (k ∈ dups → k ∈ seen) →
      (k ∈ (seenDup P (seen, dups)).1 ↔ k ∈ seen ∨ 1 ≤ countK P k)
        ∧ (k ∈ (seenDup P (seen, dups)).2 ↔
            k ∈ dups ∨ (k ∈ seen ∧ 1 ≤ countK P k) ∨ 2 ≤ countK P k)
  | [], seen, dups, _, _ => by
    constructor <;> simp [seenDup, countK]
  | l :: P, seen, dups, hok, hds => by
    have hx0 : extractFp l ≠ none := hok l (by simp)
    obtain ⟨k2, hx⟩ := Option.ne_none_iff_exists'.mp hx0
    have hokP : allOk P := fun x hxx => hok x (by simp [hxx])
    have hcnt1 : countK (l :: P) k2 = countK P k2 + 1 := by
      simp [countK, List.countP_cons, hx]
    have hcnt0 : k2 ≠ k → countK (l :: P) k = countK P k := by
      intro hkk
      have : ¬ (extractFp l = some k) := by
        rw [hx]
        exact fun hh => hkk (Option.some.inj hh)
      simp [countK, List.countP_cons, this]
    by_cases h1 : k2 ∈ dups
    · obtain ⟨ih1, ih2⟩ := seenDup_mem k P seen dups hokP hds
      simp only [seenDup, hx, if_pos h1]
      by_cases hkk : k2 = k
      · subst hkk
        rw [hcnt1]
        have hks : k2 ∈ seen := hds h1
        exact ⟨by rw [ih1]; simp [hks], by rw [ih2]; simp [h1]⟩
      · rw [hcnt0 hkk]
        exact ⟨ih1, ih2⟩
    · by_cases h2 : k2 ∈ seen
      · have hds2 : k ∈ dups ++ [k2] → k ∈ seen := by
          intro hh
          rcases List.mem_append.mp hh with h | h
          · exact hds h
          · simp only [List.mem_singleton] at h
            exact h ▸ h2
        obtain ⟨ih1, ih2⟩ := seenDup_mem k P seen (dups ++ [k2]) hokP hds2
        simp only [seenDup, hx, if_neg h1, if_pos h2]
        by_cases hkk : k2 = k
        · subst hkk
          rw [hcnt1]
          constructor
          · rw [ih1]; simp [h2]
          · rw [ih2]
            constructor
            · rintro (h | ⟨-, hc⟩ | hc)
              · rcases List.mem_append.mp h with h | h
                · right; left; exact ⟨hds h, by omega⟩
                · right; left; exact ⟨h2, by omega⟩
              · right; left; exact ⟨h2, by omega⟩
              · right; right; omega
            · intro _
              left
              simp
        · rw [hcnt0 hkk]
          refine ⟨ih1, ?_⟩
          rw [ih2]
          constructor
          · rintro (h | h | h)
            · rcases List.mem_append.mp h with h | h
              · exact Or.inl h
              · simp only [List.mem_singleton] at h
                exact absurd h (Ne.symm hkk)
            · exact Or.inr (Or.inl h)
            · exact Or.inr (Or.inr h)
          · rintro (h | h | h)
            · exact Or.inl (List.mem_append.mpr (Or.inl h))
            · exact Or.inr (Or.inl h)
            · exact Or.inr (Or.inr h)
      · have hds2 : k ∈ dups → k ∈ seen ++ [k2] := fun hh => by simp [hds hh]
        obtain ⟨ih1, ih2⟩ := seenDup_mem k P (seen ++ [k2]) dups hokP hds2
        simp only [seenDup, hx, if_neg h1, if_neg h2]
        by_cases hkk : k2 = k
        · subst hkk
          rw [hcnt1]
          constructor
          · rw [ih1]
            constructor
            · intro _
              right
              omega
            · intro _
              left
              simp
          · rw [ih2]
            constructor
            · rintro (h | ⟨-, hc⟩ | hc)
              · exact absurd h h1
              · right; right; omega
              · right; right; omega
            · rintro (h | ⟨hm, -⟩ | hc)
              · exact absurd h h1
              · exact absurd hm h2
              · right; left
                exact ⟨by simp, by omega⟩
        · rw [hcnt0 hkk]
          constructor
          · rw [ih1]
            constructor
            · rintro (h | h)
              · rcases List.mem_append.mp h with hh | hh
                · exact Or.inl hh
                · simp only [List.mem_singleton] at hh
                  exact absurd hh (Ne.symm hkk)
              · exact Or.inr h
            · rintro (h | h)
              · exact Or.inl (List.mem_append.mpr (Or.inl h))
              · exact Or.inr h
          · rw [ih2]
            constructor
            · rintro (h | h | h)
              · exact Or.inl h
              · rcases List.mem_append.mp h.1 with hh | hh
                · exact Or.inr (Or.inl ⟨hh, h.2⟩)
                · simp only [List.mem_singleton] at hh
                  exact absurd hh (Ne.symm hkk)
              · exact Or.inr (Or.inr h)
            · rintro (h | h | h)
              · exact Or.inl h
              · exact Or.inr (Or.inl ⟨List.mem_append.mpr (Or.inl h.1), h.2⟩)
              · exact Or.inr (Or.inr h)

/-! ## Characterisation of the memory-resident scan -/

theorem mrInv_nil : mrInv [] [] := by
  constructor
  · rfl
  · intro k
    simp [lookupA, occAux]

theorem seenDup_single (l : List Char) (k : JVal) (sd : List JVal × List JVal)
    (hx : extractFp l = some k) :
    seenDup [l] sd
      = if k ∈ sd.2 then sd
        else if k ∈ sd.1 then (sd.1, sd.2 ++ [k])
        else (sd.1 ++ [k], sd.2) := by
  obtain ⟨seen, dups⟩ := sd
  by_cases h1 : k ∈ dups
  · simp [seenDup, hx, h1]
  · by_cases h2 : k ∈ seen <;> simp [seenDup, hx, h1, h2]

theorem mrInv_step (P : List (List Char)) (l : List Char) (k : JVal)
    (m : List (JVal × List (Nat × Nat))) (hx : extractFp l = some k)
    (hok : allOk P) (h : mrInv P m) :
    mrInv (P ++ [l]) (mrUpdate m k (lenSum P, l.length)) := by
  obtain ⟨hkeys, hlook⟩ := h
  obtain ⟨hsub, -, -, -, -⟩ :=
    seenDup_props P [] [] (by simp) List.nodup_nil List.nodup_nil
  have hsd : seenDup (P ++ [l]) ([], []) = seenDup [l] (seenDup P ([], [])) :=
    seenDup_append P [l] ([], []) hok
  have hsd1 := seenDup_single l k (seenDup P ([], [])) hx
  constructor
  · by_cases hmem : k ∈ m.map Prod.fst
    · rw [mrUpdate_keys_mem m k _ hmem, hkeys]
      show _ = (seenDup (P ++ [l]) ([], [])).1
      rw [hsd, hsd1]
      by_cases hd : k ∈ (seenDup P ([], [])).2
      · rw [if_pos hd]
      · rw [if_neg hd, if_pos (hkeys ▸ hmem)]
    · rw [mrUpdate_keys_new m k _ hmem, hkeys]
      show _ = (seenDup (P ++ [l]) ([], [])).1
      rw [hsd, hsd1]
      have hnseen : k ∉ (seenDup P ([], [])).1 := fun hh =>
        hmem (by rw [hkeys]; exact hh)
      have hnd : k ∉ (seenDup P ([], [])).2 := fun hh => hnseen (hsub hh)
      rw [if_neg hnd, if_neg hnseen]
  · intro k2
    by_cases hk2 : k2 = k
    · subst hk2
      rw [lookupA_mrUpdate_self]
      have hocc : occAux k2 (P ++ [l]) 0 = occAux k2 P 0 ++ [(lenSum P, l.length)] := by
        rw [occAux_snoc]
        simp [hx]
      show (lookupA m k2).getD [] ++ [(lenSum P, l.length)] = occAux k2 (P ++ [l]) 0
        ∧ (lookupA m k2).getD [] ++ [(lenSum P, l.length)] ≠ []
      refine ⟨?_, by simp⟩
      rw [hocc]
      have hl2 := hlook k2
      cases hpv : lookupA m k2 with
      | none =>
        rw [hpv] at hl2
        simp only [hpv, Option.getD_none]
        rw [hl2]
      | some ps =>
        rw [hpv] at hl2
        simp only [hpv, Option.getD_some]
        rw [hl2.1]
    · rw [lookupA_mrUpdate_other m k k2 _ hk2]
      have hocc2 : occAux k2 (P ++ [l]) 0 = occAux k2 P 0 := by
        rw [occAux_snoc]
        have hne : ¬ (extractFp l = some k2) := by
          rw [hx]
          exact fun hh => hk2 (Option.some.inj hh).symm
        simp [hne]
      have hl2 := hlook k2
      cases hpv : lookupA m k2 with
      | none =>
        rw [hpv] at hl2
        show occAux k2 (P ++ [l]) 0 = []
        rw [hocc2, hl2]
      | some ps =>
        rw [hpv] at hl2
        show ps = occAux k2 (P ++ [l]) 0 ∧ ps ≠ []
        rw [hocc2]
        exact hl2

theorem mrScanFrom_ok_inv :
    ∀ (S P : List (List Char)) (i : Nat) (m m' : List (JVal × List (Nat × Nat))),
      mrScanFrom S i (lenSum P) m = Except.ok m' → allOk P → mrInv P m →
      allOk (P ++ S) ∧ mrInv (P ++ S) m'
  | [], P, i, m, m', h, hokP, hinv => by
    cases h
    exact ⟨by simpa using hokP, by simpa using hinv⟩
  | l :: S, P, i, m, m', h, hokP, hinv => by
    cases hx : extractFp l with
    | none => simp [mrScanFrom, hx] at h
    | some k =>
      have h2 : mrScanFrom S (i + 1) (lenSum (P ++ [l]))
          (mrUpdate m k (lenSum P, l.length)) = Except.ok m' := by
        rw [lenSum_append, show lenSum [l] = l.length by simp [lenSum]]
        simpa [mrScanFrom, hx] using h
      have hokPl : allOk (P ++ [l]) := by
        intro x hxx
        rcases List.mem_append.mp hxx with hh | hh
        · exact hokP x hh
        · simp only [List.mem_singleton] at hh
          subst hh
          simp [hx]
      have hres := mrScanFrom_ok_inv S (P ++ [l]) (i + 1) _ m' h2 hokPl
        (mrInv_step P l k m hx hokP hinv)
      rwa [List.append_assoc, List.singleton_append] at hres

/-- Characterisation of a successful memory-resident scan. -/
theorem mrScan_inv (lines : List (List Char)) (m' : List (JVal × List (Nat × Nat)))
    (h : mrScanFrom lines 0 0 [] = Except.ok m') :
    allOk lines ∧ mrInv lines m' := by
  have hres := mrScanFrom_ok_inv lines [] 0 [] m' h (by simp [allOk]) mrInv_nil
  simpa using hres

theorem mrScanFrom_error :
    ∀ (A : List (List Char)) (l : List Char) (B : List (List Char))
      (i pos : Nat) (m : List (JVal × List (Nat × Nat))),
      allOk A → extractFp l = none →
      mrScanFrom (A ++ l :: B) i pos m = Except.error (i + A.length)
  | [], l, B, i, pos, m, _, hl => by simp [mrScanFrom, hl]
  | a :: A, l, B, i, pos, m, hok, hl => by
    have hx0 : extractFp a ≠ none := hok a (by simp)
    obtain ⟨k, hx⟩ := Option.ne_none_iff_exists'.mp hx0
    have hokA : allOk A := fun x hxx => hok x (by simp [hxx])
    have ih := mrScanFrom_error A l B (i + 1) (pos + a.length)
      (mrUpdate m k (pos, a.length)) hokA hl
    show mrScanFrom (a :: (A ++ l :: B)) i pos m = _
    rw [show mrScanFrom (a :: (A ++ l :: B)) i pos m
      = mrScanFrom (A ++ l :: B) (i + 1) (pos + a.length) (mrUpdate m k (pos, a.length)) by
        simp [mrScanFrom, hx]]
    rw [ih]
    congr 1
    simp
    omega

/-! ## Characterisation of the disk-resident scan -/

theorem idxJ_append_of_not_mem (k : JVal) :
    ∀ (a b : List JVal), k ∉ a → idxJ k (a ++ b) = a.length + idxJ k b
  | [], _, _ => by simp [idxJ]
  | x :: xs, b, h => by
    have hx : ¬ x = k := fun hh => h (by simp [hh])
    simp only [List.cons_append, idxJ, if_neg hx, List.length_cons, List.append_eq,
      idxJ_append_of_not_mem k xs b (fun hh => h (by simp [hh]))]
    omega

theorem dsInv_nil (input : List Char) : dsInv input [] ⟨[], 0, []⟩ := by
  refine ⟨rfl, rfl, rfl, ?_⟩
  intro k
  show occAux k [] 0 = []
  rfl

theorem entryInv_congr (input : List Char) (P P2 : List (List Char))
    (dups dups2 : List JVal) (k : JVal) (v : Option MapValue)
    (hocc : occAux k P2 0 = occAux k P 0)
    (hcontent : dsFileContent input P2 k = dsFileContent input P k)
    (hnotm : k ∉ dups → k ∉ dups2)
    (hm : k ∈ dups → k ∈ dups2)
    (hidx : k ∈ dups → idxJ k dups2 = idxJ k dups)
    (h : entryInv input P dups k v) : entryInv input P2 dups2 k v := by
  cases v with
  | none =>
    show occAux k P2 0 = []
    rw [hocc]
    exact h
  | some mv =>
    obtain ⟨s0, n0, rest, h1, h2, h3, h4⟩ := h
    refine ⟨s0, n0, rest, by rw [hocc, h1], h2, h3, ?_⟩
    rcases h4 with ⟨e1, e2, e3, e4, e5⟩ | ⟨e1, e2, e3, e4, e5⟩
    · exact Or.inl ⟨e1, e2, e3, e4, hnotm e5⟩
    · exact Or.inr ⟨e1, e2, hm e3, by rw [hidx e3]; exact e4, by rw [hcontent]; exact e5⟩

theorem recsOf_snoc (input : List Char) (P : List (List Char)) (l : List Char)
    (k : JVal) (hx : extractFp l = some k) :
    recsOf input (P ++ [l]) k
      = recsOf input P k ++ [rstrip (readAt input (lenSum P) l.length)] := by
  unfold recsOf
  rw [occAux_snoc, if_pos hx]
  simp

theorem recsOf_snoc_other (input : List Char) (P : List (List Char)) (l : List Char)
    (k k2 : JVal) (hx : extractFp l = some k) (hne : k2 ≠ k) :
    recsOf input (P ++ [l]) k2 = recsOf input P k2 := by
  unfold recsOf
  rw [occAux_snoc]
  have hno : ¬ (extractFp l = some k2) := by
    rw [hx]
    exact fun hh => hne (Option.some.inj hh).symm
  rw [if_neg hno]
  simp

theorem dsFileContent_snoc_other (input : List Char) (P : List (List Char))
    (l : List Char) (k k2 : JVal) (hx : extractFp l = some k) (hne : k2 ≠ k) :
    dsFileContent input (P ++ [l]) k2 = dsFileContent input P k2 := by
  unfold dsFileContent
  rw [recsOf_snoc_other input P l k k2 hx hne]

theorem dsContent_two (input : List Char) (P : List (List Char)) (l : List Char)
    (k : JVal) (s0 n0 : Nat) (hx : extractFp l = some k)
    (hocc : occAux k P 0 = [(s0, n0)])
    (hread : readAt input (lenSum P) l.length = l) :
    dsFileContent input (P ++ [l]) k
      = header (pyStr k) ++ rstrip (readAt input s0 n0) ++ ',' :: rstrip l ++ sentinel := by
  have h1 : recsOf input P k = [rstrip (readAt input s0 n0)] := by
    unfold recsOf
    rw [hocc]
    rfl
  unfold dsFileContent
  rw [recsOf_snoc input P l k hx, hread, h1]
  show header (pyStr k)
      ++ (rstrip (readAt input s0 n0) ++ ',' :: rstrip l) ++ sentinel = _
  simp [List.append_assoc]

theorem dsContent_snoc_ex (input : List Char) (P : List (List Char)) (l : List Char)
    (k : JVal) (hx : extractFp l = some k)
    (hread : readAt input (lenSum P) l.length = l)
    (hne : recsOf input P k ≠ []) :
    dsFileContent input (P ++ [l]) k
      = (header (pyStr k) ++ interComma (recsOf input P k)) ++ ',' :: rstrip l ++ sentinel := by
  unfold dsFileContent
  rw [recsOf_snoc input P l k hx, hread, dsRender_snoc _ _ _ hne]

theorem writeAt_dsRender (fps : List Char) (recs : List (List Char)) (w : List Char)
    (hw : 3 ≤ w.length) :
    writeAt (dsRender fps recs) ((dsRender fps recs).length - 3) w
      = (header fps ++ interComma recs) ++ w := by
  unfold writeAt
  rw [dsRender_take]
  have hlen : 3 ≤ (dsRender fps recs).length := dsRender_length_ge fps recs
  rw [List.drop_eq_nil_of_le (by omega)]
  simp

theorem headerInter_length (fps : List Char) (recs : List (List Char)) :
    (header fps ++ interComma recs).length = (dsRender fps recs).length - 3 := by
  unfold dsRender
  simp only [List.length_append, sentinel_length]
  omega

theorem recsOf_ne_nil_of_occ (input : List Char) (P : List (List Char)) (k : JVal)
    (s0 n0 : Nat) (rest : List (Nat × Nat)) (h : occAux k P 0 = (s0, n0) :: rest) :
    recsOf input P k ≠ [] := by
  unfold recsOf
  rw [h]
  simp

theorem dsInv_step (input : List Char) (P : List (List Char)) (l : List Char)
    (k : JVal) (st : DsSt) (hx : extractFp l = some k) (hok : allOk P)
    (hread : readAt input (lenSum P) l.length = l)
    (h : dsInv input P st) :
    dsInv input (P ++ [l]) (dsStep input st (lenSum P) l k) := by
  obtain ⟨hcount, hfiles, hkeys, hentry⟩ := h
  obtain ⟨hsub, hnseenND, hndupsND, -, -⟩ :=
    seenDup_props P [] [] (by simp) List.nodup_nil List.nodup_nil
  have hsd : seenDup (P ++ [l]) ([], []) = seenDup [l] (seenDup P ([], [])) :=
    seenDup_append P [l] ([], []) hok
  have hsd1 := seenDup_single l k (seenDup P ([], [])) hx
  have hocck : occAux k (P ++ [l]) 0 = occAux k P 0 ++ [(lenSum P, l.length)] := by
    rw [occAux_snoc]
    simp [hx]
  have hocc2 : ∀ k2, k2 ≠ k → occAux k2 (P ++ [l]) 0 = occAux k2 P 0 := by
    intro k2 hne
    rw [occAux_snoc]
    have hno : ¬ (extractFp l = some k2) := by
      rw [hx]
      exact fun hh => hne (Option.some.inj hh).symm
    simp [hno]
  cases hlk : lookupA st.fmap k with
  | none =>
    have hocc0 : occAux k P 0 = [] := by
      have he := hentry k
      rwa [hlk] at he
    have hknotseen : k ∉ (seenDup P ([], [])).1 := by
      rw [← hkeys]
      exact (lookupA_none_iff st.fmap k).mp hlk
    have hknotdups : k ∉ (seenDup P ([], [])).2 := fun hh => hknotseen (hsub hh)
    have hsd2 : seenDup (P ++ [l]) ([], [])
        = ((seenDup P ([], [])).1 ++ [k], (seenDup P ([], [])).2) := by
      rw [hsd, hsd1, if_neg hknotdups, if_neg hknotseen]
    have hstep : dsStep input st (lenSum P) l k
        = { st with fmap := setA st.fmap k ⟨lenSum P, l.length, Tag.NW, none, none⟩ } := by
      simp [dsStep, hlk]
    rw [hstep]
    refine ⟨by rw [hsd2]; exact hcount, ?_, ?_, ?_⟩
    · show st.files = _
      rw [hsd2, hfiles]
      exact filesFrom_congr _ _ _ 0 (fun k2 hk2 =>
        (dsFileContent_snoc_other input P l k k2 hx
          (fun he => hknotdups (he ▸ hk2))).symm)
    · show (setA st.fmap k _).map Prod.fst = _
      rw [hsd2]
      have hnm : k ∉ st.fmap.map Prod.fst := (lookupA_none_iff st.fmap k).mp hlk
      rw [setA_keys_new st.fmap k _ hnm, hkeys]
    · intro k2
      show entryInv input (P ++ [l]) ((seenDup (P ++ [l]) ([], [])).2) k2 _
      rw [hsd2]
      by_cases hk2 : k2 = k
      · subst hk2
        rw [lookupA_setA_self]
        refine ⟨lenSum P, l.length, [], ?_, rfl, rfl,
          Or.inl ⟨rfl, rfl, rfl, rfl, hknotdups⟩⟩
        rw [hocck, hocc0]
        rfl
      · rw [lookupA_setA_other st.fmap k k2 _ hk2]
        exact entryInv_congr input P (P ++ [l]) _ _ k2 _ (hocc2 k2 hk2)
          (dsFileContent_snoc_other input P l k k2 hx hk2) id id (fun _ => rfl)
          (hentry k2)
  | some mv =>
    have he := hentry k
    rw [hlk] at he
    obtain ⟨s0, n0, rest, ho1, ho2, ho3, hbr⟩ := he
    have hinseen : k ∈ (seenDup P ([], [])).1 := by
      rw [← hkeys]
      by_contra hcon
      rw [← lookupA_none_iff] at hcon
      rw [hlk] at hcon
      exact Option.some_ne_none mv hcon
    by_cases htag : mv.tag = Tag.NW
    · -- second occurrence of k
      have hbr2 : rest = [] ∧ mv.path = none ∧ mv.end_offset = none
          ∧ k ∉ (seenDup P ([], [])).2 := by
        rcases hbr with ⟨e1, e2, e3, e4, e5⟩ | ⟨e1, e2, e3, e4, e5⟩
        · exact ⟨e1, e3, e4, e5⟩
        · rw [htag] at e2
          exact absurd e2 (by decide)
      obtain ⟨hrest, hpath0, hend0, hknotdups⟩ := hbr2
      subst hrest
      have hsd2 : seenDup (P ++ [l]) ([], [])
          = ((seenDup P ([], [])).1, (seenDup P ([], [])).2 ++ [k]) := by
        rw [hsd, hsd1, if_neg hknotdups, if_pos hinseen]
      have hT : dsFileContent input (P ++ [l]) k
          = header (pyStr k) ++ rstrip (readAt input mv.start mv.length)
            ++ ',' :: rstrip l ++ sentinel := by
        rw [ho2, ho3]
        exact dsContent_two input P l k s0 n0 hx ho1 hread
      have hstep : dsStep input st (lenSum P) l k
          = { fmap := setA st.fmap k
                { start := mv.start, length := mv.length, tag := Tag.EX,
                  path := some (st.count + 1),
                  end_offset := some (dsFileContent input (P ++ [l]) k).length },
              count := st.count + 1,
              files := fsWrite st.files (st.count + 1)
                (dsFileContent input (P ++ [l]) k) } := by
        simp [dsStep, hlk, dsAppend, htag, hT]
      rw [hstep]
      have hfresh : fsWrite st.files (st.count + 1) (dsFileContent input (P ++ [l]) k)
          = st.files ++ [(st.count + 1, dsFileContent input (P ++ [l]) k)] := by
        apply fsWrite_fresh
        intro q cc hmem
        rw [hfiles] at hmem
        have := filesFrom_keys_le _ _ _ _ _ hmem
        omega
      refine ⟨?_, ?_, ?_, ?_⟩
      · show st.count + 1 = _
        rw [hsd2]
        simp only [List.length_append, List.length_singleton]
        rw [hcount]
      · show fsWrite st.files (st.count + 1) _ = _
        rw [hfresh, hsd2]
        show _ = filesFrom (dsFileContent input (P ++ [l])) 0
          ((seenDup P ([], [])).2 ++ [k])
        rw [filesFrom_snoc]
        rw [hfiles, hcount]
        rw [filesFrom_congr (dsFileContent input P) (dsFileContent input (P ++ [l]))
          _ 0 (fun k2 hk2 =>
            (dsFileContent_snoc_other input P l k k2 hx
              (fun hh => hknotdups (hh ▸ hk2))).symm)]
        simp
      · show (setA st.fmap k _).map Prod.fst = _
        rw [hsd2]
        have hm : k ∈ st.fmap.map Prod.fst := by rw [hkeys]; exact hinseen
        rw [setA_keys_mem st.fmap k _ hm, hkeys]
      · intro k2
        show entryInv input (P ++ [l]) ((seenDup (P ++ [l]) ([], [])).2) k2 _
        rw [hsd2]
        by_cases hk2 : k2 = k
        · subst hk2
          rw [lookupA_setA_self]
          refine ⟨s0, n0, [(lenSum P, l.length)], ?_, ho2, ho3, Or.inr ⟨by simp, rfl, by simp, ?_, rfl⟩⟩
          · rw [hocck, ho1]
            rfl
          · rw [idxJ_append_of_not_mem k2 _ _ hknotdups]
            show some (st.count + 1) = _
            rw [hcount]
            simp [idxJ]
        · rw [lookupA_setA_other st.fmap k k2 _ hk2]
          refine entryInv_congr input P (P ++ [l]) _ _ k2 _ (hocc2 k2 hk2)
            (dsFileContent_snoc_other input P l k k2 hx hk2) ?_ ?_ ?_ (hentry k2)
          · intro hnm hmem
            rcases List.mem_append.mp hmem with hh | hh
            · exact hnm hh
            · simp only [List.mem_singleton] at hh
              exact hk2 hh
          · intro hmem
            exact List.mem_append.mpr (Or.inl hmem)
          · intro hmem
            exact idxJ_append_of_mem k2 _ _ hmem
    · -- third or later occurrence of k
      have hbr2 : rest ≠ [] ∧ mv.tag = Tag.EX ∧ k ∈ (seenDup P ([], [])).2
          ∧ mv.path = some (idxJ k (seenDup P ([], [])).2 + 1)
          ∧ mv.end_offset = some (dsFileContent input P k).length := by
        rcases hbr with ⟨e1, e2, e3, e4, e5⟩ | he2
        · exact absurd e2 htag
        · exact he2
      obtain ⟨hrest, htagEx, hkdups, hpath, hend⟩ := hbr2
      have hsd2 : seenDup (P ++ [l]) ([], []) = seenDup P ([], []) := by
        rw [hsd, hsd1, if_pos hkdups]
      have hrecne : recsOf input P k ≠ [] :=
        recsOf_ne_nil_of_occ input P k s0 n0 rest ho1
      have hw3 : 3 ≤ (',' :: rstrip l ++ sentinel).length := by
        simp [sentinel]
      have hold : fsRead st.files (idxJ k (seenDup P ([], [])).2 + 1)
          = dsFileContent input P k := by
        rw [hfiles]
        have := fsRead_filesFrom_idx (dsFileContent input P) k
          ((seenDup P ([], [])).2) 0 hkdups
        simpa using this
      have hnew : writeAt (dsFileContent input P k)
            ((dsFileContent input P k).length - 3) (',' :: rstrip l ++ sentinel)
          = dsFileContent input (P ++ [l]) k := by
        rw [dsContent_snoc_ex input P l k hx hread hrecne]
        unfold dsFileContent
        rw [writeAt_dsRender _ _ _ hw3]
        simp
      have hnewlen : (dsFileContent input P k).length - 3
            + (',' :: rstrip l ++ sentinel).length
          = (dsFileContent input (P ++ [l]) k).length := by
        have hge : 3 ≤ (dsFileContent input P k).length :=
          dsRender_length_ge (pyStr k) (recsOf input P k)
        rw [← hnew]
        unfold writeAt
        rw [List.drop_eq_nil_of_le (by omega), List.append_nil]
        simp only [List.length_append, List.length_cons, List.length_take,
          sentinel_length]
        omega
      have hstep : dsStep input st (lenSum P) l k
          = { fmap := setA st.fmap k
                { mv with end_offset := some (dsFileContent input (P ++ [l]) k).length },
              count := st.count,
              files := fsWrite st.files (idxJ k (seenDup P ([], [])).2 + 1)
                (dsFileContent input (P ++ [l]) k) } := by
        have htagNe : ¬ (mv.tag = Tag.NW) := htag
        simp only [dsStep, hlk, if_neg htagNe, dsAppend, hpath, hend,
          Option.getD_some, hold, hnew, hnewlen]
      rw [hstep]
      refine ⟨?_, ?_, ?_, ?_⟩
      · show st.count = _
        rw [hsd2]
        exact hcount
      · show fsWrite st.files _ _ = _
        rw [hsd2, hfiles]
        have hupd := fsWrite_filesFrom_idx (dsFileContent input P)
          (dsFileContent input (P ++ [l])) k ((seenDup P ([], [])).2) 0 hkdups
          hndupsND
          (fun k2 _ hk2 => (dsFileContent_snoc_other input P l k k2 hx hk2).symm)
        simpa using hupd
      · show (setA st.fmap k _).map Prod.fst = _
        rw [hsd2]
        have hm : k ∈ st.fmap.map Prod.fst := by rw [hkeys]; exact hinseen
        rw [setA_keys_mem st.fmap k _ hm, hkeys]
      · intro k2
        show entryInv input (P ++ [l]) ((seenDup (P ++ [l]) ([], [])).2) k2 _
        rw [hsd2]
        by_cases hk2 : k2 = k
        · subst hk2
          rw [lookupA_setA_self]
          refine ⟨s0, n0, rest ++ [(lenSum P, l.length)], ?_, ho2, ho3,
            Or.inr ⟨by simp, htagEx, hkdups, hpath, rfl⟩⟩
          rw [hocck, ho1]
          rfl
        · rw [lookupA_setA_other st.fmap k k2 _ hk2]
          exact entryInv_congr input P (P ++ [l]) _ _ k2 _ (hocc2 k2 hk2)
            (dsFileContent_snoc_other input P l k k2 hx hk2) id id (fun _ => rfl)
            (hentry k2)

theorem dsScanFrom_ok_inv :
    ∀ (S P : List (List Char)) (i : Nat) (st st' : DsSt) (input : List Char),
      dsScanFrom input S i (lenSum P) st = Except.ok st' →
      input = (P ++ S).flatten → allOk P → dsInv input P st →
      allOk (P ++ S) ∧ dsInv input (P ++ S) st'
  | [], P, i, st, st', input, h, _, hokP, hinv => by
    cases h
    exact ⟨by simpa using hokP, by simpa using hinv⟩
  | l :: S, P, i, st, st', input, h, hinp, hokP, hinv => by
    cases hx : extractFp l with
    | none => simp [dsScanFrom, hx] at h
    | some k =>
      have hread : readAt input (lenSum P) l.length = l := by
        rw [hinp]
        unfold readAt
        rw [show (P ++ l :: S).flatten = P.flatten ++ (l ++ S.flatten) by simp]
        rw [show lenSum P = P.flatten.length by rw [lenSum_flatten]]
        rw [List.drop_left, List.take_left]
      have h2 : dsScanFrom input S (i + 1) (lenSum (P ++ [l]))
          (dsStep input st (lenSum P) l k) = Except.ok st' := by
        rw [lenSum_append, show lenSum [l] = l.length by simp [lenSum]]
        simpa [dsScanFrom, hx] using h
      have hokPl : allOk (P ++ [l]) := by
        intro x hxx
        rcases List.mem_append.mp hxx with hh | hh
        · exact hokP x hh
        · simp only [List.mem_singleton] at hh
          subst hh
          simp [hx]
      have hinp2 : input = ((P ++ [l]) ++ S).flatten := by
        rw [hinp]
        simp
      have hres := dsScanFrom_ok_inv S (P ++ [l]) (i + 1) _ st' input h2 hinp2 hokPl
        (dsInv_step input P l k st hx hokP hread hinv)
      rwa [List.append_assoc, List.singleton_append] at hres

/-- Characterisation of a successful disk-resident scan on a whole file. -/
theorem dsScan_inv (file : List Char) (st' : DsSt)
    (h : dsScanFrom file (splitLines file) 0 0 ⟨[], 0, []⟩ = Except.ok st') :
    allOk (splitLines file) ∧ dsInv file (splitLines file) st' := by
  have hres := dsScanFrom_ok_inv (splitLines file) [] 0 ⟨[], 0, []⟩ st' file h
    (by simpa using (splitLines_flatten file).symm) (by simp [allOk]) (dsInv_nil file)
  simpa using hres

theorem dsScanFrom_error (input : List Char) :
    ∀ (A : List (List Char)) (l : List Char) (B : List (List Char))
      (i pos : Nat) (st : DsSt),
      allOk A → extractFp l = none →
      dsScanFrom input (A ++ l :: B) i pos st = Except.error (i + A.length)
  | [], l, B, i, pos, st, _, hl => by simp [dsScanFrom, hl]
  | a :: A, l, B, i, pos, st, hok, hl => by
    have hx0 : extractFp a ≠ none := hok a (by simp)
    obtain ⟨k, hx⟩ := Option.ne_none_iff_exists'.mp hx0
    have hokA : allOk A := fun x hxx => hok x (by simp [hxx])
    have ih := dsScanFrom_error input A l B (i + 1) (pos + a.length)
      (dsStep input st pos a k) hokA hl
    show dsScanFrom input (a :: (A ++ l :: B)) i pos st = _
    rw [show dsScanFrom input (a :: (A ++ l :: B)) i pos st
      = dsScanFrom input (A ++ l :: B) (i + 1) (pos + a.length)
          (dsStep input st pos a k) by simp [dsScanFrom, hx]]
    rw [ih]
    congr 1
    simp
    omega

/-! ## Bridging the final states to the emitted bytes -/

theorem mrWrite_go (input : List Char) :
    ∀ (m : List (JVal × List (Nat × Nat))) (acc : List Char),
      m.foldl
          (fun acc e =>
            if 1 < e.2.length then acc ++ mrGroupText input (pyStr e.1) e.2 else acc)
          acc
        = acc ++ ((m.filter (fun e => decide (1 < e.2.length))).map
            (fun e => mrGroupText input (pyStr e.1) e.2)).flatten
  | [], acc => by simp
  | e :: m, acc => by
    by_cases h : 1 < e.2.length
    · rw [List.foldl_cons, if_pos h, mrWrite_go input m _, List.filter_cons,
        if_pos (by simpa using h)]
      simp
    · rw [List.foldl_cons, if_neg h, mrWrite_go input m _, List.filter_cons,
        if_neg (by simpa using h)]

/-- `runtime_optimized.write` emits exactly the concatenation of one
rendered line per fingerprint with more than one stored occurrence, in map
order. -/
theorem mrWrite_eq_join (input : List Char) (m : List (JVal × List (Nat × Nat))) :
    mrWrite input m
      = ((m.filter (fun e => decide (1 < e.2.length))).map
          (fun e => mrGroupText input (pyStr e.1) e.2)).flatten := by
  unfold mrWrite
  rw [mrWrite_go]
  simp

theorem mrDupGroups_key_mem (input : List Char) :
    ∀ (m : List (JVal × List (Nat × Nat))) (g : JVal × List (List Char)),
      g ∈ mrDupGroups input m → g.1 ∈ m.map Prod.fst
  | [], g, h => by simp [mrDupGroups] at h
  | e :: m, g, h => by
    simp only [mrDupGroups, List.filterMap_cons] at h
    by_cases he : 1 < e.2.length
    · rw [if_pos he] at h
      rcases List.mem_cons.mp h with h2 | h2
      · subst h2
        simp
      · have := mrDupGroups_key_mem input m g h2
        simp only [List.map_cons, List.mem_cons]
        exact Or.inr this
    · rw [if_neg he] at h
      have := mrDupGroups_key_mem input m g h
      simp only [List.map_cons, List.mem_cons]
      exact Or.inr this

theorem mrDupGroups_count (input : List Char) (k : JVal) :
    ∀ (m : List (JVal × List (Nat × Nat))), (m.map Prod.fst).Nodup →
      (mrDupGroups input m).countP (fun g => decide (g.1 = k))
        = (match lookupA m k with
           | none => 0
           | some ps => if 1 < ps.length then 1 else 0)
  | [], _ => rfl
  | (k2, ps2) :: m, hnd => by
    have hnd2 : (m.map Prod.fst).Nodup := (List.nodup_cons.mp hnd).2
    have hk2nm : k2 ∉ m.map Prod.fst := (List.nodup_cons.mp hnd).1
    have ih := mrDupGroups_count input k m hnd2
    by_cases hk : k2 = k
    · subst hk
      have hzero : (mrDupGroups input m).countP (fun g => decide (g.1 = k2)) = 0 := by
        rw [List.countP_eq_zero]
        intro g hg
        simp only [decide_eq_true_eq]
        intro hgk
        exact hk2nm (hgk ▸ mrDupGroups_key_mem input m g hg)
      rw [show lookupA ((k2, ps2) :: m) k2 = some ps2 by simp [lookupA]]
      by_cases hlen : 1 < ps2.length
      · have hmr : mrDupGroups input ((k2, ps2) :: m)
            = (k2, ps2.map (fun p => rstrip (readAt input p.1 p.2)))
              :: mrDupGroups input m := by
          simp [mrDupGroups, List.filterMap_cons, hlen]
        show (mrDupGroups input ((k2, ps2) :: m)).countP (fun g => decide (g.1 = k2))
          = if 1 < ps2.length then 1 else 0
        rw [hmr, List.countP_cons, hzero, if_pos hlen]
        simp
      · have hmr : mrDupGroups input ((k2, ps2) :: m) = mrDupGroups input m := by
          simp [mrDupGroups, List.filterMap_cons, hlen]
        show (mrDupGroups input ((k2, ps2) :: m)).countP (fun g => decide (g.1 = k2))
          = if 1 < ps2.length then 1 else 0
        rw [hmr, hzero, if_neg hlen]
    · rw [show lookupA ((k2, ps2) :: m) k = lookupA m k by simp [lookupA, hk]]
      by_cases hlen : 1 < ps2.length
      · have hmr : mrDupGroups input ((k2, ps2) :: m)
            = (k2, ps2.map (fun p => rstrip (readAt input p.1 p.2)))
              :: mrDupGroups input m := by
          simp [mrDupGroups, List.filterMap_cons, hlen]
        rw [hmr, List.countP_cons]
        have hdec : (decide
            ((k2, ps2.map (fun p => rstrip (readAt input p.1 p.2))).1 = k)) = false := by
          simp [hk]
        rw [hdec, ih]
        simp
      · have hmr : mrDupGroups input ((k2, ps2) :: m) = mrDupGroups input m := by
          simp [mrDupGroups, List.filterMap_cons, hlen]
        rw [hmr, ih]

theorem mrDupGroups_mem (input : List Char) (k : JVal) (ps : List (Nat × Nat)) :
    ∀ (m : List (JVal × List (Nat × Nat))), lookupA m k = some ps → 1 < ps.length →
      (k, ps.map (fun p => rstrip (readAt input p.1 p.2))) ∈ mrDupGroups input m
  | [], h, _ => by simp [lookupA] at h
  | (k2, ps2) :: m, h, hlen => by
    by_cases hk : k2 = k
    · subst hk
      rw [show lookupA ((k2, ps2) :: m) k2 = some ps2 by simp [lookupA]] at h
      obtain rfl := Option.some.inj h
      have hmr : mrDupGroups input ((k2, ps2) :: m)
          = (k2, ps2.map (fun p => rstrip (readAt input p.1 p.2)))
            :: mrDupGroups input m := by
        simp [mrDupGroups, List.filterMap_cons, hlen]
      rw [hmr]
      simp
    · rw [show lookupA ((k2, ps2) :: m) k = lookupA m k by simp [lookupA, hk]] at h
      have ih := mrDupGroups_mem input k ps m h hlen
      simp only [mrDupGroups, List.filterMap_cons]
      by_cases hlen2 : 1 < ps2.length
      · rw [if_pos hlen2]
        exact List.mem_cons_of_mem _ ih
      · rw [if_neg hlen2]
        exact ih

theorem filesFrom_countP (f : JVal → List Char) (p : Nat) :
    ∀ (ks : List JVal) (base : Nat),
      (filesFrom f base ks).countP (fun e => decide (e.1 = p))
        = if base < p ∧ p ≤ base + ks.length then 1 else 0
  | [], base => by
    rw [if_neg (by simp only [List.length_nil]; omega)]
    simp [filesFrom]
  | k :: ks, base => by
    have ih := filesFrom_countP f p ks (base + 1)
    simp only [filesFrom, List.countP_cons, ih, decide_eq_true_eq, List.length_cons]
    by_cases h1 : base + 1 = p
    · rw [if_pos h1]
      rw [if_neg (by omega), if_pos (by omega)]
    · rw [if_neg h1]
      by_cases h2 : base + 1 < p ∧ p ≤ base + 1 + ks.length
      · rw [if_pos h2, if_pos (by omega)]
      · rw [if_neg h2, if_neg (by omega)]

/-! ## Glue lemmas for the claims -/

theorem lookupA_of_mem {α : Type} :
    ∀ (m : List (JVal × α)) (e : JVal × α), (m.map Prod.fst).Nodup → e ∈ m →
      lookupA m e.1 = some e.2
  | [], e, _, h => by simp at h
  | (k2, v2) :: m, e, hnd, h => by
    rcases List.mem_cons.mp h with h2 | h2
    · subst h2
      simp [lookupA]
    · have hk : ¬ (k2 = e.1) := by
        intro hh
        have : e.1 ∈ m.map Prod.fst := List.mem_map.mpr ⟨e, h2, rfl⟩
        exact (List.nodup_cons.mp hnd).1 (hh ▸ this)
      rw [show lookupA ((k2, v2) :: m) e.1 = lookupA m e.1 by simp [lookupA, hk]]
      exact lookupA_of_mem m e (List.nodup_cons.mp hnd).2 h2

theorem fsRead_fsWrite_self :
    ∀ (fs : List (Nat × List Char)) (p : Nat) (c : List Char),
      fsRead (fsWrite fs p c) p = c
  | [], p, c => by simp [fsWrite, fsRead]
  | (q, c2) :: fs, p, c => by
    by_cases h : q = p
    · simp [fsWrite, fsRead, h]
    · simp [fsWrite, fsRead, h, fsRead_fsWrite_self fs p c]

theorem filesFrom_mem (f : JVal → List Char) :
    ∀ (ks : List JVal) (base : Nat) (e : Nat × List Char),
      e ∈ filesFrom f base ks → ∃ k ∈ ks, e.2 = f k
  | [], _, _, h => by simp [filesFrom] at h
  | k :: ks, base, e, h => by
    rcases List.mem_cons.mp h with h2 | h2
    · exact ⟨k, by simp, by rw [h2]⟩
    · obtain ⟨k2, hk2, he⟩ := filesFrom_mem f ks (base + 1) e h2
      exact ⟨k2, by simp [hk2], he⟩

theorem idxJ_get (k : JVal) :
    ∀ (l : List JVal) (h : k ∈ l), l.get ⟨idxJ k l, idxJ_lt_length k l h⟩ = k
  | [], h => by simp at h
  | x :: xs, h => by
    by_cases hx : x = k
    · simp [idxJ, hx]
    · rcases List.mem_cons.mp h with h2 | h2
      · exact absurd h2.symm hx
      · have ih := idxJ_get k xs h2
        simp only [idxJ, if_neg hx]
        show (x :: xs).get ⟨idxJ k xs + 1, _⟩ = k
        simpa using ih

theorem idxJ_inj (k1 k2 : JVal) (l : List JVal)
    (h1 : k1 ∈ l) (h2 : k2 ∈ l) (he : idxJ k1 l = idxJ k2 l) : k1 = k2 := by
  have g1 := idxJ_get k1 l h1
  have g2 := idxJ_get k2 l h2
  rw [← g1, ← g2]
  congr 1
  exact Fin.ext he

theorem occAux_mem_decomp (k : JVal) :
    ∀ (P : List (List Char)) (pos : Nat) (p : Nat × Nat), p ∈ occAux k P pos →
      ∃ A l B, P = A ++ l :: B ∧ extractFp l = some k
        ∧ p = (pos + lenSum A, l.length)
  | [], _, p => by simp [occAux]
  | l :: P, pos, p => by
    intro hp
    simp only [occAux] at hp
    rcases List.mem_append.mp hp with h | h
    · by_cases hx : extractFp l = some k
      · rw [if_pos hx] at h
        simp only [List.mem_singleton] at h
        exact ⟨[], l, P, by simp, hx, by simp [h, lenSum]⟩
      · rw [if_neg hx] at h
        simp at h
    · obtain ⟨A, l2, B, hP, hx2, hp2⟩ := occAux_mem_decomp k P (pos + l.length) p h
      refine ⟨l :: A, l2, B, by simp [hP], hx2, ?_⟩
      rw [hp2]
      simp only [lenSum, List.map_cons, List.sum_cons, Prod.mk.injEq]
      constructor
      · omega
      · trivial

theorem mrInv_lookup (lines : List (List Char)) (m : List (JVal × List (Nat × Nat)))
    (k : JVal) (hinv : mrInv lines m) (h1 : 1 ≤ countK lines k) :
    lookupA m k = some (occAux k lines 0) := by
  have hl := hinv.2 k
  cases hlk : lookupA m k with
  | none =>
    rw [hlk] at hl
    have := (occAux_nil_iff k lines 0).mp hl
    omega
  | some ps =>
    rw [hlk] at hl
    rw [hl.1]

theorem dsInv_lookup_dup (input : List Char) (P : List (List Char)) (st : DsSt)
    (k : JVal) (hinv : dsInv input P st) (h2 : 2 ≤ countK P k) :
    ∃ mv s0 n0 rest, lookupA st.fmap k = some mv
      ∧ occAux k P 0 = (s0, n0) :: rest ∧ rest ≠ []
      ∧ mv.start = s0 ∧ mv.length = n0 ∧ mv.tag = Tag.EX
      ∧ k ∈ (seenDup P ([], [])).2
      ∧ mv.path = some (idxJ k (seenDup P ([], [])).2 + 1)
      ∧ mv.end_offset = some (dsFileContent input P k).length := by
  have he := hinv.2.2.2 k
  cases hlk : lookupA st.fmap k with
  | none =>
    rw [hlk] at he
    have := (occAux_nil_iff k P 0).mp he
    omega
  | some mv =>
    rw [hlk] at he
    obtain ⟨s0, n0, rest, ho1, ho2, ho3, hbr⟩ := he
    rcases hbr with ⟨e1, e2, e3, e4, e5⟩ | ⟨e1, e2, e3, e4, e5⟩
    · exfalso
      have := occAux_length k P 0
      rw [ho1, e1] at this
      simp at this
      omega
    · exact ⟨mv, s0, n0, rest, rfl, ho1, e1, ho2, ho3, e2, e3, e4, e5⟩

theorem dsInv_lookup_single (input : List Char) (P : List (List Char)) (st : DsSt)
    (k : JVal) (hinv : dsInv input P st) (h1 : countK P k = 1) :
    ∃ mv s0 n0, lookupA st.fmap k = some mv
      ∧ occAux k P 0 = [(s0, n0)]
      ∧ mv.start = s0 ∧ mv.length = n0 ∧ mv.tag = Tag.NW
      ∧ mv.path = none ∧ mv.end_offset = none
      ∧ k ∉ (seenDup P ([], [])).2 := by
  have he := hinv.2.2.2 k
  cases hlk : lookupA st.fmap k with
  | none =>
    rw [hlk] at he
    have := (occAux_nil_iff k P 0).mp he
    omega
  | some mv =>
    rw [hlk] at he
    obtain ⟨s0, n0, rest, ho1, ho2, ho3, hbr⟩ := he
    have hlen := occAux_length k P 0
    rw [ho1] at hlen
    rcases hbr with ⟨e1, e2, e3, e4, e5⟩ | ⟨e1, e2, e3, e4, e5⟩
    · subst e1
      exact ⟨mv, s0, n0, rfl, ho1, ho2, ho3, e2, e3, e4, e5⟩
    · exfalso
      cases rest with
      | nil => exact e1 rfl
      | cons r rest2 =>
        simp only [List.length_cons] at hlen
        omega

theorem writeAt_tail (c w : List Char) (h3 : 3 ≤ c.length) (hw : 3 ≤ w.length) :
    writeAt c (c.length - 3) w = c.take (c.length - 3) ++ w := by
  unfold writeAt
  rw [List.drop_eq_nil_of_le (by omega), List.append_nil]

theorem readAt_decomp (file : List Char) (A : List (List Char)) (l : List Char)
    (B : List (List Char)) (hsplit : splitLines file = A ++ l :: B) :
    readAt file (lenSum A) l.length = l := by
  have hf : file = (A ++ l :: B).flatten := by rw [← hsplit, splitLines_flatten]
  rw [hf]
  unfold readAt
  rw [show (A ++ l :: B).flatten = A.flatten ++ (l ++ B.flatten) by simp]
  rw [show lenSum A = A.flatten.length from (lenSum_flatten A).symm]
  rw [List.drop_left, List.take_left]

/-! ## The claims -/

/-- C1: for every input file and every fingerprint that occurs `N ≥ 2`
times in it, a completed run of either strategy emits exactly one output
group for that fingerprint, containing exactly `N` records ordered by the
records' first-to-last position in the input (`recsOf` maps over `occAux`,
which lists occurrences in input order).  The memory-resident output is the
concatenation of its groups (`mrWrite_eq_join`); the disk-resident output
is the concatenation of the temp files, of which exactly one (at the path
stored in the map entry) holds the group for this fingerprint. -/
theorem c1_duplicate_group_unique (file : List Char) (k : JVal)
    (h2 : 2 ≤ countK (splitLines file) k) :
    (∀ m, mrScanFrom (splitLines file) 0 0 [] = Except.ok m →
        mrRun file = Except.ok (mrWrite file m)
        ∧ (mrDupGroups file m).countP (fun g => decide (g.1 = k)) = 1
        ∧ (k, recsOf file (splitLines file) k) ∈ mrDupGroups file m
        ∧ (recsOf file (splitLines file) k).length = countK (splitLines file) k)
    ∧ (∀ st, dsScanFrom file (splitLines file) 0 0 ⟨[], 0, []⟩ = Except.ok st →
        dsRun file = Except.ok (dsMerge st.files)
        ∧ ∃ p, (∃ mv, lookupA st.fmap k = some mv ∧ mv.path = some p)
          ∧ st.files.countP (fun e => decide (e.1 = p)) = 1
          ∧ fsRead st.files p = dsRender (pyStr k) (recsOf file (splitLines file) k)
          ∧ (recsOf file (splitLines file) k).length = countK (splitLines file) k) := by
  constructor
  · intro m hscan
    obtain ⟨hok, hinv⟩ := mrScan_inv (splitLines file) m hscan
    have hlk := mrInv_lookup _ m k hinv (by omega)
    have hnd : (m.map Prod.fst).Nodup := by
      rw [hinv.1]
      exact (seenDup_props _ [] [] (by simp) List.nodup_nil List.nodup_nil).2.1
    have hlen2 : 1 < (occAux k (splitLines file) 0).length := by
      rw [occAux_length]
      omega
    refine ⟨by unfold mrRun; rw [hscan]; rfl, ?_, ?_, ?_⟩
    · rw [mrDupGroups_count file k m hnd]
      rw [hlk]
      show (if 1 < (occAux k (splitLines file) 0).length then 1 else 0) = 1
      rw [if_pos hlen2]
    · exact mrDupGroups_mem file k _ m hlk hlen2
    · show ((occAux k (splitLines file) 0).map _).length = _
      rw [List.length_map, occAux_length]
  · intro st hscan
    obtain ⟨hok, hinv⟩ := dsScan_inv file st hscan
    obtain ⟨mv, s0, n0, rest, hlk, ho, hrest, hs, hn, htag, hdup, hpath, hend⟩ :=
      dsInv_lookup_dup file _ st k hinv h2
    have hidx := idxJ_lt_length k _ hdup
    refine ⟨by unfold dsRun; rw [hscan]; rfl, idxJ k ((seenDup (splitLines file) ([], [])).2) + 1,
      ⟨mv, hlk, hpath⟩, ?_, ?_, ?_⟩
    · rw [hinv.2.1, filesFrom_countP]
      rw [if_pos (by constructor <;> omega)]
    · rw [hinv.2.1]
      have := fsRead_filesFrom_idx (dsFileContent file (splitLines file)) k
        ((seenDup (splitLines file) ([], [])).2) 0 hdup
      simpa using this
    · show ((occAux k (splitLines file) 0).map _).length = _
      rw [List.length_map, occAux_length]

/-- C2: on the same input, the two strategies produce output groups with
identical fingerprint sets (a fingerprint has the unique memory-resident
group iff it has the unique `TAG_EXISTING` temp file) and, per fingerprint,
exactly the same list of records — `recsOf`, the `rstrip`ed re-reads of all
occurrences in first-seen input order — so the record multisets and their
order agree. -/
theorem c2_strategies_equivalent (file : List Char)
    (m : List (JVal × List (Nat × Nat))) (st : DsSt)
    (hmr : mrScanFrom (splitLines file) 0 0 [] = Except.ok m)
    (hds : dsScanFrom file (splitLines file) 0 0 ⟨[], 0, []⟩ = Except.ok st) :
    ∀ k : JVal,
      ((mrDupGroups file m).countP (fun g => decide (g.1 = k)) = 1
        ↔ (∃ mv, lookupA st.fmap k = some mv ∧ mv.tag = Tag.EX))
      ∧ (∀ mv, lookupA st.fmap k = some mv → mv.tag = Tag.EX →
          ∃ p, mv.path = some p
            ∧ fsRead st.files p = dsRender (pyStr k) (recsOf file (splitLines file) k)
            ∧ (k, recsOf file (splitLines file) k) ∈ mrDupGroups file m) := by
  intro k
  obtain ⟨hokm, hinvm⟩ := mrScan_inv (splitLines file) m hmr
  obtain ⟨hokd, hinvd⟩ := dsScan_inv file st hds
  have hnd : (m.map Prod.fst).Nodup := by
    rw [hinvm.1]
    exact (seenDup_props _ [] [] (by simp) List.nodup_nil List.nodup_nil).2.1
  have hcountP : (mrDupGroups file m).countP (fun g => decide (g.1 = k))
      = if 2 ≤ countK (splitLines file) k then 1 else 0 := by
    rw [mrDupGroups_count file k m hnd]
    by_cases hc : 1 ≤ countK (splitLines file) k
    · rw [mrInv_lookup _ m k hinvm hc]
      show (if 1 < (occAux k (splitLines file) 0).length then 1 else 0) = _
      rw [occAux_length]
      by_cases h2 : 2 ≤ countK (splitLines file) k
      · rw [if_pos (by omega), if_pos h2]
      · rw [if_neg (by omega), if_neg h2]
    · have hml := hinvm.2 k
      cases hlk : lookupA m k with
      | none =>
        rw [if_neg (by omega)]
      | some ps =>
        rw [hlk] at hml
        exfalso
        have hocc0 : occAux k (splitLines file) 0 = [] := by
          rw [← List.length_eq_zero, occAux_length]
          omega
        exact hml.2 (hml.1.trans hocc0)
  have hexiff : (∃ mv, lookupA st.fmap k = some mv ∧ mv.tag = Tag.EX)
      ↔ 2 ≤ countK (splitLines file) k := by
    constructor
    · rintro ⟨mv, hlk, htag⟩
      have he := hinvd.2.2.2 k
      rw [hlk] at he
      obtain ⟨s0, n0, rest, ho1, -, -, hbr⟩ := he
      rcases hbr with ⟨-, e2, -, -, -⟩ | ⟨e1, -, -, -, -⟩
      · rw [htag] at e2
        exact absurd e2 (by decide)
      · have := occAux_length k (splitLines file) 0
        rw [ho1] at this
        cases rest with
        | nil => exact absurd rfl e1
        | cons r rs =>
          simp only [List.length_cons] at this
          omega
    · intro h2
      obtain ⟨mv, s0, n0, rest, hlk, -, -, -, -, htag, -, -, -⟩ :=
        dsInv_lookup_dup file _ st k hinvd h2
      exact ⟨mv, hlk, htag⟩
  constructor
  · rw [hcountP]
    rw [hexiff]
    by_cases h2 : 2 ≤ countK (splitLines file) k
    · rw [if_pos h2]
      simp [h2]
    · rw [if_neg h2]
      simp [h2]
  · intro mv hlk htag
    have h2 : 2 ≤ countK (splitLines file) k := hexiff.mp ⟨mv, hlk, htag⟩
    obtain ⟨mv2, s0, n0, rest, hlk2, ho, hrest, -, -, -, hdup, hpath2, -⟩ :=
      dsInv_lookup_dup file _ st k hinvd h2
    have hmveq : mv = mv2 := by
      rw [hlk] at hlk2
      exact Option.some.inj hlk2
    subst hmveq
    refine ⟨idxJ k ((seenDup (splitLines file) ([], [])).2) + 1, hpath2, ?_, ?_⟩
    · rw [hinvd.2.1]
      have := fsRead_filesFrom_idx (dsFileContent file (splitLines file)) k
        ((seenDup (splitLines file) ([], [])).2) 0 hdup
      simpa using this
    · have hlkm := mrInv_lookup _ m k hinvm (by omega)
      have hlen2 : 1 < (occAux k (splitLines file) 0).length := by
        rw [occAux_length]
        omega
      exact mrDupGroups_mem file k _ m hlkm hlen2

/-- C3: every record emitted into any output group, by either strategy, is
the byte sequence of some input line with only trailing whitespace
removed: it equals `rstrip` of the re-read original bytes, its length is
the original length minus exactly the trailing-whitespace length, and the
original line is the record followed by that whitespace (verbatim copy, no
re-serialisation). -/
theorem c3_records_verbatim (file : List Char) :
    (∀ m, mrScanFrom (splitLines file) 0 0 [] = Except.ok m →
        ∀ g ∈ mrDupGroups file m, ∀ r ∈ g.2,
          ∃ l ∈ splitLines file, r = rstrip l
            ∧ r.length + (l.reverse.takeWhile isPyWs).length = l.length
            ∧ l = r ++ (l.reverse.takeWhile isPyWs).reverse)
    ∧ (∀ st, dsScanFrom file (splitLines file) 0 0 ⟨[], 0, []⟩ = Except.ok st →
        ∀ e ∈ st.files, ∃ k, e.2 = dsRender (pyStr k) (recsOf file (splitLines file) k)
          ∧ ∀ r ∈ recsOf file (splitLines file) k,
            ∃ l ∈ splitLines file, r = rstrip l
              ∧ r.length + (l.reverse.takeWhile isPyWs).length = l.length
              ∧ l = r ++ (l.reverse.takeWhile isPyWs).reverse) := by
  have hrec : ∀ (k : JVal) (r : List Char), r ∈ recsOf file (splitLines file) k →
      ∃ l ∈ splitLines file, r = rstrip l
        ∧ r.length + (l.reverse.takeWhile isPyWs).length = l.length
        ∧ l = r ++ (l.reverse.takeWhile isPyWs).reverse := by
    intro k r hr
    obtain ⟨p, hp, hpr⟩ := List.mem_map.mp hr
    have hp0 : p ∈ occAux k (splitLines file) (List.length ([] : List Char)) := by
      simpa using hp
    obtain ⟨l, hlP, hlx, hlen, hread⟩ :=
      occAux_readAt k (splitLines file) [] [] p hp0
    rw [List.nil_append, List.append_nil, splitLines_flatten] at hread
    refine ⟨l, hlP, ?_, ?_, ?_⟩
    · rw [← hpr, hread]
    · rw [← hpr, hread]
      exact rstrip_length l
    · rw [← hpr, hread]
      exact rstrip_decomp l
  constructor
  · intro m hscan g hg r hr
    obtain ⟨hok, hinv⟩ := mrScan_inv (splitLines file) m hscan
    have hnd : (m.map Prod.fst).Nodup := by
      rw [hinv.1]
      exact (seenDup_props _ [] [] (by simp) List.nodup_nil List.nodup_nil).2.1
    obtain ⟨e, he, hge⟩ := List.mem_filterMap.mp hg
    by_cases hlen : 1 < e.2.length
    · rw [if_pos hlen] at hge
      have hlke : lookupA m e.1 = some e.2 := lookupA_of_mem m e hnd he
      have hml := hinv.2 e.1
      rw [hlke] at hml
      have hml2 : e.2 = occAux e.1 (splitLines file) 0 ∧ e.2 ≠ [] := hml
      have hg2 : (e.1, e.2.map (fun p => rstrip (readAt file p.1 p.2))) = g :=
        Option.some.inj hge
      have hr2 : r ∈ e.2.map (fun p => rstrip (readAt file p.1 p.2)) := by
        rw [← hg2] at hr
        exact hr
      apply hrec e.1
      show r ∈ recsOf file (splitLines file) e.1
      unfold recsOf
      rw [← hml2.1]
      exact hr2
    · rw [if_neg hlen] at hge
      exact absurd hge (by simp)
  · intro st hscan e he
    obtain ⟨hok, hinv⟩ := dsScan_inv file st hscan
    rw [hinv.2.1] at he
    obtain ⟨k, -, hek⟩ := filesFrom_mem _ _ 0 e he
    exact ⟨k, hek, fun r hr => hrec k r hr⟩

/-- C4: in the disk-resident strategy, an append for a third-or-later
occurrence (`TAG_EXISTING`) seeks to `end_offset - 3` and writes a comma
separator, the `rstrip`ed new record, and a fresh 3-byte closing sentinel:
the file's bytes before `end_offset - 3` are unchanged, the result is the
untouched prefix followed exactly by the written bytes, the returned
cursor is the new file end, and — for any prefix of any successful scan —
every temp file ends in exactly the 3-byte sentinel, so each file is
byte-valid after every single append. -/
theorem c4_sentinel_overwrite (input : List Char) :
    (∀ (fps cur old : List Char) (mv : MapValue) (fs : List (Nat × List Char)) (p : Nat),
      mv.tag = Tag.EX → mv.path = some p → mv.end_offset = some old.length →
      fsRead fs p = old → 3 ≤ old.length →
      fsRead (dsAppend input fps mv cur fs).2 p
          = old.take (old.length - 3) ++ ',' :: rstrip cur ++ sentinel
        ∧ (fsRead (dsAppend input fps mv cur fs).2 p).take (old.length - 3)
            = old.take (old.length - 3)
        ∧ (∃ pre, fsRead (dsAppend input fps mv cur fs).2 p = pre ++ sentinel)
        ∧ (dsAppend input fps mv cur fs).1
            = (fsRead (dsAppend input fps mv cur fs).2 p).length)
    ∧ (∀ st, dsScanFrom input (splitLines input) 0 0 ⟨[], 0, []⟩ = Except.ok st →
        ∀ e ∈ st.files, ∃ pre, e.2 = pre ++ sentinel) := by
  constructor
  · intro fps cur old mv fs p htag hpath hend hold h3
    have htagne : ¬ (mv.tag = Tag.NW) := by
      rw [htag]
      decide
    have happ : dsAppend input fps mv cur fs
        = (old.length - 3 + (',' :: rstrip cur ++ sentinel).length,
           fsWrite fs p (writeAt old (old.length - 3) (',' :: rstrip cur ++ sentinel))) := by
      simp [dsAppend, htagne, hpath, hend, hold]
    have hw3 : 3 ≤ (',' :: rstrip cur ++ sentinel).length := by
      simp [sentinel]
    have hnew : writeAt old (old.length - 3) (',' :: rstrip cur ++ sentinel)
        = old.take (old.length - 3) ++ ',' :: rstrip cur ++ sentinel := by
      rw [writeAt_tail old _ h3 hw3]
      simp
    have hreadnew : fsRead (dsAppend input fps mv cur fs).2 p
        = old.take (old.length - 3) ++ ',' :: rstrip cur ++ sentinel := by
      rw [happ]
      show fsRead (fsWrite fs p _) p = _
      rw [fsRead_fsWrite_self, hnew]
    have htklen : (old.take (old.length - 3)).length = old.length - 3 := by
      rw [List.length_take]
      omega
    refine ⟨hreadnew, ?_, ?_, ?_⟩
    · rw [hreadnew]
      rw [show List.take (old.length - 3) old ++ ',' :: rstrip cur ++ sentinel
          = List.take (old.length - 3) old ++ (',' :: rstrip cur ++ sentinel) by simp]
      exact List.take_left' htklen
    · refine ⟨old.take (old.length - 3) ++ ',' :: rstrip cur, ?_⟩
      rw [hreadnew]
    · rw [hreadnew, happ]
      show old.length - 3 + (',' :: rstrip cur ++ sentinel).length
        = (List.take (old.length - 3) old ++ ',' :: rstrip cur ++ sentinel).length
      simp only [List.length_append, List.length_cons, List.length_take]
      omega
  · intro st hscan e he
    obtain ⟨hok, hinv⟩ := dsScan_inv input st hscan
    rw [hinv.2.1] at he
    obtain ⟨k, -, hek⟩ := filesFrom_mem _ _ 0 e he
    refine ⟨header (pyStr k) ++ interComma (recsOf input (splitLines input) k), ?_⟩
    rw [hek]
    show dsRender _ _ = _
    unfold dsRender
    simp

/-- C5: a fingerprint occurring exactly once in the input never produces
an output group in either strategy: the memory-resident output contains no
group for it, and in the disk-resident strategy its map entry is still
`TAG_NEW` with no path, it is not in the duplicated-fingerprint sequence,
and every temp file merged into the final output belongs to a different
fingerprint. -/
theorem c5_singleton_no_group (file : List Char) (k : JVal)
    (h1 : countK (splitLines file) k = 1) :
    (∀ m, mrScanFrom (splitLines file) 0 0 [] = Except.ok m →
        (mrDupGroups file m).countP (fun g => decide (g.1 = k)) = 0)
    ∧ (∀ st, dsScanFrom file (splitLines file) 0 0 ⟨[], 0, []⟩ = Except.ok st →
        (∃ mv, lookupA st.fmap k = some mv ∧ mv.tag = Tag.NW ∧ mv.path = none)
        ∧ k ∉ (seenDup (splitLines file) ([], [])).2
        ∧ ∀ e ∈ st.files, ∃ k2, k2 ≠ k
            ∧ e.2 = dsRender (pyStr k2) (recsOf file (splitLines file) k2)) := by
  constructor
  · intro m hscan
    obtain ⟨hok, hinv⟩ := mrScan_inv (splitLines file) m hscan
    have hnd : (m.map Prod.fst).Nodup := by
      rw [hinv.1]
      exact (seenDup_props _ [] [] (by simp) List.nodup_nil List.nodup_nil).2.1
    rw [mrDupGroups_count file k m hnd, mrInv_lookup _ m k hinv (by omega)]
    show (if 1 < (occAux k (splitLines file) 0).length then 1 else 0) = 0
    rw [occAux_length, h1]
    rw [if_neg (by omega)]
  · intro st hscan
    obtain ⟨hok, hinv⟩ := dsScan_inv file st hscan
    obtain ⟨mv, s0, n0, hlk, ho, -, -, htag, hpath, -, hndup⟩ :=
      dsInv_lookup_single file _ st k hinv h1
    refine ⟨⟨mv, hlk, htag, hpath⟩, hndup, ?_⟩
    intro e he
    rw [hinv.2.1] at he
    obtain ⟨k2, hk2mem, hek⟩ := filesFrom_mem _ _ 0 e he
    exact ⟨k2, fun hh => hndup (hh ▸ hk2mem), hek⟩

/-- C7: both strategies are deterministic functions of the input file's
bytes: two runs on the same unchanged content produce identical results.
In this pure embedding the only potential nondeterminism of the source —
the `glob` enumeration order of the temp directory in
`merge_and_create_output` — is modelled as the fixed creation order, so
byte-identical output modulo filesystem path naming. -/
theorem c7_deterministic (file1 file2 : List Char) (h : file1 = file2) :
    mrRun file1 = mrRun file2 ∧ dsRun file1 = dsRun file2 := by
  subst h
  exact ⟨rfl, rfl⟩

/-- C8 (amended): if some input line fails fingerprint extraction — the
line is not a complete JSON document, no `data.leaf_cert` object with a
`fingerprint` key is reachable, or the fingerprint value is an unhashable
array/object — then both strategies abort at the first such line with an
uncaught exception (`Except.error` carrying the line index), and no final
output is produced for that run.  Scalar non-string fingerprint values
(numbers, booleans, null) do NOT abort; see the counterexample. -/
theorem c8_malformed_aborts (file : List Char) (A : List (List Char))
    (l : List Char) (B : List (List Char))
    (hsplit : splitLines file = A ++ l :: B)
    (hokA : allOk A) (hbad : extractFp l = none) :
    mrRun file = Except.error A.length ∧ dsRun file = Except.error A.length := by
  constructor
  · unfold mrRun
    rw [hsplit, mrScanFrom_error A l B 0 0 [] hokA hbad]
    simp [Except.map]
  · unfold dsRun
    rw [hsplit, dsScanFrom_error file A l B 0 0 ⟨[], 0, []⟩ hokA hbad]
    simp [Except.map]

/-- C8 (counterexample to the claim as stated): a line whose
`data.leaf_cert.fingerprint` value is not a string but the JSON number `5`
does not abort either strategy — the scalar is accepted as the dedup key,
both runs complete, and a (here empty) final output is produced, contrary
to the claim that a non-string value is a fatal extraction error. -/
theorem c8_counterexample :
    extractFp ("\x7b\"data\": \x7b\"leaf_cert\": \x7b\"fingerprint\": 5\x7d\x7d\x7d\n".toList)
        = some (JVal.num ['5'])
      ∧ mrRun ("\x7b\"data\": \x7b\"leaf_cert\": \x7b\"fingerprint\": 5\x7d\x7d\x7d\n".toList)
          = Except.ok []
      ∧ dsRun ("\x7b\"data\": \x7b\"leaf_cert\": \x7b\"fingerprint\": 5\x7d\x7d\x7d\n".toList)
          = Except.ok [] := by
  refine ⟨by rfl, by rfl, by rfl⟩

theorem dsStep_fmap_other (input : List Char) (st : DsSt) (pos : Nat)
    (l : List Char) (k k2 : JVal) (hne : k2 ≠ k) :
    lookupA (dsStep input st pos l k).fmap k2 = lookupA st.fmap k2 := by
  cases hlkk : lookupA st.fmap k with
  | none =>
    have hstep : (dsStep input st pos l k).fmap
        = setA st.fmap k ⟨pos, l.length, Tag.NW, none, none⟩ := by
      unfold dsStep
      simp only [hlkk]
    rw [hstep]
    exact lookupA_setA_other _ _ _ _ hne
  | some mvk =>
    by_cases hc : mvk.tag = Tag.NW
    · have hstep : (dsStep input st pos l k).fmap
          = setA st.fmap k
              { mvk with
                path := some (st.count + 1), tag := Tag.EX,
                end_offset := some (dsAppend input (pyStr k)
                  { mvk with path := some (st.count + 1) } l st.files).1 } := by
        unfold dsStep
        simp only [hlkk, if_pos hc]
      rw [hstep]
      exact lookupA_setA_other _ _ _ _ hne
    · have hstep : (dsStep input st pos l k).fmap
          = setA st.fmap k
              { mvk with
                end_offset := some (dsAppend input (pyStr k) mvk l st.files).1 } := by
        unfold dsStep
        simp only [hlkk, if_neg hc]
      rw [hstep]
      exact lookupA_setA_other _ _ _ _ hne

theorem dsStep_fmap_self_ex (input : List Char) (st : DsSt) (pos : Nat)
    (l : List Char) (k : JVal) (mvk : MapValue)
    (hlkk : lookupA st.fmap k = some mvk) (hc : ¬ mvk.tag = Tag.NW) :
    lookupA (dsStep input st pos l k).fmap k
      = some { mvk with end_offset := some (dsAppend input (pyStr k) mvk l st.files).1 } := by
  unfold dsStep
  simp only [hlkk]
  rw [if_neg hc]
  exact lookupA_setA_self _ _ _

/-- C9: in the disk-resident strategy, a map entry's tag only moves from
`TAG_NEW` to `TAG_EXISTING` and never back (one scan step preserves
`TAG_EXISTING`); after any successful scan the per-fingerprint path
counter equals the number of duplicated fingerprints, which are pairwise
distinct and exactly those with at least two occurrences (so the counter
is incremented exactly once per such fingerprint, at its second
occurrence); and distinct fingerprints with assigned paths have distinct
paths. -/
theorem c9_counter_tag_paths (file : List Char) :
    (∀ (input : List Char) (st : DsSt) (pos : Nat) (l : List Char) (k k2 : JVal)
        (mv : MapValue),
      lookupA st.fmap k2 = some mv → mv.tag = Tag.EX →
      ∃ mv2, lookupA (dsStep input st pos l k).fmap k2 = some mv2
        ∧ mv2.tag = Tag.EX)
    ∧ (∀ st, dsScanFrom file (splitLines file) 0 0 ⟨[], 0, []⟩ = Except.ok st →
        st.count = ((seenDup (splitLines file) ([], [])).2).length
        ∧ ((seenDup (splitLines file) ([], [])).2).Nodup
        ∧ (∀ k, k ∈ (seenDup (splitLines file) ([], [])).2
            ↔ 2 ≤ countK (splitLines file) k)
        ∧ (∀ k1 k2 mv1 mv2 p1 p2, k1 ≠ k2 →
            lookupA st.fmap k1 = some mv1 → mv1.path = some p1 →
            lookupA st.fmap k2 = some mv2 → mv2.path = some p2 → p1 ≠ p2)) := by
  constructor
  · intro input st pos l k k2 mv hlk htag
    by_cases hk2 : k2 = k
    · subst hk2
      cases hlkk : lookupA st.fmap k2 with
      | none =>
        rw [hlkk] at hlk
        exact Option.noConfusion hlk
      | some mvk =>
        have hmveq : mvk = mv := by
          rw [hlk] at hlkk
          exact (Option.some.inj hlkk).symm
        have hc : ¬ (mvk.tag = Tag.NW) := by
          rw [hmveq, htag]
          decide
        refine ⟨_, dsStep_fmap_self_ex input st pos l k2 mvk hlkk hc, ?_⟩
        show mvk.tag = Tag.EX
        rw [hmveq, htag]
    · refine ⟨mv, ?_, htag⟩
      rw [dsStep_fmap_other input st pos l k k2 hk2]
      exact hlk
  · intro st hscan
    obtain ⟨hok, hinv⟩ := dsScan_inv file st hscan
    obtain ⟨hsub, -, hndND, -, -⟩ :=
      seenDup_props (splitLines file) [] [] (by simp) List.nodup_nil List.nodup_nil
    refine ⟨hinv.1, hndND, ?_, ?_⟩
    · intro k
      have := (seenDup_mem k (splitLines file) [] [] hok (by simp)).2
      rw [this]
      simp
    · intro k1 k2 mv1 mv2 p1 p2 hne hlk1 hp1 hlk2 hp2
      have he1 := hinv.2.2.2 k1
      rw [hlk1] at he1
      obtain ⟨s0, n0, rest, -, -, -, hbr1⟩ := he1
      have he2 := hinv.2.2.2 k2
      rw [hlk2] at he2
      obtain ⟨t0, u0, rest2, -, -, -, hbr2⟩ := he2
      rcases hbr1 with ⟨-, -, hpn, -, -⟩ | ⟨-, -, hm1, hpe1, -⟩
      · rw [hpn] at hp1
        exact Option.noConfusion hp1
      · rcases hbr2 with ⟨-, -, hpn, -, -⟩ | ⟨-, -, hm2, hpe2, -⟩
        · rw [hpn] at hp2
          exact Option.noConfusion hp2
        · rw [hpe1] at hp1
          rw [hpe2] at hp2
          obtain rfl := Option.some.inj hp1
          obtain rfl := Option.some.inj hp2
          intro heq
          have : idxJ k1 ((seenDup (splitLines file) ([], [])).2)
              = idxJ k2 ((seenDup (splitLines file) ([], [])).2) := by omega
          exact hne (idxJ_inj k1 k2 _ hm1 hm2 this)

/-- C10: in both strategies, every stored `(start, length)` range comes
from the arithmetic `length = end - start` of the `readline` loop: it is
exactly the byte range of one input line (terminator bytes included, since
`splitLines` chunks carry their newline), its start is the total length of
all preceding lines (so consecutive records are contiguous and the first
starts at 0), re-reading the range yields the line verbatim, and the
lines' concatenation is the whole scanned file, so the stored locations
partition it. -/
theorem c10_locations_partition (file : List Char) :
    (splitLines file).flatten = file
    ∧ (∀ m, mrScanFrom (splitLines file) 0 0 [] = Except.ok m →
        ∀ k ps, lookupA m k = some ps →
          ps = occAux k (splitLines file) 0
          ∧ ∀ p ∈ ps, ∃ A l B, splitLines file = A ++ l :: B
              ∧ p.1 = lenSum A ∧ p.2 = l.length
              ∧ readAt file p.1 p.2 = l)
    ∧ (∀ st, dsScanFrom file (splitLines file) 0 0 ⟨[], 0, []⟩ = Except.ok st →
        ∀ k mv, lookupA st.fmap k = some mv →
          ∃ A l B, splitLines file = A ++ l :: B
            ∧ mv.start = lenSum A ∧ mv.length = l.length
            ∧ readAt file mv.start mv.length = l) := by
  have hdec : ∀ (k : JVal) (p : Nat × Nat), p ∈ occAux k (splitLines file) 0 →
      ∃ A l B, splitLines file = A ++ l :: B
        ∧ p.1 = lenSum A ∧ p.2 = l.length ∧ readAt file p.1 p.2 = l := by
    intro k p hp
    obtain ⟨A, l, B, hsplit, -, hpe⟩ := occAux_mem_decomp k (splitLines file) 0 p hp
    refine ⟨A, l, B, hsplit, by rw [hpe]; simp, by rw [hpe], ?_⟩
    rw [hpe]
    show readAt file (0 + lenSum A) l.length = l
    rw [Nat.zero_add]
    exact readAt_decomp file A l B hsplit
  refine ⟨splitLines_flatten file, ?_, ?_⟩
  · intro m hscan k ps hlk
    obtain ⟨hok, hinv⟩ := mrScan_inv (splitLines file) m hscan
    have hml := hinv.2 k
    rw [hlk] at hml
    have hml2 : ps = occAux k (splitLines file) 0 ∧ ps ≠ [] := hml
    refine ⟨hml2.1, ?_⟩
    intro p hp
    exact hdec k p (hml2.1 ▸ hp)
  · intro st hscan k mv hlk
    obtain ⟨hok, hinv⟩ := dsScan_inv file st hscan
    have he := hinv.2.2.2 k
    rw [hlk] at he
    obtain ⟨s0, n0, rest, ho1, ho2, ho3, -⟩ := he
    have hmem : (s0, n0) ∈ occAux k (splitLines file) 0 := by
      rw [ho1]
      simp
    obtain ⟨A, l, B, hsplit, hp1, hp2, hread⟩ := hdec k (s0, n0) hmem
    exact ⟨A, l, B, hsplit, by rw [ho2]; exact hp1, by rw [ho3]; exact hp2,
      by rw [ho2, ho3]; exact hread⟩

/-! ## Parser extension properties (for the output-validity claim) -/

theorem szJ_pos : ∀ j : JVal, 1 ≤ szJ j
  | JVal.null => le_refl 1
  | JVal.bool _ => le_refl 1
  | JVal.num _ => le_refl 1
  | JVal.str _ => le_refl 1
  | JVal.arr es => by simp [szJ]
  | JVal.obj fs => by simp [szJ]

theorem isNumChar_not_ws (c : Char) (h : isNumChar c = true) : isPyWs c = false := by
  cases hx : isPyWs c
  · rfl
  · exfalso
    simp only [isPyWs, isWs, Bool.or_eq_true, decide_eq_true_eq] at hx
    rcases hx with ((((h1 | h1) | h1) | h1) | h1) | h1 <;>
      (subst h1; exact absurd h (by decide))

theorem isNumChar_not_comma (c : Char) (h : isNumChar c = true) : c ≠ ',' := by
  intro hc
  subst hc
  exact absurd h (by decide)

theorem isDigit_ne (c : Char) (h : c.isDigit = true) :
    c ≠ ']' ∧ c ≠ '\x7d' ∧ c ≠ ',' ∧ isWs c = false := by
  refine ⟨?_, ?_, ?_, ?_⟩
  · intro hc; subst hc; exact absurd h (by decide)
  · intro hc; subst hc; exact absurd h (by decide)
  · intro hc; subst hc; exact absurd h (by decide)
  · cases hx : isWs c
    · rfl
    · exfalso
      simp only [isWs, Bool.or_eq_true, decide_eq_true_eq] at hx
      rcases hx with ((h1 | h1) | h1) | h1 <;> (subst h1; exact absurd h (by decide))

theorem valueStart_facts (c : Char) (h : valueStart c = true) :
    c ≠ ']' ∧ c ≠ '\x7d' ∧ c ≠ ',' ∧ isWs c = false := by
  simp only [valueStart, Bool.or_eq_true, decide_eq_true_eq] at h
  rcases h with ((((((h | h) | h) | h) | h) | h) | h) | h
  · subst h; exact ⟨by decide, by decide, by decide, by decide⟩
  · subst h; exact ⟨by decide, by decide, by decide, by decide⟩
  · subst h; exact ⟨by decide, by decide, by decide, by decide⟩
  · subst h; exact ⟨by decide, by decide, by decide, by decide⟩
  · subst h; exact ⟨by decide, by decide, by decide, by decide⟩
  · subst h; exact ⟨by decide, by decide, by decide, by decide⟩
  · exact isDigit_ne c h
  · subst h; exact ⟨by decide, by decide, by decide, by decide⟩

theorem dropWhile_head_not {p : Char → Bool} :
    ∀ (a : List Char) (c : Char) (x : List Char),
      a.dropWhile p = c :: x → p c = false
  | [], c, x, h => by simp [List.dropWhile] at h
  | b :: a, c, x, h => by
    by_cases hb : p b = true
    · rw [List.dropWhile_cons, if_pos hb] at h
      exact dropWhile_head_not a c x h
    · rw [List.dropWhile_cons, if_neg hb] at h
      obtain ⟨rfl, -⟩ := List.cons.inj h
      cases hx : p b
      · rfl
      · exact absurd hx hb

theorem dropWhile_append_of_ne_nil {p : Char → Bool} (a b : List Char)
    (c : Char) (x : List Char) (h : a.dropWhile p = c :: x) :
    (a ++ b).dropWhile p = c :: (x ++ b) := by
  have hdec : a = a.takeWhile p ++ a.dropWhile p :=
    (List.takeWhile_append_dropWhile p a).symm
  calc (a ++ b).dropWhile p
      = ((a.takeWhile p ++ a.dropWhile p) ++ b).dropWhile p := by rw [← hdec]
    _ = (a.takeWhile p ++ (a.dropWhile p ++ b)).dropWhile p := by rw [List.append_assoc]
    _ = (a.dropWhile p ++ b).dropWhile p :=
        dropWhile_append_all _ _ (fun c2 hc2 => mem_takeWhile_sat _ c2 hc2)
    _ = c :: (x ++ b) := by
        rw [h, List.cons_append, List.dropWhile_cons,
          if_neg (by rw [dropWhile_head_not a c x h]; simp)]

theorem takeWhile_append_stop {p : Char → Bool} :
    ∀ (a b : List Char), (∀ c ∈ a, p c = true) →
      (∀ c, b.head? = some c → p c = false) →
      (a ++ b).takeWhile p = a ∧ (a ++ b).dropWhile p = b
  | [], b, _, hb => by
    constructor
    · cases b with
      | nil => rfl
      | cons c x =>
        simp only [List.nil_append, List.takeWhile_cons, hb c rfl]
        rfl
    · cases b with
      | nil => rfl
      | cons c x =>
        simp only [List.nil_append, List.dropWhile_cons, hb c rfl]
        rfl
  | a0 :: a, b, ha, hb => by
    obtain ⟨ih1, ih2⟩ := takeWhile_append_stop a b (fun c hc => ha c (by simp [hc])) hb
    constructor
    · simp only [List.cons_append, List.takeWhile_cons, ha a0 (by simp), ih1]
      rfl
    · simp only [List.cons_append, List.dropWhile_cons, ha a0 (by simp), ih2]
      rfl

theorem expectToken_decomp :
    ∀ (lit s rem : List Char), expectToken lit s = some rem → s = lit ++ rem
  | [], s, rem, h => by
    simp [expectToken] at h
    rw [h]
    rfl
  | c :: lit, s, rem, h => by
    cases s with
    | nil => simp [expectToken] at h
    | cons d ds =>
      by_cases hc : c = d
      · subst hc
        simp only [expectToken, if_pos rfl] at h
        rw [List.cons_append, expectToken_decomp lit ds rem h]
      · simp [expectToken, hc] at h

theorem expectToken_self :
    ∀ (lit t : List Char), expectToken lit (lit ++ t) = some t
  | [], t => rfl
  | c :: lit, t => by
    simp only [List.cons_append, expectToken, if_pos rfl]
    exact expectToken_self lit t

theorem prodEq {α β : Type} {a c : α} {b d : β} (h : (a, b) = (c, d)) :
    a = c ∧ b = d :=
  ⟨congrArg Prod.fst h, congrArg Prod.snd h⟩

theorem getLast?_cons_ne_nil (c : Char) (l : List Char) (h : l ≠ []) :
    (c :: l).getLast? = l.getLast? := by
  cases l with
  | nil => exact absurd rfl h
  | cons a as => exact List.getLast?_cons_cons

theorem parseStringBody_cons (c : Char) (b : List Char) :
    parseStringBody (c :: b) =
      if c = '"' then some ([], b)
      else if c = '\\' then
        (match b with
         | [] => none
         | e :: rest2 =>
           match escChar e with
           | none => none
           | some c2 =>
             match parseStringBody rest2 with
             | none => none
             | some (s, rem) => some (c2 :: s, rem))
      else if c.toNat < 32 then none
      else
        match parseStringBody b with
        | none => none
        | some (s, rem) => some (c :: s, rem) := by
  rw [parseStringBody.eq_def]

theorem parseStringBody_ext :
    ∀ (b s rem : List Char), parseStringBody b = some (s, rem) →
      ∃ raw, b = raw ++ rem ∧ raw ≠ [] ∧ raw.getLast? = some '"'
        ∧ ∀ t, parseStringBody (raw ++ t) = some (s, t)
  | [], s, rem, h => by simp [parseStringBody] at h
  | c :: b, s, rem, h => by
    by_cases hq : c = '"'
    · subst hq
      rw [show parseStringBody ('"' :: b) = some ([], b) by
        simp [parseStringBody_cons]] at h
      obtain ⟨rfl, rfl⟩ := prodEq (Option.some.inj h)
      exact ⟨['"'], rfl, by simp, rfl, fun t => by simp [parseStringBody_cons]⟩
    · by_cases he : c = '\\'
      · subst he
        cases b with
        | nil => simp [parseStringBody] at h
        | cons e b2 =>
          cases hesc : escChar e with
          | none => simp [parseStringBody, hesc] at h
          | some c2 =>
            cases hrec : parseStringBody b2 with
            | none => simp [parseStringBody, hesc, hrec] at h
            | some pr =>
              obtain ⟨s2, rem2⟩ := pr
              rw [show parseStringBody ('\\' :: e :: b2) = some (c2 :: s2, rem2) by
                simp [parseStringBody, hesc, hrec]] at h
              obtain ⟨h3, h4⟩ := prodEq (Option.some.inj h)
              subst h3
              subst h4
              obtain ⟨raw2, hb2, hne2, hlast2, hext2⟩ :=
                parseStringBody_ext b2 s2 rem2 hrec
              refine ⟨'\\' :: e :: raw2, by rw [hb2]; rfl, by simp, ?_, ?_⟩
              · rw [getLast?_cons_ne_nil _ _ (by simp), getLast?_cons_ne_nil _ _ hne2]
                exact hlast2
              · intro t
                simp [parseStringBody, hesc, hext2 t]
      · by_cases hctl : c.toNat < 32
        · rw [show parseStringBody (c :: b) = none by
            simp [parseStringBody_cons, hq, he, hctl]] at h
          exact Option.noConfusion h
        · cases hrec : parseStringBody b with
          | none =>
            rw [show parseStringBody (c :: b) = none by
              simp [parseStringBody_cons, hq, he, hctl, hrec]] at h
            exact Option.noConfusion h
          | some pr =>
            obtain ⟨s2, rem2⟩ := pr
            rw [show parseStringBody (c :: b) = some (c :: s2, rem2) by
              simp [parseStringBody_cons, hq, he, hctl, hrec]] at h
            obtain ⟨h3, h4⟩ := prodEq (Option.some.inj h)
            subst h3
            subst h4
            obtain ⟨raw2, hb2, hne2, hlast2, hext2⟩ :=
              parseStringBody_ext b s2 rem2 hrec
            refine ⟨c :: raw2, by rw [hb2]; rfl, by simp, ?_, ?_⟩
            · rw [getLast?_cons_ne_nil _ _ hne2]
              exact hlast2
            · intro t
              simp [parseStringBody_cons, hq, he, hctl, hext2 t]

/-! ### Small character-class and list facts for the extension lemmas -/

theorem isWs_isPyWs (c : Char) (h : isWs c = true) : isPyWs c = true := by
  simp [isPyWs, h]

theorem isWs_not_numChar (c : Char) (h : isWs c = true) : isNumChar c = false := by
  simp only [isWs, Bool.or_eq_true, decide_eq_true_eq] at h
  rcases h with ((h1 | h1) | h1) | h1 <;> (subst h1; decide)

theorem numStart_facts (c : Char) (h : (c.isDigit || decide (c = '-')) = true) :
    c ≠ '"' ∧ c ≠ '\x7b' ∧ c ≠ '[' ∧ c ≠ 't' ∧ c ≠ 'f' ∧ c ≠ 'n'
      ∧ isWs c = false ∧ isNumChar c = true ∧ valueStart c = true := by
  simp only [Bool.or_eq_true, decide_eq_true_eq] at h
  rcases h with h | h
  · refine ⟨?_, ?_, ?_, ?_, ?_, ?_, (isDigit_ne c h).2.2.2, ?_, ?_⟩
    · intro hc; subst hc; exact absurd h (by decide)
    · intro hc; subst hc; exact absurd h (by decide)
    · intro hc; subst hc; exact absurd h (by decide)
    · intro hc; subst hc; exact absurd h (by decide)
    · intro hc; subst hc; exact absurd h (by decide)
    · intro hc; subst hc; exact absurd h (by decide)
    · simp [isNumChar, h]
    · simp [valueStart, h]
  · subst h
    exact ⟨by decide, by decide, by decide, by decide, by decide, by decide,
      by decide, by decide, by decide⟩

theorem getLast?_append_right (a b : List Char) (h : b ≠ []) :
    (a ++ b).getLast? = b.getLast? := by
  induction a with
  | nil => rfl
  | cons c a ih =>
    rw [List.cons_append,
      getLast?_cons_ne_nil c (a ++ b) (fun hc => h (List.append_eq_nil.mp hc).2), ih]

theorem dropWhile_ws_concat (W : List Char) (hW : ∀ c ∈ W, isWs c = true)
    (c : Char) (hc : isWs c = false) (r : List Char) :
    (W ++ c :: r).dropWhile isWs = c :: r := by
  rw [dropWhile_append_all W _ hW, List.dropWhile_cons, if_neg (by simp [hc])]

theorem bndOk_head_not_num (j : JVal) (t : List Char)
    (h : ∀ c, t.head? = some c → isNumChar c = false) : BndOk j t := by
  cases j with
  | num tok => exact h
  | null => trivial
  | bool b => trivial
  | str s => trivial
  | arr es => trivial
  | obj fs => trivial

theorem head_ws_cons_not_num (W : List Char) (c : Char) (r : List Char)
    (hW : ∀ x ∈ W, isWs x = true) (hc : isNumChar c = false) :
    ∀ c0, (W ++ c :: r).head? = some c0 → isNumChar c0 = false := by
  intro c0 h0
  cases W with
  | nil =>
    rw [List.nil_append, List.head?_cons] at h0
    rw [← Option.some.inj h0]
    exact hc
  | cons w W2 =>
    rw [List.cons_append, List.head?_cons] at h0
    rw [← Option.some.inj h0]
    exact isWs_not_numChar w (hW w (by simp))

/-! ### Builders for the extension predicates -/

theorem valExt_str (W raw str : List Char)
    (hW : ∀ c ∈ W, isWs c = true)
    (hne : raw ≠ []) (hlast : raw.getLast? = some '"')
    (hext : ∀ t, parseStringBody (raw ++ t) = some (str, t)) :
    ValExt (W ++ '"' :: raw) (JVal.str str) := by
  refine ⟨by simp, ⟨'"', raw, ?_, by decide⟩, ⟨'"', ?_, by decide, by decide⟩, ?_, ?_⟩
  · exact dropWhile_ws_concat W hW '"' (by decide) raw
  · rw [getLast?_append_right W ('"' :: raw) (by simp),
      getLast?_cons_ne_nil '"' raw hne]
    exact hlast
  · simp only [szJ, List.length_append, List.length_cons]
    omega
  · intro f t hf _
    have hf1 : 1 ≤ f := le_trans (by simp [szJ]) hf
    obtain ⟨f2, rfl⟩ : ∃ f2, f = f2 + 1 := ⟨f - 1, by omega⟩
    rw [parseStep]
    simp only [List.append_assoc, List.cons_append]
    rw [dropWhile_ws_concat W hW '"' (by decide) (raw ++ t)]
    simp [hext t]

theorem valExt_true (W : List Char) (hW : ∀ c ∈ W, isWs c = true) :
    ValExt (W ++ 't' :: ['r', 'u', 'e']) (JVal.bool true) := by
  refine ⟨by simp, ⟨'t', ['r', 'u', 'e'],
      dropWhile_ws_concat W hW 't' (by decide) _, by decide⟩,
    ⟨'e', ?_, by decide, by decide⟩, ?_, ?_⟩
  · rw [getLast?_append_right W _ (by simp)]
    rfl
  · simp only [szJ, List.length_append, List.length_cons]
    omega
  · intro f t hf _
    have hf1 : 1 ≤ f := le_trans (by simp [szJ]) hf
    obtain ⟨f2, rfl⟩ : ∃ f2, f = f2 + 1 := ⟨f - 1, by omega⟩
    rw [parseStep]
    simp only [List.append_assoc, List.cons_append, List.nil_append]
    rw [dropWhile_ws_concat W hW 't' (by decide)]
    simp [expectToken]

theorem valExt_false (W : List Char) (hW : ∀ c ∈ W, isWs c = true) :
    ValExt (W ++ 'f' :: ['a', 'l', 's', 'e']) (JVal.bool false) := by
  refine ⟨by simp, ⟨'f', ['a', 'l', 's', 'e'],
      dropWhile_ws_concat W hW 'f' (by decide) _, by decide⟩,
    ⟨'e', ?_, by decide, by decide⟩, ?_, ?_⟩
  · rw [getLast?_append_right W _ (by simp)]
    rfl
  · simp only [szJ, List.length_append, List.length_cons]
    omega
  · intro f t hf _
    have hf1 : 1 ≤ f := le_trans (by simp [szJ]) hf
    obtain ⟨f2, rfl⟩ : ∃ f2, f = f2 + 1 := ⟨f - 1, by omega⟩
    rw [parseStep]
    simp only [List.append_assoc, List.cons_append, List.nil_append]
    rw [dropWhile_ws_concat W hW 'f' (by decide)]
    simp [expectToken]

theorem valExt_null (W : List Char) (hW : ∀ c ∈ W, isWs c = true) :
    ValExt (W ++ 'n' :: ['u', 'l', 'l']) JVal.null := by
  refine ⟨by simp, ⟨'n', ['u', 'l', 'l'],
      dropWhile_ws_concat W hW 'n' (by decide) _, by decide⟩,
    ⟨'l', ?_, by decide, by decide⟩, ?_, ?_⟩
  · rw [getLast?_append_right W _ (by simp)]
    rfl
  · simp only [szJ, List.length_append, List.length_cons]
    omega
  · intro f t hf _
    have hf1 : 1 ≤ f := le_trans (by simp [szJ]) hf
    obtain ⟨f2, rfl⟩ : ∃ f2, f = f2 + 1 := ⟨f - 1, by omega⟩
    rw [parseStep]
    simp only [List.append_assoc, List.cons_append, List.nil_append]
    rw [dropWhile_ws_concat W hW 'n' (by decide)]
    simp [expectToken]

theorem valExt_num (W : List Char) (c0 : Char) (tok2 : List Char)
    (hW : ∀ c ∈ W, isWs c = true)
    (hstart : (c0.isDigit || decide (c0 = '-')) = true)
    (hall : ∀ c ∈ c0 :: tok2, isNumChar c = true) :
    ValExt (W ++ c0 :: tok2) (JVal.num (c0 :: tok2)) := by
  obtain ⟨hq, hb, ha, ht, hfa, hn, hws, hnum, hvs⟩ := numStart_facts c0 hstart
  have hne : (c0 :: tok2 : List Char) ≠ [] := by simp
  have hlastmem : (c0 :: tok2).getLast hne ∈ c0 :: tok2 := List.getLast_mem hne
  refine ⟨by simp, ⟨c0, tok2, dropWhile_ws_concat W hW c0 hws tok2, hvs⟩,
    ⟨(c0 :: tok2).getLast hne, ?_, ?_, ?_⟩, ?_, ?_⟩
  · rw [getLast?_append_right W _ hne]
    exact List.getLast?_eq_getLast _ hne
  · exact isNumChar_not_ws _ (hall _ hlastmem)
  · exact isNumChar_not_comma _ (hall _ hlastmem)
  · simp only [szJ, List.length_append, List.length_cons]
    omega
  · intro f t hf hbnd
    have hf1 : 1 ≤ f := le_trans (by simp [szJ]) hf
    obtain ⟨f2, rfl⟩ : ∃ f2, f = f2 + 1 := ⟨f - 1, by omega⟩
    have hbnd2 : ∀ c, t.head? = some c → isNumChar c = false := hbnd
    obtain ⟨htk, hdr⟩ := takeWhile_append_stop (p := isNumChar) (c0 :: tok2) t hall hbnd2
    rw [parseStep]
    simp only [List.append_assoc, List.cons_append]
    rw [dropWhile_ws_concat W hW c0 hws]
    simp only [if_neg hq, if_neg hb, if_neg ha, if_neg ht, if_neg hfa, if_neg hn,
      if_pos hstart]
    rw [show (c0 :: (tok2 ++ t)) = (c0 :: tok2) ++ t from rfl, htk, hdr]

theorem valExt_emptyObj (W W2 : List Char)
    (hW : ∀ c ∈ W, isWs c = true) (hW2 : ∀ c ∈ W2, isWs c = true) :
    ValExt (W ++ '\x7b' :: (W2 ++ ['\x7d'])) (JVal.obj []) := by
  refine ⟨by simp, ⟨'\x7b', W2 ++ ['\x7d'],
      dropWhile_ws_concat W hW '\x7b' (by decide) _, by decide⟩,
    ⟨'\x7d', ?_, by decide, by decide⟩, ?_, ?_⟩
  · rw [getLast?_append_right W _ (by simp),
      getLast?_cons_ne_nil _ _ (by simp),
      getLast?_append_right W2 _ (by simp)]
    rfl
  · simp only [szJ, szF, List.length_append, List.length_cons]
    omega
  · intro f t hf _
    have hf1 : 1 ≤ f := le_trans (by simp [szJ, szF]) hf
    obtain ⟨f2, rfl⟩ : ∃ f2, f = f2 + 1 := ⟨f - 1, by omega⟩
    rw [parseStep]
    simp only [List.append_assoc, List.cons_append, List.nil_append]
    rw [dropWhile_ws_concat W hW '\x7b' (by decide)]
    simp [dropWhile_ws_concat W2 hW2 '\x7d' (by decide)]

theorem valExt_emptyArr (W W2 : List Char)
    (hW : ∀ c ∈ W, isWs c = true) (hW2 : ∀ c ∈ W2, isWs c = true) :
    ValExt (W ++ '[' :: (W2 ++ [']'])) (JVal.arr []) := by
  refine ⟨by simp, ⟨'[', W2 ++ [']'],
      dropWhile_ws_concat W hW '[' (by decide) _, by decide⟩,
    ⟨']', ?_, by decide, by decide⟩, ?_, ?_⟩
  · rw [getLast?_append_right W _ (by simp),
      getLast?_cons_ne_nil _ _ (by simp),
      getLast?_append_right W2 _ (by simp)]
    rfl
  · simp only [szJ, szL, List.length_append, List.length_cons]
    omega
  · intro f t hf _
    have hf1 : 1 ≤ f := le_trans (by simp [szJ, szL]) hf
    obtain ⟨f2, rfl⟩ : ∃ f2, f = f2 + 1 := ⟨f - 1, by omega⟩
    rw [parseStep]
    simp only [List.append_assoc, List.cons_append, List.nil_append]
    rw [dropWhile_ws_concat W hW '[' (by decide)]
    simp [dropWhile_ws_concat W2 hW2 ']' (by decide)]

theorem valExt_obj (W pre2 : List Char) (fs : List (List Char × JVal))
    (hW : ∀ c ∈ W, isWs c = true) (hF : FieldsExt pre2 fs) :
    ValExt (W ++ '\x7b' :: pre2) (JVal.obj fs) := by
  obtain ⟨hfs, ⟨x, hdw⟩, hlast, hsz, hrun⟩ := hF
  have hpne : pre2 ≠ [] := by
    intro hc
    rw [hc] at hdw
    exact List.noConfusion hdw
  refine ⟨by simp, ⟨'\x7b', pre2,
      dropWhile_ws_concat W hW '\x7b' (by decide) _, by decide⟩,
    ⟨'\x7d', ?_, by decide, by decide⟩, ?_, ?_⟩
  · rw [getLast?_append_right W _ (by simp), getLast?_cons_ne_nil _ _ hpne]
    exact hlast
  · simp only [szJ, List.length_append, List.length_cons]
    omega
  · intro f t hf _
    have hf1 : 1 + szF fs ≤ f := le_trans (le_of_eq (by simp [szJ])) hf
    obtain ⟨f2, rfl⟩ : ∃ f2, f = f2 + 1 := ⟨f - 1, by omega⟩
    have hf2 : szF fs ≤ f2 := by omega
    have hdw2 : (pre2 ++ t).dropWhile isWs = '"' :: (x ++ t) :=
      dropWhile_append_of_ne_nil pre2 t '"' x hdw
    rw [parseStep]
    simp only [List.append_assoc, List.cons_append]
    rw [dropWhile_ws_concat W hW '\x7b' (by decide)]
    simp [hdw2, hrun f2 t hf2]

theorem valExt_arr (W pre2 : List Char) (es : List JVal)
    (hW : ∀ c ∈ W, isWs c = true) (hE : ElemsExt pre2 es) :
    ValExt (W ++ '[' :: pre2) (JVal.arr es) := by
  obtain ⟨hes, ⟨c0, x, hdw, hvs⟩, hlast, hsz, hrun⟩ := hE
  have hpne : pre2 ≠ [] := by
    intro hc
    rw [hc] at hdw
    exact List.noConfusion hdw
  obtain ⟨hnb, hnc, -, -⟩ := valueStart_facts c0 hvs
  refine ⟨by simp, ⟨'[', pre2,
      dropWhile_ws_concat W hW '[' (by decide) _, by decide⟩,
    ⟨']', ?_, by decide, by decide⟩, ?_, ?_⟩
  · rw [getLast?_append_right W _ (by simp), getLast?_cons_ne_nil _ _ hpne]
    exact hlast
  · simp only [szJ, List.length_append, List.length_cons]
    omega
  · intro f t hf _
    have hf1 : 1 + szL es ≤ f := le_trans (le_of_eq (by simp [szJ])) hf
    obtain ⟨f2, rfl⟩ : ∃ f2, f = f2 + 1 := ⟨f - 1, by omega⟩
    have hf2 : szL es ≤ f2 := by omega
    have hdw2 : (pre2 ++ t).dropWhile isWs = c0 :: (x ++ t) :=
      dropWhile_append_of_ne_nil pre2 t c0 x hdw
    rw [parseStep]
    simp only [List.append_assoc, List.cons_append]
    rw [dropWhile_ws_concat W hW '[' (by decide)]
    simp [hdw2, hrun f2 t hf2, hnb]

theorem elemsExt_last (pre1 W2 : List Char) (j : JVal)
    (hV : ValExt pre1 j) (hW2 : ∀ c ∈ W2, isWs c = true) :
    ElemsExt (pre1 ++ W2 ++ [']']) [j] := by
  obtain ⟨hne1, ⟨c0, x, hdw, hvs⟩, -, hsz, hrun⟩ := hV
  refine ⟨by simp, ⟨c0, x ++ (W2 ++ [']']), ?_, hvs⟩, ?_, ?_, ?_⟩
  · rw [List.append_assoc]
    exact dropWhile_append_of_ne_nil pre1 (W2 ++ [']']) c0 x hdw
  · rw [getLast?_append_right _ _ (by simp)]
    rfl
  · simp only [szL, List.length_append, List.length_cons]
    omega
  · intro f t hf
    have hf1 : szJ j + 1 + 0 ≤ f := le_trans (le_of_eq (by simp [szL])) hf
    obtain ⟨f2, rfl⟩ : ∃ f2, f = f2 + 1 := ⟨f - 1, by omega⟩
    have hv := hrun f2 (W2 ++ ']' :: t) (by omega)
      (bndOk_head_not_num j _ (head_ws_cons_not_num W2 ']' t hW2 (by decide)))
    rw [parseStep]
    simp only [List.append_assoc, List.cons_append, List.nil_append]
    rw [hv]
    simp [dropWhile_ws_concat W2 hW2 ']' (by decide)]

theorem elemsExt_cons (pre1 W2 pre2 : List Char) (j : JVal) (js : List JVal)
    (hV : ValExt pre1 j) (hW2 : ∀ c ∈ W2, isWs c = true)
    (hE : ElemsExt pre2 js) :
    ElemsExt (pre1 ++ W2 ++ ',' :: pre2) (j :: js) := by
  obtain ⟨hne1, ⟨c0, x, hdw, hvs⟩, -, hsz, hrun⟩ := hV
  obtain ⟨hjs, -, hlast2, hsz2, hrun2⟩ := hE
  have hpne : pre2 ≠ [] := by
    intro hc
    rw [hc] at hlast2
    exact Option.noConfusion hlast2
  refine ⟨by simp, ⟨c0, x ++ (W2 ++ ',' :: pre2), ?_, hvs⟩, ?_, ?_, ?_⟩
  · rw [List.append_assoc]
    exact dropWhile_append_of_ne_nil pre1 (W2 ++ ',' :: pre2) c0 x hdw
  · rw [getLast?_append_right _ _ (by simp), getLast?_cons_ne_nil _ _ hpne]
    exact hlast2
  · simp only [szL, List.length_append, List.length_cons]
    omega
  · intro f t hf
    have hf1 : szJ j + 1 + szL js ≤ f := le_trans (le_of_eq (by simp [szL])) hf
    obtain ⟨f2, rfl⟩ : ∃ f2, f = f2 + 1 := ⟨f - 1, by omega⟩
    have hjpos := szJ_pos j
    have hv := hrun f2 (W2 ++ ',' :: (pre2 ++ t)) (by omega)
      (bndOk_head_not_num j _ (head_ws_cons_not_num W2 ',' (pre2 ++ t) hW2 (by decide)))
    have he := hrun2 f2 t (by omega)
    rw [parseStep]
    simp only [List.append_assoc, List.cons_append, List.nil_append]
    rw [hv]
    simp [dropWhile_ws_concat W2 hW2 ',' (by decide), he]

theorem fieldsExt_last (W raw W1 prev W2 key : List Char) (v : JVal)
    (hW : ∀ c ∈ W, isWs c = true)
    (hrne : raw ≠ []) (hrlast : raw.getLast? = some '"')
    (hrext : ∀ t, parseStringBody (raw ++ t) = some (key, t))
    (hW1 : ∀ c ∈ W1, isWs c = true)
    (hV : ValExt prev v)
    (hW2 : ∀ c ∈ W2, isWs c = true) :
    FieldsExt (W ++ '"' :: (raw ++ W1 ++ ':' :: (prev ++ W2 ++ ['\x7d'])))
      [(key, v)] := by
  obtain ⟨hpne, -, -, hsz, hrun⟩ := hV
  refine ⟨by simp, ⟨raw ++ W1 ++ ':' :: (prev ++ W2 ++ ['\x7d']),
      dropWhile_ws_concat W hW '"' (by decide) _⟩, ?_, ?_, ?_⟩
  · rw [getLast?_append_right _ _ (by simp), getLast?_cons_ne_nil _ _ (by simp),
      getLast?_append_right _ _ (by simp), getLast?_cons_ne_nil _ _ (by simp),
      getLast?_append_right _ _ (by simp)]
    rfl
  · simp only [szF, List.length_append, List.length_cons]
    omega
  · intro f t hf
    have hf1 : szJ v + 1 + 0 ≤ f := le_trans (le_of_eq (by simp [szF])) hf
    obtain ⟨f2, rfl⟩ : ∃ f2, f = f2 + 1 := ⟨f - 1, by omega⟩
    have hv := hrun f2 (W2 ++ '\x7d' :: t) (by omega)
      (bndOk_head_not_num v _ (head_ws_cons_not_num W2 '\x7d' t hW2 (by decide)))
    rw [parseStep]
    simp only [List.append_assoc, List.cons_append, List.nil_append]
    rw [dropWhile_ws_concat W hW '"' (by decide)]
    simp only [hrext]
    rw [dropWhile_ws_concat W1 hW1 ':' (by decide)]
    simp only [List.append_assoc] at hv
    simp [hv, dropWhile_ws_concat W2 hW2 '\x7d' (by decide)]

theorem fieldsExt_cons (W raw W1 prev W2 pre2 key : List Char) (v : JVal)
    (fs2 : List (List Char × JVal))
    (hW : ∀ c ∈ W, isWs c = true)
    (hrne : raw ≠ []) (hrlast : raw.getLast? = some '"')
    (hrext : ∀ t, parseStringBody (raw ++ t) = some (key, t))
    (hW1 : ∀ c ∈ W1, isWs c = true)
    (hV : ValExt prev v)
    (hW2 : ∀ c ∈ W2, isWs c = true)
    (hF : FieldsExt pre2 fs2) :
    FieldsExt (W ++ '"' :: (raw ++ W1 ++ ':' :: (prev ++ W2 ++ ',' :: pre2)))
      ((key, v) :: fs2) := by
  obtain ⟨hpne, -, -, hsz, hrun⟩ := hV
  obtain ⟨hfs2, -, hlast2, hsz2, hrun2⟩ := hF
  have hp2ne : pre2 ≠ [] := by
    intro hc
    rw [hc] at hlast2
    exact Option.noConfusion hlast2
  refine ⟨by simp, ⟨raw ++ W1 ++ ':' :: (prev ++ W2 ++ ',' :: pre2),
      dropWhile_ws_concat W hW '"' (by decide) _⟩, ?_, ?_, ?_⟩
  · rw [getLast?_append_right _ _ (by simp), getLast?_cons_ne_nil _ _ (by simp),
      getLast?_append_right _ _ (by simp), getLast?_cons_ne_nil _ _ (by simp),
      getLast?_append_right _ _ (by simp), getLast?_cons_ne_nil _ _ hp2ne]
    exact hlast2
  · simp only [szF, List.length_append, List.length_cons]
    omega
  · intro f t hf
    have hf1 : szJ v + 1 + szF fs2 ≤ f := le_trans (le_of_eq (by simp [szF])) hf
    obtain ⟨f2, rfl⟩ : ∃ f2, f = f2 + 1 := ⟨f - 1, by omega⟩
    have hjpos := szJ_pos v
    have hv := hrun f2 (W2 ++ ',' :: (pre2 ++ t)) (by omega)
      (bndOk_head_not_num v _ (head_ws_cons_not_num W2 ',' (pre2 ++ t) hW2 (by decide)))
    have hfields := hrun2 f2 t (by omega)
    rw [parseStep]
    simp only [List.append_assoc, List.cons_append, List.nil_append]
    rw [dropWhile_ws_concat W hW '"' (by decide)]
    simp only [hrext]
    rw [dropWhile_ws_concat W1 hW1 ':' (by decide)]
    simp only [List.append_assoc] at hv
    simp [hv, dropWhile_ws_concat W2 hW2 ',' (by decide), hfields]

theorem poutValueEq {j1 j2 : JVal} {r1 r2 : List Char}
    (h : (some (POut.value j1, r1) : Option (POut × List Char))
      = some (POut.value j2, r2)) : j1 = j2 ∧ r1 = r2 := by
  obtain ⟨h1, h2⟩ := prodEq (Option.some.inj h)
  exact ⟨POut.value.inj h1, h2⟩

theorem poutElemsEq {e1 e2 : List JVal} {r1 r2 : List Char}
    (h : (some (POut.elems e1, r1) : Option (POut × List Char))
      = some (POut.elems e2, r2)) : e1 = e2 ∧ r1 = r2 := by
  obtain ⟨h1, h2⟩ := prodEq (Option.some.inj h)
  exact ⟨POut.elems.inj h1, h2⟩

theorem poutFieldsEq {f1 f2 : List (List Char × JVal)} {r1 r2 : List Char}
    (h : (some (POut.fields f1, r1) : Option (POut × List Char))
      = some (POut.fields f2, r2)) : f1 = f2 ∧ r1 = r2 := by
  obtain ⟨h1, h2⟩ := prodEq (Option.some.inj h)
  exact ⟨POut.fields.inj h1, h2⟩

theorem ws_split (s : List Char) (c : Char) (rest : List Char)
    (h : s.dropWhile isWs = c :: rest) :
    s = s.takeWhile isWs ++ c :: rest
      ∧ ∀ c2 ∈ s.takeWhile isWs, isWs c2 = true := by
  constructor
  · conv_lhs => rw [← List.takeWhile_append_dropWhile isWs s]
    rw [h]
  · exact fun c2 hc2 => mem_takeWhile_sat _ c2 hc2

theorem parseStep_ext : ∀ (f : Nat),
    (∀ s j rem, parseStep f PReq.value s = some (POut.value j, rem) →
        ∃ pre, s = pre ++ rem ∧ ValExt pre j)
    ∧ (∀ s es rem, parseStep f PReq.elems s = some (POut.elems es, rem) →
        ∃ pre, s = pre ++ rem ∧ ElemsExt pre es)
    ∧ (∀ s fs rem, parseStep f PReq.fields s = some (POut.fields fs, rem) →
        ∃ pre, s = pre ++ rem ∧ FieldsExt pre fs)
  | 0 =>
    ⟨fun _ _ _ h => absurd h (by simp [parseStep]),
     fun _ _ _ h => absurd h (by simp [parseStep]),
     fun _ _ _ h => absurd h (by simp [parseStep])⟩
  | f + 1 => by
    obtain ⟨IHv, IHe, IHfl⟩ := parseStep_ext f
    refine ⟨?_, ?_, ?_⟩
    · intro s j rem h
      rw [parseStep] at h
      cases hd : s.dropWhile isWs with
      | nil => simp [hd] at h
      | cons c rest =>
        obtain ⟨hsdec, hWs⟩ := ws_split s c rest hd
        simp only [hd] at h
        by_cases hq : c = '"'
        · subst hq
          rw [if_pos rfl] at h
          cases hsb : parseStringBody rest with
          | none => simp [hsb] at h
          | some pr =>
            obtain ⟨str, rem2⟩ := pr
            simp only [hsb] at h
            obtain ⟨hj, hr⟩ := poutValueEq h
            subst hj
            subst hr
            obtain ⟨raw, hrest, hrne, hrlast, hrext⟩ :=
              parseStringBody_ext rest str rem2 hsb
            refine ⟨s.takeWhile isWs ++ '"' :: raw, ?_,
              valExt_str _ raw str hWs hrne hrlast hrext⟩
            conv_lhs => rw [hsdec, hrest]
            simp [List.append_assoc]
        · rw [if_neg hq] at h
          by_cases hob : c = '\x7b'
          · subst hob
            rw [if_pos rfl] at h
            split at h
            · next rem2 hd2 =>
              obtain ⟨hj, hr⟩ := poutValueEq h
              subst hj
              subst hr
              obtain ⟨hrdec, hW2⟩ := ws_split rest '\x7d' rem2 hd2
              refine ⟨s.takeWhile isWs ++ '\x7b' :: (rest.takeWhile isWs ++ ['\x7d']), ?_,
                valExt_emptyObj _ _ hWs hW2⟩
              conv_lhs => rw [hsdec, hrdec]
              simp [List.append_assoc]
            · cases hfp : parseStep f PReq.fields rest with
              | none => simp [hfp] at h
              | some pr2 =>
                obtain ⟨po, rem2⟩ := pr2
                cases po with
                | fields fs2 =>
                  simp only [hfp] at h
                  obtain ⟨hj, hr⟩ := poutValueEq h
                  subst hj
                  subst hr
                  obtain ⟨pre2, hrdec, hF⟩ := IHfl rest fs2 rem2 hfp
                  refine ⟨s.takeWhile isWs ++ '\x7b' :: pre2, ?_,
                    valExt_obj _ pre2 fs2 hWs hF⟩
                  conv_lhs => rw [hsdec, hrdec]
                  simp [List.append_assoc]
                | value j2 => simp [hfp] at h
                | elems es2 => simp [hfp] at h
          · rw [if_neg hob] at h
            by_cases har : c = '['
            · subst har
              rw [if_pos rfl] at h
              split at h
              · next rem2 hd2 =>
                obtain ⟨hj, hr⟩ := poutValueEq h
                subst hj
                subst hr
                obtain ⟨hrdec, hW2⟩ := ws_split rest ']' rem2 hd2
                refine ⟨s.takeWhile isWs ++ '[' :: (rest.takeWhile isWs ++ [']']), ?_,
                  valExt_emptyArr _ _ hWs hW2⟩
                conv_lhs => rw [hsdec, hrdec]
                simp [List.append_assoc]
              · cases hep : parseStep f PReq.elems rest with
                | none => simp [hep] at h
                | some pr2 =>
                  obtain ⟨po, rem2⟩ := pr2
                  cases po with
                  | elems es2 =>
                    simp only [hep] at h
                    obtain ⟨hj, hr⟩ := poutValueEq h
                    subst hj
                    subst hr
                    obtain ⟨pre2, hrdec, hE⟩ := IHe rest es2 rem2 hep
                    refine ⟨s.takeWhile isWs ++ '[' :: pre2, ?_,
                      valExt_arr _ pre2 es2 hWs hE⟩
                    conv_lhs => rw [hsdec, hrdec]
                    simp [List.append_assoc]
                  | value j2 => simp [hep] at h
                  | fields fs2 => simp [hep] at h
            · rw [if_neg har] at h
              by_cases hT : c = 't'
              · subst hT
                rw [if_pos rfl] at h
                cases het : expectToken ['r', 'u', 'e'] rest with
                | none => simp [het] at h
                | some rem2 =>
                  simp only [het] at h
                  obtain ⟨hj, hr⟩ := poutValueEq h
                  subst hj
                  subst hr
                  have hrdec := expectToken_decomp ['r', 'u', 'e'] rest rem2 het
                  refine ⟨s.takeWhile isWs ++ 't' :: ['r', 'u', 'e'], ?_,
                    valExt_true _ hWs⟩
                  conv_lhs => rw [hsdec, hrdec]
                  simp [List.append_assoc]
              · rw [if_neg hT] at h
                by_cases hFa : c = 'f'
                · subst hFa
                  rw [if_pos rfl] at h
                  cases het : expectToken ['a', 'l', 's', 'e'] rest with
                  | none => simp [het] at h
                  | some rem2 =>
                    simp only [het] at h
                    obtain ⟨hj, hr⟩ := poutValueEq h
                    subst hj
                    subst hr
                    have hrdec := expectToken_decomp ['a', 'l', 's', 'e'] rest rem2 het
                    refine ⟨s.takeWhile isWs ++ 'f' :: ['a', 'l', 's', 'e'], ?_,
                      valExt_false _ hWs⟩
                    conv_lhs => rw [hsdec, hrdec]
                    simp [List.append_assoc]
                · rw [if_neg hFa] at h
                  by_cases hN : c = 'n'
                  · subst hN
                    rw [if_pos rfl] at h
                    cases het : expectToken ['u', 'l', 'l'] rest with
                    | none => simp [het] at h
                    | some rem2 =>
                      simp only [het] at h
                      obtain ⟨hj, hr⟩ := poutValueEq h
                      subst hj
                      subst hr
                      have hrdec := expectToken_decomp ['u', 'l', 'l'] rest rem2 het
                      refine ⟨s.takeWhile isWs ++ 'n' :: ['u', 'l', 'l'], ?_,
                        valExt_null _ hWs⟩
                      conv_lhs => rw [hsdec, hrdec]
                      simp [List.append_assoc]
                  · rw [if_neg hN] at h
                    by_cases hnum : (c.isDigit || decide (c = '-')) = true
                    · rw [if_pos hnum] at h
                      obtain ⟨hj, hr⟩ := poutValueEq h
                      subst hj
                      subst hr
                      have hnc : isNumChar c = true :=
                        (numStart_facts c hnum).2.2.2.2.2.2.2.1
                      have htw : (c :: rest).takeWhile isNumChar
                          = c :: rest.takeWhile isNumChar := by
                        rw [List.takeWhile_cons, if_pos hnc]
                      have hdw2 : (c :: rest).dropWhile isNumChar
                          = rest.dropWhile isNumChar := by
                        rw [List.dropWhile_cons, if_pos hnc]
                      have hall : ∀ x ∈ c :: rest.takeWhile isNumChar,
                          isNumChar x = true := by
                        intro x hx
                        rcases List.mem_cons.mp hx with rfl | hx2
                        · exact hnc
                        · exact mem_takeWhile_sat _ x hx2
                      refine ⟨s.takeWhile isWs ++ (c :: rest.takeWhile isNumChar),
                        ?_, ?_⟩
                      · rw [hdw2]
                        conv_lhs =>
                          rw [hsdec,
                            ← List.takeWhile_append_dropWhile isNumChar rest]
                        simp [List.append_assoc]
                      · rw [htw]
                        exact valExt_num (s.takeWhile isWs) c
                          (rest.takeWhile isNumChar) hWs hnum hall
                    · rw [if_neg hnum] at h
                      exact absurd h (by simp)
    · intro s es rem h
      rw [parseStep] at h
      cases hv : parseStep f PReq.value s with
      | none => simp [hv] at h
      | some pr =>
        obtain ⟨po, rem1⟩ := pr
        cases po with
        | value j =>
          simp only [hv] at h
          obtain ⟨pre1, hs1, hV1⟩ := IHv s j rem1 hv
          split at h
          · next rest hd2 =>
            cases hep : parseStep f PReq.elems rest with
            | none => simp [hep] at h
            | some pr2 =>
              obtain ⟨po2, rem2⟩ := pr2
              cases po2 with
              | elems js =>
                simp only [hep] at h
                obtain ⟨hj, hr⟩ := poutElemsEq h
                subst hj
                subst hr
                obtain ⟨hr1dec, hW2⟩ := ws_split rem1 ',' rest hd2
                obtain ⟨pre2, hrdec, hE2⟩ := IHe rest js rem2 hep
                refine ⟨pre1 ++ rem1.takeWhile isWs ++ ',' :: pre2, ?_,
                  elemsExt_cons pre1 _ pre2 j js hV1 hW2 hE2⟩
                conv_lhs => rw [hs1, hr1dec, hrdec]
                simp [List.append_assoc]
              | value j2 => simp [hep] at h
              | fields fs2 => simp [hep] at h
          · next rest hd2 =>
            obtain ⟨hj, hr⟩ := poutElemsEq h
            subst hj
            subst hr
            obtain ⟨hr1dec, hW2⟩ := ws_split rem1 ']' rest hd2
            refine ⟨pre1 ++ rem1.takeWhile isWs ++ [']'], ?_,
              elemsExt_last pre1 _ j hV1 hW2⟩
            conv_lhs => rw [hs1, hr1dec]
            simp [List.append_assoc]
          · simp at h
        | elems js => simp only [hv] at h; exact Option.noConfusion h
        | fields fs2 => simp only [hv] at h; exact Option.noConfusion h
    · intro s fs rem h
      rw [parseStep] at h
      split at h
      · next rest hd =>
        obtain ⟨hsdec, hWs⟩ := ws_split s '"' rest hd
        cases hsb : parseStringBody rest with
        | none => simp [hsb] at h
        | some pr =>
          obtain ⟨key, rem1⟩ := pr
          simp only [hsb] at h
          obtain ⟨raw, hrest, hrne, hrlast, hrext⟩ :=
            parseStringBody_ext rest key rem1 hsb
          split at h
          · next rest2 hd1 =>
            obtain ⟨hr1dec, hW1⟩ := ws_split rem1 ':' rest2 hd1
            cases hvp : parseStep f PReq.value rest2 with
            | none => simp [hvp] at h
            | some pr2 =>
              obtain ⟨po, rem2⟩ := pr2
              cases po with
              | value v =>
                simp only [hvp] at h
                obtain ⟨prev, hr2dec, hV⟩ := IHv rest2 v rem2 hvp
                split at h
                · next rest3 hd2 =>
                  cases hfp : parseStep f PReq.fields rest3 with
                  | none => simp [hfp] at h
                  | some pr3 =>
                    obtain ⟨po3, rem3⟩ := pr3
                    cases po3 with
                    | fields fs2 =>
                      simp only [hfp] at h
                      obtain ⟨hj, hr⟩ := poutFieldsEq h
                      subst hj
                      subst hr
                      obtain ⟨hr3dec, hW2⟩ := ws_split rem2 ',' rest3 hd2
                      obtain ⟨pre2, hr4dec, hF2⟩ := IHfl rest3 fs2 rem3 hfp
                      refine ⟨s.takeWhile isWs ++ '"' ::
                        (raw ++ rem1.takeWhile isWs ++ ':' ::
                          (prev ++ rem2.takeWhile isWs ++ ',' :: pre2)), ?_,
                        fieldsExt_cons _ raw _ prev _ pre2 key v fs2 hWs hrne
                          hrlast hrext hW1 hV hW2 hF2⟩
                      conv_lhs => rw [hsdec, hrest, hr1dec, hr2dec, hr3dec, hr4dec]
                      simp [List.append_assoc]
                    | value j2 => simp [hfp] at h
                    | elems es2 => simp [hfp] at h
                · next rest3 hd2 =>
                  obtain ⟨hj, hr⟩ := poutFieldsEq h
                  subst hj
                  subst hr
                  obtain ⟨hr3dec, hW2⟩ := ws_split rem2 '\x7d' rest3 hd2
                  refine ⟨s.takeWhile isWs ++ '"' ::
                    (raw ++ rem1.takeWhile isWs ++ ':' ::
                      (prev ++ rem2.takeWhile isWs ++ ['\x7d'])), ?_,
                    fieldsExt_last _ raw _ prev _ key v hWs hrne
                      hrlast hrext hW1 hV hW2⟩
                  conv_lhs => rw [hsdec, hrest, hr1dec, hr2dec, hr3dec]
                  simp [List.append_assoc]
                · simp at h
              | elems es2 => simp only [hvp] at h; exact Option.noConfusion h
              | fields fs2 => simp only [hvp] at h; exact Option.noConfusion h
          · simp at h
      · simp at h

/-! ### From parse success to extension facts, and line re-assembly -/

theorem parseStringBody_safe :
    ∀ (s : List Char), strSafe s = true →
      ∀ t, parseStringBody (s ++ '"' :: t) = some (s, t)
  | [], _, t => by simp [parseStringBody_cons]
  | c :: s, hs, t => by
    have hs2 : (strOkChar c && s.all strOkChar) = true := by
      simpa [strSafe] using hs
    obtain ⟨hc, hrest⟩ := Bool.and_eq_true_iff.mp hs2
    simp only [strOkChar, Bool.and_eq_true, decide_eq_true_eq] at hc
    obtain ⟨⟨hq, he⟩, hctl⟩ := hc
    rw [List.cons_append, parseStringBody_cons, if_neg hq, if_neg he,
      if_neg (by omega), parseStringBody_safe s hrest t]

theorem parseTop_valExt (s : List Char) (j : JVal) (h : parseTop s = some j) :
    ∃ pre rem, s = pre ++ rem ∧ (∀ c ∈ rem, isWs c = true)
      ∧ ValExt pre j ∧ rstrip s = pre := by
  unfold parseTop parseValue at h
  cases hv : parseStep (szFuel s) PReq.value s with
  | none => rw [hv] at h; exact absurd h (by simp)
  | some pr =>
    obtain ⟨po, rem⟩ := pr
    cases po with
    | value j2 =>
      rw [hv] at h
      simp only at h
      by_cases hws : rem.all isWs
      · rw [if_pos hws] at h
        have hj : j2 = j := Option.some.inj h
        subst hj
        obtain ⟨pre, hdec, hV⟩ := (parseStep_ext (szFuel s)).1 s j2 rem hv
        refine ⟨pre, rem, hdec, fun c hc => List.all_eq_true.mp hws c hc, hV, ?_⟩
        obtain ⟨-, -, ⟨c0, hc1, hc2, -⟩, -, -⟩ := hV
        rw [hdec, rstrip_append_ws pre rem
          (fun c hc => isWs_isPyWs c (List.all_eq_true.mp hws c hc))]
        refine rstrip_eq_self pre ?_
        intro c hc
        rw [hc1] at hc
        rw [← Option.some.inj hc]
        exact hc2
      · rw [if_neg hws] at h
        exact absurd h (by simp)
    | elems es => rw [hv] at h; exact absurd h (by simp)
    | fields fs => rw [hv] at h; exact absurd h (by simp)

theorem splitLines_line_append :
    ∀ (u rest : List Char), '\n' ∉ u →
      splitLines (u ++ '\n' :: rest) = (u ++ ['\n']) :: splitLines rest
  | [], rest, _ => by
    rw [List.nil_append, splitLines_cons, if_pos rfl]
    rfl
  | c :: u, rest, hu => by
    have hc : c ≠ '\n' := fun hcc => hu (hcc ▸ List.mem_cons_self c u)
    have ih := splitLines_line_append u rest (fun hm => hu (List.mem_cons_of_mem c hm))
    rw [List.cons_append, splitLines_cons, if_neg hc, ih]
    rfl

theorem splitLines_flatten_of_lines :
    ∀ (ts : List (List Char)),
      (∀ t ∈ ts, t ≠ [] ∧ t.getLast? = some '\n' ∧ '\n' ∉ t.dropLast) →
      splitLines ts.flatten = ts
  | [], _ => rfl
  | t :: ts, h => by
    obtain ⟨hne, hlast, hinner⟩ := h t (List.mem_cons_self t ts)
    have ih := splitLines_flatten_of_lines ts
      (fun x hx => h x (List.mem_cons_of_mem t hx))
    have hdec : t = t.dropLast ++ ['\n'] := by
      conv_lhs => rw [← List.dropLast_append_getLast? '\n' hlast]
    rw [List.flatten_cons]
    conv_lhs => rw [hdec]
    rw [List.append_assoc, List.singleton_append,
      splitLines_line_append t.dropLast _ hinner, ih, ← hdec]

theorem interComma_mem :
    ∀ (recs : List (List Char)) (c : Char), c ∈ interComma recs →
      c = ',' ∨ ∃ r ∈ recs, c ∈ r
  | [], c, h => by simp [interComma] at h
  | [r], c, h => Or.inr ⟨r, by simp, by simpa [interComma] using h⟩
  | r :: r2 :: rs, c, h => by
    rw [show interComma (r :: r2 :: rs) = r ++ ',' :: interComma (r2 :: rs) from rfl]
      at h
    rcases List.mem_append.mp h with h2 | h2
    · exact Or.inr ⟨r, by simp, h2⟩
    · rcases List.mem_cons.mp h2 with h3 | h3
      · exact Or.inl h3
      · rcases interComma_mem (r2 :: rs) c h3 with h4 | ⟨r3, hr3, hc3⟩
        · exact Or.inl h4
        · exact Or.inr ⟨r3, List.mem_cons_of_mem r hr3, hc3⟩

theorem interComma_getLast? :
    ∀ (recs : List (List Char)), recs ≠ [] → (∀ r ∈ recs, r ≠ []) →
      ∃ r ∈ recs, (interComma recs).getLast? = r.getLast?
  | [], h, _ => absurd rfl h
  | [r], _, _ => ⟨r, by simp, rfl⟩
  | r :: r2 :: rs, _, hne => by
    obtain ⟨r3, hr3, hl3⟩ := interComma_getLast? (r2 :: rs) (by simp)
      (fun x hx => hne x (List.mem_cons_of_mem r hx))
    have hicne : interComma (r2 :: rs) ≠ [] := by
      intro hc
      rw [hc] at hl3
      exact hne r3 (List.mem_cons_of_mem r hr3) (by
        cases hx : r3 with
        | nil => rfl
        | cons a as =>
          rw [hx] at hl3
          rw [List.getLast?_nil] at hl3
          exact absurd hl3.symm (by simp))
    refine ⟨r3, List.mem_cons_of_mem r hr3, ?_⟩
    rw [show interComma (r :: r2 :: rs) = r ++ ',' :: interComma (r2 :: rs) from rfl,
      getLast?_append_right _ _ (by simp), getLast?_cons_ne_nil _ _ hicne, hl3]

theorem elemsExt_interComma :
    ∀ (recs : List (List Char)), recs ≠ [] →
      (∀ r ∈ recs, ∃ j, ValExt r j) →
      ∃ es, es.length = recs.length ∧ ElemsExt (interComma recs ++ [']']) es
  | [], h, _ => absurd rfl h
  | [r], _, hv => by
    obtain ⟨j, hj⟩ := hv r (by simp)
    refine ⟨[j], rfl, ?_⟩
    have := elemsExt_last r [] j hj (by simp)
    simpa [interComma] using this
  | r :: r2 :: rs, _, hv => by
    obtain ⟨j, hj⟩ := hv r (by simp)
    obtain ⟨es, hlen, hE⟩ := elemsExt_interComma (r2 :: rs) (by simp)
      (fun x hx => hv x (List.mem_cons_of_mem r hx))
    refine ⟨j :: es, by simp [hlen], ?_⟩
    have := elemsExt_cons r [] (interComma (r2 :: rs) ++ [']']) j es hj (by simp) hE
    rw [show interComma (r :: r2 :: rs) = r ++ ',' :: interComma (r2 :: rs) from rfl]
    simpa [List.append_assoc] using this

theorem groupLine_parses (fps : List Char) (recs : List (List Char))
    (hsafe : strSafe fps = true) (hne : recs ≠ [])
    (hv : ∀ r ∈ recs, ∃ j, ValExt r j) :
    ∃ es : List JVal, es.length = recs.length ∧
      parseTop (header fps ++ interComma recs ++ [']', '\x7d'])
        = some (JVal.obj [("fingerprint".toList, JVal.str fps),
            ("certificates".toList, JVal.arr es)]) := by
  obtain ⟨es, hlen, hE⟩ := elemsExt_interComma recs hne hv
  refine ⟨es, hlen, ?_⟩
  have hVfps : ValExt ([' '] ++ '"' :: (fps ++ ['"'])) (JVal.str fps) :=
    valExt_str [' '] (fps ++ ['"']) fps (by decide) (by simp)
      (by rw [getLast?_append_right _ _ (by simp)]; rfl)
      (fun t => by
        rw [List.append_assoc]
        exact parseStringBody_safe fps hsafe t)
  have hVarr : ValExt ([' '] ++ '[' :: (interComma recs ++ [']'])) (JVal.arr es) :=
    valExt_arr [' '] (interComma recs ++ [']']) es (by decide) hE
  have hext_cert : ∀ t, parseStringBody (("certificates".toList ++ ['"']) ++ t)
      = some ("certificates".toList, t) := fun t => by
    rw [List.append_assoc]
    exact parseStringBody_safe _ (by decide) t
  have hext_fp : ∀ t, parseStringBody (("fingerprint".toList ++ ['"']) ++ t)
      = some ("fingerprint".toList, t) := fun t => by
    rw [List.append_assoc]
    exact parseStringBody_safe _ (by decide) t
  have hF2 := fieldsExt_last [' '] ("certificates".toList ++ ['"']) []
    ([' '] ++ '[' :: (interComma recs ++ [']'])) [] "certificates".toList
    (JVal.arr es) (by decide) (by simp)
    (by rw [getLast?_append_right _ _ (by simp)]; rfl) hext_cert (by simp)
    hVarr (by simp)
  have hF := fieldsExt_cons [] ("fingerprint".toList ++ ['"']) []
    ([' '] ++ '"' :: (fps ++ ['"'])) []
    ([' '] ++ '"' :: (("certificates".toList ++ ['"']) ++ [] ++ ':' ::
      (([' '] ++ '[' :: (interComma recs ++ [']'])) ++ [] ++ ['\x7d'])))
    "fingerprint".toList (JVal.str fps) [("certificates".toList, JVal.arr es)]
    (by simp) (by simp)
    (by rw [getLast?_append_right _ _ (by simp)]; rfl) hext_fp (by simp)
    hVfps (by simp) hF2
  have hV := valExt_obj []
    ([] ++ '"' :: (("fingerprint".toList ++ ['"']) ++ [] ++ ':' ::
      (([' '] ++ '"' :: (fps ++ ['"'])) ++ [] ++ ',' ::
        ([' '] ++ '"' :: (("certificates".toList ++ ['"']) ++ [] ++ ':' ::
          (([' '] ++ '[' :: (interComma recs ++ [']'])) ++ [] ++ ['\x7d']))))))
    [("fingerprint".toList, JVal.str fps), ("certificates".toList, JVal.arr es)]
    (by simp) (by simpa using hF)
  have hlit1 : ("\x7b\"fingerprint\": \"".toList : List Char)
      = '\x7b' :: '"' :: 'f' :: 'i' :: 'n' :: 'g' :: 'e' :: 'r' :: 'p' :: 'r'
        :: 'i' :: 'n' :: 't' :: '"' :: ':' :: ' ' :: '"' :: [] := rfl
  have hlit2 : ("\", \"certificates\": [".toList : List Char)
      = '"' :: ',' :: ' ' :: '"' :: 'c' :: 'e' :: 'r' :: 't' :: 'i' :: 'f'
        :: 'i' :: 'c' :: 'a' :: 't' :: 'e' :: 's' :: '"' :: ':' :: ' ' :: '['
        :: [] := rfl
  have hlit3 : ("fingerprint".toList : List Char)
      = 'f' :: 'i' :: 'n' :: 'g' :: 'e' :: 'r' :: 'p' :: 'r' :: 'i' :: 'n'
        :: 't' :: [] := rfl
  have hlit4 : ("certificates".toList : List Char)
      = 'c' :: 'e' :: 'r' :: 't' :: 'i' :: 'f' :: 'i' :: 'c' :: 'a' :: 't'
        :: 'e' :: 's' :: [] := rfl
  have hL : header fps ++ interComma recs ++ [']', '\x7d']
      = [] ++ '\x7b' ::
        ([] ++ '"' :: (("fingerprint".toList ++ ['"']) ++ [] ++ ':' ::
          (([' '] ++ '"' :: (fps ++ ['"'])) ++ [] ++ ',' ::
            ([' '] ++ '"' :: (("certificates".toList ++ ['"']) ++ [] ++ ':' ::
              (([' '] ++ '[' :: (interComma recs ++ [']'])) ++ [] ++ ['\x7d'])))))) := by
    simp only [header, hlit1, hlit2, hlit3, hlit4, List.append_assoc,
      List.cons_append, List.nil_append, List.append_nil]
  obtain ⟨-, -, -, hsz, hrun⟩ := hV
  have hfuel : szJ (JVal.obj [("fingerprint".toList, JVal.str fps),
      ("certificates".toList, JVal.arr es)])
      ≤ szFuel (header fps ++ interComma recs ++ [']', '\x7d']) := by
    rw [hL]
    unfold szFuel
    omega
  have hrun2 : parseStep (szFuel (header fps ++ interComma recs ++ [']', '\x7d']))
      PReq.value (header fps ++ interComma recs ++ [']', '\x7d'])
      = some (POut.value (JVal.obj [("fingerprint".toList, JVal.str fps),
          ("certificates".toList, JVal.arr es)]), []) := by
    have hr := hrun _ [] hfuel trivial
    rwa [List.append_nil, ← hL] at hr
  unfold parseTop parseValue
  rw [hrun2]
  rfl

theorem mrGroup_foldl (input : List Char) :
    ∀ (ps : List (Nat × Nat)) (acc : List Char),
      ps.foldl (fun acc p => acc ++ rstrip (readAt input p.1 p.2) ++ [',']) acc
        = acc ++ (ps.map (fun p => rstrip (readAt input p.1 p.2) ++ [','])).flatten
  | [], acc => by simp
  | p :: ps, acc => by
    rw [List.foldl_cons, mrGroup_foldl input ps, List.map_cons, List.flatten_cons]
    simp [List.append_assoc]

theorem map_comma_flatten :
    ∀ (recs : List (List Char)), recs ≠ [] →
      (recs.map (fun r => r ++ [','])).flatten = interComma recs ++ [',']
  | [], h => absurd rfl h
  | [r], _ => by simp [interComma]
  | r :: r2 :: rs, _ => by
    rw [List.map_cons, List.flatten_cons, map_comma_flatten (r2 :: rs) (by simp),
      show interComma (r :: r2 :: rs) = r ++ ',' :: interComma (r2 :: rs) from rfl]
    simp [List.append_assoc]

theorem rstripComma_append (X : List Char)
    (h : ∀ c, X.getLast? = some c → c ≠ ',') :
    rstripComma (X ++ [',']) = X := by
  unfold rstripComma
  rw [List.reverse_append,
    show (List.reverse [','] : List Char) = [','] from rfl,
    List.singleton_append, List.dropWhile_cons, if_pos (by simp),
    dropWhile_head_false X.reverse ?_, List.reverse_reverse]
  intro c hc
  rw [List.head?_reverse] at hc
  simp [h c hc]

theorem dropLast_append_ne :
    ∀ (a b : List Char), b ≠ [] → (a ++ b).dropLast = a ++ b.dropLast
  | [], _, _ => by simp
  | c :: a, b, h => by
    rw [List.cons_append,
      List.dropLast_cons_of_ne_nil (fun hc => h (List.append_eq_nil.mp hc).2),
      dropLast_append_ne a b h, List.cons_append]

theorem record_fact (file : List Char) (k : JVal) (p : Nat × Nat)
    (hp : p ∈ occAux k (splitLines file) 0) :
    (∃ j, ValExt (rstrip (readAt file p.1 p.2)) j)
      ∧ '\n' ∉ rstrip (readAt file p.1 p.2) := by
  obtain ⟨A, l, B, hsplit, hfp, hpe⟩ := occAux_mem_decomp k (splitLines file) 0 p hp
  have hread : readAt file p.1 p.2 = l := by
    rw [hpe]
    show readAt file (0 + lenSum A) l.length = l
    rw [Nat.zero_add]
    exact readAt_decomp file A l B hsplit
  obtain ⟨j, hj⟩ : ∃ j, parseTop l = some j := by
    unfold extractFp at hfp
    cases hpt : parseTop l with
    | none => rw [hpt] at hfp; exact absurd hfp (by simp)
    | some j2 => exact ⟨j2, rfl⟩
  obtain ⟨pre, rem, hdec, hws, hV, hrs⟩ := parseTop_valExt l j hj
  rw [hread, hrs]
  have hinner : '\n' ∉ l.dropLast :=
    splitLines_no_inner_nl file l (by rw [hsplit]; simp)
  obtain ⟨c0, hcl, hcw, -⟩ := hV.2.2.1
  refine ⟨⟨j, hV⟩, ?_⟩
  intro hmem
  cases rem with
  | nil =>
    rw [List.append_nil] at hdec
    have hpredec : pre = pre.dropLast ++ [c0] :=
      (List.dropLast_append_getLast? c0 hcl).symm
    rw [hpredec] at hmem
    rcases List.mem_append.mp hmem with h2 | h2
    · exact hinner (by rw [hdec]; exact h2)
    · have : c0 = '\n' := (List.mem_singleton.mp h2).symm
      rw [this] at hcw
      exact absurd hcw (by decide)
  | cons r0 rem2 =>
    have : '\n' ∈ l.dropLast := by
      rw [hdec, dropLast_append_ne pre (r0 :: rem2) (by simp)]
      exact List.mem_append_left _ hmem
    exact hinner this

theorem header_no_nl (fps : List Char) (hsafe : strSafe fps = true) :
    '\n' ∉ header fps := by
  unfold header
  intro hmem
  rcases List.mem_append.mp hmem with h2 | h2
  · rcases List.mem_append.mp h2 with h3 | h3
    · exact absurd h3 (by decide)
    · have := List.all_eq_true.mp hsafe '\n' h3
      exact absurd this (by decide)
  · exact absurd h2 (by decide)

theorem mrGroupText_eq_dsRender (input fps : List Char) (ps : List (Nat × Nat))
    (hne : ps ≠ [])
    (hrec : ∀ r ∈ ps.map (fun p => rstrip (readAt input p.1 p.2)),
        r ≠ [] ∧ ∀ c, r.getLast? = some c → c ≠ ',') :
    mrGroupText input fps ps
      = dsRender fps (ps.map (fun p => rstrip (readAt input p.1 p.2))) := by
  have hrne : ps.map (fun p => rstrip (readAt input p.1 p.2)) ≠ [] := by
    intro hc
    exact hne (List.map_eq_nil_iff.mp hc)
  have hmm : (ps.map (fun p => rstrip (readAt input p.1 p.2) ++ [','])).flatten
      = interComma (ps.map (fun p => rstrip (readAt input p.1 p.2))) ++ [','] := by
    rw [show ps.map (fun p => rstrip (readAt input p.1 p.2) ++ [','])
        = (ps.map (fun p => rstrip (readAt input p.1 p.2))).map (fun r => r ++ [','])
      by rw [List.map_map]; rfl]
    exact map_comma_flatten _ hrne
  unfold mrGroupText dsRender
  rw [mrGroup_foldl, hmm, ← List.append_assoc, rstripComma_append]
  intro c hc
  obtain ⟨r, hrm, hrl⟩ := interComma_getLast? _ hrne (fun r hr => (hrec r hr).1)
  rw [getLast?_append_right _ _ (by
      intro hic
      rw [hic] at hrl
      have hrn := (hrec r hrm).1
      cases hx : r with
      | nil => exact hrn hx
      | cons a as =>
        rw [hx] at hrl
        rw [List.getLast?_nil] at hrl
        exact absurd hrl.symm (by simp)),
    hrl] at hc
  exact (hrec r hrm).2 c hc

theorem dsRender_oneLine (fps : List Char) (recs : List (List Char))
    (hsafe : strSafe fps = true)
    (hrecnl : ∀ r ∈ recs, '\n' ∉ r) :
    dsRender fps recs ≠ [] ∧ (dsRender fps recs).getLast? = some '\n'
      ∧ '\n' ∉ (dsRender fps recs).dropLast := by
  unfold dsRender sentinel
  refine ⟨by simp, ?_, ?_⟩
  · have h1 : ((header fps ++ interComma recs) ++ ("]\x7d\n".toList : List Char)).getLast?
        = ("]\x7d\n".toList : List Char).getLast? :=
      getLast?_append_right _ _ (by decide)
    rw [h1]
    rfl
  · have h1 : ((header fps ++ interComma recs) ++ ([']', '\x7d', '\n'] : List Char)).dropLast
        = (header fps ++ interComma recs) ++ ([']', '\x7d'] : List Char) :=
      dropLast_append_ne _ _ (by simp)
    rw [show ("]\x7d\n".toList : List Char) = [']', '\x7d', '\n'] from rfl, h1]
    intro hmem
    rcases List.mem_append.mp hmem with h2 | h2
    · rcases List.mem_append.mp h2 with h3 | h3
      · exact header_no_nl fps hsafe h3
      · rcases interComma_mem recs '\n' h3 with h4 | ⟨r, hr, hc⟩
        · exact absurd h4 (by decide)
        · exact hrecnl r hr hc
    · exact absurd h2 (by decide)

theorem dsMerge_filesFrom (f : JVal → List Char) :
    ∀ (ks : List JVal) (base : Nat),
      dsMerge (filesFrom f base ks) = (ks.map f).flatten
  | [], _ => rfl
  | k :: ks, base => by
    show f k ++ dsMerge (filesFrom f (base + 1) ks) = f k ++ (ks.map f).flatten
    rw [dsMerge_filesFrom f ks (base + 1)]

theorem out_flatten_lines (file : List Char) (KS : List JVal)
    (hks : ∀ k ∈ KS, 2 ≤ countK (splitLines file) k ∧ strSafe (pyStr k) = true) :
    ∀ l ∈ outLines ((KS.map (fun k =>
        dsRender (pyStr k) (recsOf file (splitLines file) k))).flatten),
      ∃ k es, 2 ≤ countK (splitLines file) k
        ∧ es.length = countK (splitLines file) k
        ∧ parseTop l = some (JVal.obj [("fingerprint".toList, JVal.str (pyStr k)),
            ("certificates".toList, JVal.arr es)]) := by
  have hrec : ∀ k ∈ KS, ∀ r ∈ recsOf file (splitLines file) k,
      (∃ j, ValExt r j) ∧ '\n' ∉ r := by
    intro k hk r hr
    unfold recsOf at hr
    obtain ⟨p, hp, rfl⟩ := List.mem_map.mp hr
    exact record_fact file k p hp
  have hone : ∀ t ∈ KS.map (fun k =>
      dsRender (pyStr k) (recsOf file (splitLines file) k)),
      t ≠ [] ∧ t.getLast? = some '\n' ∧ '\n' ∉ t.dropLast := by
    intro t ht
    obtain ⟨k, hk, rfl⟩ := List.mem_map.mp ht
    exact dsRender_oneLine (pyStr k) _ (hks k hk).2
      (fun r hr => (hrec k hk r hr).2)
  intro l hl
  unfold outLines at hl
  rw [splitLines_flatten_of_lines _ hone] at hl
  obtain ⟨t, ht, rfl⟩ := List.mem_map.mp hl
  obtain ⟨k, hk, rfl⟩ := List.mem_map.mp ht
  obtain ⟨hone1, hone2, hone3⟩ := hone _ (List.mem_map.mpr ⟨k, hk, rfl⟩)
  rw [if_pos hone2]
  have hdl : (dsRender (pyStr k) (recsOf file (splitLines file) k)).dropLast
      = header (pyStr k) ++ interComma (recsOf file (splitLines file) k)
        ++ [']', '\x7d'] := by
    unfold dsRender sentinel
    rw [show ("]\x7d\n".toList : List Char) = [']', '\x7d', '\n'] from rfl,
      dropLast_append_ne _ _ (by simp)]
    rfl
  rw [hdl]
  have hlenrec : (recsOf file (splitLines file) k).length
      = countK (splitLines file) k := by
    unfold recsOf
    rw [List.length_map, occAux_length]
  have hne : recsOf file (splitLines file) k ≠ [] := by
    intro hc
    rw [hc] at hlenrec
    have h2 := (hks k hk).1
    simp only [List.length_nil] at hlenrec
    omega
  obtain ⟨es, heslen, hparse⟩ := groupLine_parses (pyStr k) _ (hks k hk).2 hne
    (fun r hr => (hrec k hk r hr).1)
  exact ⟨k, es, (hks k hk).1, by rw [heslen, hlenrec], hparse⟩

theorem record_ok (file : List Char) (k : JVal) (p : Nat × Nat)
    (hp : p ∈ occAux k (splitLines file) 0) :
    rstrip (readAt file p.1 p.2) ≠ []
      ∧ ∀ c, (rstrip (readAt file p.1 p.2)).getLast? = some c → c ≠ ',' := by
  obtain ⟨⟨j, hV⟩, -⟩ := record_fact file k p hp
  obtain ⟨h1, -, ⟨c0, hcl, -, hcc⟩, -, -⟩ := hV
  refine ⟨h1, ?_⟩
  intro c hc
  rw [hcl] at hc
  rw [← Option.some.inj hc]
  exact hcc

/-- C6 (amended): provided every extracted fingerprint is template-safe
(no quote, backslash or control character — the source interpolates the
raw fingerprint into the output with `'%s'` and no escaping), every line
of the final output of either completed strategy is a syntactically valid
JSON document: it parses to an object with the field `fingerprint` holding
the fingerprint string and the field `certificates` holding an array whose
length is the fingerprint's occurrence count (necessarily at least 2) in
the input.  Without the safety proviso this fails; see the
counterexample. -/
theorem c6_output_lines_valid_json (file : List Char)
    (hsafe : fpsSafe file = true) :
    (∀ out, mrRun file = Except.ok out →
      ∀ l ∈ outLines out, ∃ k es, 2 ≤ countK (splitLines file) k
        ∧ es.length = countK (splitLines file) k
        ∧ parseTop l = some (JVal.obj [("fingerprint".toList, JVal.str (pyStr k)),
            ("certificates".toList, JVal.arr es)]))
    ∧ (∀ out, dsRun file = Except.ok out →
      ∀ l ∈ outLines out, ∃ k es, 2 ≤ countK (splitLines file) k
        ∧ es.length = countK (splitLines file) k
        ∧ parseTop l = some (JVal.obj [("fingerprint".toList, JVal.str (pyStr k)),
            ("certificates".toList, JVal.arr es)])) := by
  have hsafe2 : ∀ l ∈ splitLines file, ∀ k, extractFp l = some k →
      strSafe (pyStr k) = true := by
    intro l hl k hk
    have h2 := List.all_eq_true.mp hsafe l hl
    rw [hk] at h2
    exact h2
  have hsafeK : ∀ k, 2 ≤ countK (splitLines file) k → strSafe (pyStr k) = true := by
    intro k h2
    have hpos : 0 < (splitLines file).countP
        (fun l => decide (extractFp l = some k)) := by
      have : countK (splitLines file) k
          = (splitLines file).countP (fun l => decide (extractFp l = some k)) := rfl
      omega
    obtain ⟨l0, hl0, hfp⟩ := List.countP_pos_iff.mp hpos
    exact hsafe2 l0 hl0 k (of_decide_eq_true hfp)
  constructor
  · intro out hout
    unfold mrRun at hout
    cases hscan : mrScanFrom (splitLines file) 0 0 [] with
    | error i =>
      rw [hscan] at hout
      exact absurd hout (by simp [Except.map])
    | ok m =>
      rw [hscan] at hout
      have hout2 : mrWrite file m = out := by
        simpa [Except.map] using hout
      obtain ⟨hok, hinv⟩ := mrScan_inv (splitLines file) m hscan
      have hnd : (m.map Prod.fst).Nodup := by
        rw [hinv.1]
        exact (seenDup_props _ [] [] (by simp) List.nodup_nil List.nodup_nil).2.1
      have hentry : ∀ e ∈ m.filter (fun e => decide (1 < e.2.length)),
          e.2 = occAux e.1 (splitLines file) 0
            ∧ 2 ≤ countK (splitLines file) e.1 := by
        intro e he
        obtain ⟨hem, hlen⟩ := List.mem_filter.mp he
        have hlk := lookupA_of_mem m e hnd hem
        have hl := hinv.2 e.1
        rw [hlk] at hl
        refine ⟨hl.1, ?_⟩
        rw [← occAux_length e.1 (splitLines file) 0, ← hl.1]
        have : 1 < e.2.length := of_decide_eq_true hlen
        omega
      have hw : mrWrite file m
          = (((m.filter (fun e => decide (1 < e.2.length))).map Prod.fst).map
              (fun k => dsRender (pyStr k)
                (recsOf file (splitLines file) k))).flatten := by
        rw [mrWrite_eq_join]
        rw [List.map_map]
        refine congrArg List.flatten (List.map_congr_left ?_)
        intro e he
        obtain ⟨heq, hcnt⟩ := hentry e he
        show mrGroupText file (pyStr e.1) e.2
          = dsRender (pyStr e.1) (recsOf file (splitLines file) e.1)
        have hlen2 : 2 ≤ e.2.length := by
          rw [heq, occAux_length]
          exact hcnt
        have hne2 : e.2 ≠ [] := by
          intro hc
          rw [hc] at hlen2
          simp at hlen2
        have hrc : ∀ r ∈ e.2.map (fun p => rstrip (readAt file p.1 p.2)),
            r ≠ [] ∧ ∀ c, r.getLast? = some c → c ≠ ',' := by
          intro r hr
          obtain ⟨p, hp, rfl⟩ := List.mem_map.mp hr
          exact record_ok file e.1 p (heq ▸ hp)
        rw [mrGroupText_eq_dsRender file (pyStr e.1) e.2 hne2 hrc]
        show dsRender _ (e.2.map _) = dsRender _ (recsOf file (splitLines file) e.1)
        unfold recsOf
        rw [heq]
      intro l hl
      rw [← hout2, hw] at hl
      refine out_flatten_lines file _ ?_ l hl
      intro k hkm
      obtain ⟨e, he, rfl⟩ := List.mem_map.mp hkm
      exact ⟨(hentry e he).2, hsafeK e.1 (hentry e he).2⟩
  · intro out hout
    unfold dsRun at hout
    cases hscan : dsScanFrom file (splitLines file) 0 0 ⟨[], 0, []⟩ with
    | error i =>
      rw [hscan] at hout
      exact absurd hout (by simp [Except.map])
    | ok st =>
      rw [hscan] at hout
      have hout2 : dsMerge st.files = out := by
        simpa [Except.map] using hout
      obtain ⟨hok, hinv⟩ := dsScan_inv file st hscan
      have hdups : ∀ k ∈ (seenDup (splitLines file) ([], [])).2,
          2 ≤ countK (splitLines file) k := by
        intro k hk
        have hsd := (seenDup_mem k (splitLines file) [] [] hok (by simp)).2
        rcases hsd.mp hk with h | h | h
        · simp at h
        · simp at h
        · exact h
      intro l hl
      rw [← hout2, hinv.2.1, dsMerge_filesFrom] at hl
      refine out_flatten_lines file _ ?_ l hl
      intro k hk
      exact ⟨hdups k hk, hsafeK k (hdups k hk)⟩

set_option maxRecDepth 10000 in
/-- C6 (counterexample to the claim as stated): with two copies of a line
whose fingerprint value is the three-character string with a double quote
in the middle (JSON `"a\"b"`), both strategies complete and emit one
output line, but that line is NOT valid JSON — the raw fingerprint is
interpolated into the output template without escaping, so its quote
terminates the `fingerprint` string early and the parse fails. -/
theorem c6_counterexample :
    ∃ out l,
      mrRun
          ("\x7b\"data\": \x7b\"leaf_cert\": \x7b\"fingerprint\": \"a\\\"b\"\x7d\x7d\x7d\n".toList
            ++ "\x7b\"data\": \x7b\"leaf_cert\": \x7b\"fingerprint\": \"a\\\"b\"\x7d\x7d\x7d\n".toList)
        = Except.ok out
      ∧ dsRun
          ("\x7b\"data\": \x7b\"leaf_cert\": \x7b\"fingerprint\": \"a\\\"b\"\x7d\x7d\x7d\n".toList
            ++ "\x7b\"data\": \x7b\"leaf_cert\": \x7b\"fingerprint\": \"a\\\"b\"\x7d\x7d\x7d\n".toList)
        = Except.ok out
      ∧ l ∈ outLines out ∧ parseTop l = none := by
  refine ⟨"\x7b\"fingerprint\": \"a\"b\", \"certificates\": [\x7b\"data\": \x7b\"leaf_cert\": \x7b\"fingerprint\": \"a\\\"b\"\x7d\x7d\x7d,\x7b\"data\": \x7b\"leaf_cert\": \x7b\"fingerprint\": \"a\\\"b\"\x7d\x7d\x7d]\x7d\n".toList,
    "\x7b\"fingerprint\": \"a\"b\", \"certificates\": [\x7b\"data\": \x7b\"leaf_cert\": \x7b\"fingerprint\": \"a\\\"b\"\x7d\x7d\x7d,\x7b\"data\": \x7b\"leaf_cert\": \x7b\"fingerprint\": \"a\\\"b\"\x7d\x7d\x7d]\x7d".toList,
    ?_, ?_, ?_, ?_⟩
  · rfl
  · rfl
  · decide
  · rfl

/-! ### Concrete runs used to instantiate the conditional claims -/

set_option maxRecDepth 10000 in
theorem c1_duplicate_group_unique_witness :
    2 ≤ countK (splitLines wfileAB) (JVal.str "AB".toList)
    ∧ (mrDupGroups wfileAB wMAB).countP
        (fun g => decide (g.1 = JVal.str "AB".toList)) = 1 :=
  ⟨by decide,
   ((c1_duplicate_group_unique wfileAB (JVal.str "AB".toList) (by decide)).1
      wMAB (by rfl)).2.1⟩

set_option maxRecDepth 10000 in
theorem c2_strategies_equivalent_witness :
    (mrDupGroups wfileAB wMAB).countP
        (fun g => decide (g.1 = JVal.str "AB".toList)) = 1
      ↔ (∃ mv, lookupA wStAB.fmap (JVal.str "AB".toList) = some mv
          ∧ mv.tag = Tag.EX) :=
  (c2_strategies_equivalent wfileAB wMAB wStAB (by rfl) (by rfl)
    (JVal.str "AB".toList)).1

set_option maxRecDepth 10000 in
theorem c5_singleton_no_group_witness :
    countK (splitLines wLineAB) (JVal.str "AB".toList) = 1
    ∧ (mrDupGroups wLineAB [(JVal.str "AB".toList, [(0, 47)])]).countP
        (fun g => decide (g.1 = JVal.str "AB".toList)) = 0 :=
  ⟨by decide,
   (c5_singleton_no_group wLineAB (JVal.str "AB".toList) (by decide)).1
     [(JVal.str "AB".toList, [(0, 47)])] (by rfl)⟩

theorem c7_deterministic_witness :
    mrRun [] = mrRun [] ∧ dsRun [] = dsRun [] :=
  c7_deterministic [] [] rfl

theorem c8_malformed_aborts_witness :
    mrRun "junk\n".toList = Except.error 0
      ∧ dsRun "junk\n".toList = Except.error 0 :=
  c8_malformed_aborts ("junk\n".toList) [] ("junk\n".toList) [] (by rfl)
    (fun l hl => absurd hl (by simp)) (by rfl)

set_option maxRecDepth 10000 in
theorem c6_output_lines_valid_json_witness :
    fpsSafe wfileAB = true
    ∧ (∀ out, mrRun wfileAB = Except.ok out →
        ∀ l ∈ outLines out, ∃ k es, 2 ≤ countK (splitLines wfileAB) k
          ∧ es.length = countK (splitLines wfileAB) k
          ∧ parseTop l = some (JVal.obj [("fingerprint".toList, JVal.str (pyStr k)),
              ("certificates".toList, JVal.arr es)])) :=
  ⟨by decide, (c6_output_lines_valid_json wfileAB (by decide)).1⟩
